import Mathlib

/-!
Verification of the feed cache & reconciliation engine of the `planet`
aggregator (`src/code/planet/__init__.py`).

Modeling conventions (shallow embedding):

* Dates.  The source manipulates 9-component UTC `struct_time` tuples produced
  by the external feed parser and by `time.gmtime()`.  Those tuples are always
  normalized, and on normalized UTC tuples the tuple (lexicographic) comparison
  used by the source agrees with comparison of the corresponding timestamps.
  We therefore model a date as its timestamp, an `Int` number of seconds.
  `time.mktime` is modeled as the partial identity on a platform `time_t`
  range (the classic 32-bit range); outside the range it raises
  `OverflowError`, modeled as `none`.  `time.mktime` actually returns a float,
  but its values on integral inputs are integral and far below 2^53, so
  comparisons are exact and `Int` is adequate.

* The typed record store (`planet/cache.py`) is not under `src/`; only its
  callers are.  Its operations (`get`, `set_as_string`, `set_as_date`,
  key-presence, attribute access) are modelled from the spec, section 4.1:
  a record is a mapping from field name to a typed value (`STRING` or `DATE`),
  reading an absent key yields NULL, and each write fixes the field's type.
  Attribute reads/writes on `NewsItem`/`Channel` go through this mapping.

* `hashlib.md5` is an external collaborator; functions that need it take the
  hex-digest function as an explicit argument `md5hex`.

* Compiled regular expressions (`re`) are external; a compiled pattern is
  modeled as a `String → Bool` search predicate.

* Python's `list.sort` on the `(time_since_epoch, order, item)` tuples is a
  stable ascending sort, followed by `reverse()`.  We model it as sorting the
  index-tagged item list by the strict total order "key descending, original
  position descending", which is extensionally the unique result of a stable
  ascending sort followed by a reversal.
-/

/-! ### Ordering comparators and their laws -/

/-- Three-way comparison of integers. -/
def cmpInt (a b : Int) : Ordering :=
  if a < b then .lt else if a = b then .eq else .gt

/-- Three-way comparison of naturals. -/
def cmpNat (a b : Nat) : Ordering :=
  if a < b then .lt else if a = b then .eq else .gt

/-- Lexicographic comparison of character lists by code point, mirroring
Python string comparison. -/
def cmpCharList : List Char → List Char → Ordering
  | [], [] => .eq
  | [], _ :: _ => .lt
  | _ :: _, [] => .gt
  | c :: cs, d :: ds => (cmpNat c.toNat d.toNat).then (cmpCharList cs ds)

/-- Python string comparison (lexicographic by code point). -/
def cmpStr (s t : String) : Ordering := cmpCharList s.data t.data

/-- Lift a comparator to `Option`; an absent value sorts first.  (Python
raises on `None`-vs-value comparisons; entries reaching the sort normally have
all components present, see the call sites.) -/
def cmpOpt (c : α → α → Ordering) : Option α → Option α → Ordering
  | none, none => .eq
  | none, some _ => .lt
  | some _, none => .gt
  | some a, some b => c a b

/-- A lawful three-way comparator: antisymmetric under swap and transitive. -/
structure LawfulCmp (c : α → α → Ordering) : Prop where
  symm : ∀ a b, c a b = (c b a).swap
  le_trans : ∀ {a b x}, c a b ≠ .gt → c b x ≠ .gt → c a x ≠ .gt

theorem LawfulCmp.eq_symm {c : α → α → Ordering} (h : LawfulCmp c) {a b : α}
    (hab : c a b = .eq) : c b a = .eq := by
  rw [h.symm b a, hab]; rfl

theorem LawfulCmp.gt_symm {c : α → α → Ordering} (h : LawfulCmp c) {a b : α}
    (hab : c a b = .gt) : c b a = .lt := by
  rw [h.symm b a, hab]; rfl

theorem LawfulCmp.lt_symm {c : α → α → Ordering} (h : LawfulCmp c) {a b : α}
    (hab : c a b = .lt) : c b a = .gt := by
  rw [h.symm b a, hab]; rfl

theorem LawfulCmp.not_lt_iff {c : α → α → Ordering} (h : LawfulCmp c) {a b : α} :
    c a b ≠ .lt ↔ c b a ≠ .gt := by
  constructor
  · intro hab hgt
    exact hab (h.gt_symm hgt)
  · intro hab hlt
    exact hab (h.lt_symm hlt)

/-- In a lawful comparator, an `eq` witness lets us replace the left argument. -/
theorem LawfulCmp.congr_left {c : α → α → Ordering} (h : LawfulCmp c) {a b : α}
    (hab : c a b = .eq) (x : α) : c a x = c b x := by
  have hba : c b a = .eq := h.eq_symm hab
  have h1 : (c a x ≠ .gt) ↔ (c b x ≠ .gt) :=
    ⟨fun hax => h.le_trans (by simp [hba]) hax,
     fun hbx => h.le_trans (by simp [hab]) hbx⟩
  have h2 : (c a x ≠ .lt) ↔ (c b x ≠ .lt) := by
    rw [h.not_lt_iff, h.not_lt_iff]
    exact ⟨fun hxa => h.le_trans hxa (by simp [hab]),
           fun hxb => h.le_trans hxb (by simp [hba])⟩
  cases hax : c a x <;> cases hbx : c b x <;>
      rw [hax, hbx] at h1 h2 <;> simp_all

theorem LawfulCmp.congr_right {c : α → α → Ordering} (h : LawfulCmp c) {a b : α}
    (hab : c a b = .eq) (x : α) : c x a = c x b := by
  rw [h.symm x a, h.symm x b, h.congr_left hab x]

/-- Strict transitivity: `lt` then `le` gives `lt`. -/
theorem LawfulCmp.lt_of_lt_of_le {c : α → α → Ordering} (h : LawfulCmp c) {a b x : α}
    (hab : c a b = .lt) (hbx : c b x ≠ .gt) : c a x = .lt := by
  by_contra hax
  have hxa : c x a ≠ .gt := h.not_lt_iff.mp hax
  have hxb : c x b ≠ .gt := h.le_trans hxa (by simp [hab])
  have hbx2 : c b x ≠ .lt := h.not_lt_iff.mpr hxb
  cases hbxv : c b x with
  | lt => exact hbx2 hbxv
  | gt => exact hbx hbxv
  | eq =>
    have hcongr : c a b = c a x := h.congr_right hbxv a
    rw [hab] at hcongr
    exact hax hcongr.symm

/-- Lexicographic composition of lawful comparators is lawful. -/
theorem LawfulCmp.then_comp {c₁ c₂ : α → α → Ordering}
    (h₁ : LawfulCmp c₁) (h₂ : LawfulCmp c₂) :
    LawfulCmp (fun a b => (c₁ a b).then (c₂ a b)) := by
  constructor
  · intro a b
    rw [h₁.symm a b, h₂.symm a b]
    cases c₁ b a <;> cases c₂ b a <;> rfl
  · intro a b x hab hbx
    simp only at hab hbx ⊢
    cases h1ab : c₁ a b with
    | gt => rw [h1ab] at hab; exact absurd rfl hab
    | lt =>
      have h1bx : c₁ b x ≠ .gt := by
        intro hg
        rw [hg] at hbx
        exact hbx rfl
      have hax : c₁ a x = .lt := h₁.lt_of_lt_of_le h1ab h1bx
      rw [hax]
      intro hcontra
      cases c₂ a x <;> simp [Ordering.then] at hcontra
    | eq =>
      rw [h1ab] at hab
      have hab2 : c₂ a b ≠ .gt := by
        intro hg; rw [hg] at hab; exact hab rfl
      have haxbx : c₁ a x = c₁ b x := h₁.congr_left h1ab x
      cases h1bx : c₁ b x with
      | gt => rw [h1bx] at hbx; exact absurd rfl hbx
      | lt =>
        rw [haxbx, h1bx]
        intro hcontra
        cases c₂ a x <;> simp [Ordering.then] at hcontra
      | eq =>
        rw [h1bx] at hbx
        have hbx2 : c₂ b x ≠ .gt := by
          intro hg; rw [hg] at hbx; exact hbx rfl
        rw [haxbx, h1bx]
        have : c₂ a x ≠ .gt := h₂.le_trans hab2 hbx2
        intro hcontra
        cases hv : c₂ a x <;> rw [hv] at hcontra <;> simp [Ordering.then] at hcontra
        exact this hv

theorem lawful_cmpInt : LawfulCmp cmpInt := by
  constructor
  · intro a b
    unfold cmpInt
    rcases lt_trichotomy a b with h | h | h
    · rw [if_pos h, if_neg (by omega), if_neg (by omega)]; rfl
    · rw [if_neg (by omega), if_pos h, if_neg (by omega), if_pos h.symm]; rfl
    · rw [if_neg (by omega), if_neg (by omega), if_pos h]; rfl
  · intro a b x hab hbx
    unfold cmpInt at *
    split_ifs at * <;> simp_all <;> omega

theorem lawful_cmpNat : LawfulCmp cmpNat := by
  constructor
  · intro a b
    unfold cmpNat
    rcases Nat.lt_trichotomy a b with h | h | h
    · rw [if_pos h, if_neg (by omega), if_neg (by omega)]; rfl
    · rw [if_neg (by omega), if_pos h, if_neg (by omega), if_pos h.symm]; rfl
    · rw [if_neg (by omega), if_neg (by omega), if_pos h]; rfl
  · intro a b x hab hbx
    unfold cmpNat at *
    split_ifs at * <;> simp_all <;> omega

theorem lawful_cmpCharList : LawfulCmp cmpCharList := by
  constructor
  · intro a b
    induction a generalizing b with
    | nil => cases b <;> rfl
    | cons c cs ih =>
      cases b with
      | nil => rfl
      | cons d ds =>
        show (cmpNat c.toNat d.toNat).then (cmpCharList cs ds) =
          ((cmpNat d.toNat c.toNat).then (cmpCharList ds cs)).swap
        rw [ih ds, lawful_cmpNat.symm c.toNat d.toNat]
        cases cmpNat d.toNat c.toNat <;> cases cmpCharList ds cs <;> rfl
  · intro a b x hab hbx
    induction a generalizing b x with
    | nil =>
      cases x with
      | nil => simp [cmpCharList]
      | cons e es => simp [cmpCharList]
    | cons c cs ih =>
      cases b with
      | nil => simp [cmpCharList] at hab
      | cons d ds =>
        cases x with
        | nil => exact absurd rfl hbx
        | cons e es =>
          simp only [cmpCharList] at hab hbx ⊢
          cases hcd : cmpNat c.toNat d.toNat <;> rw [hcd] at hab <;>
            simp [Ordering.then] at hab
          · -- c < d
            have hde : cmpNat d.toNat e.toNat ≠ .gt := by
              intro hg
              rw [hg] at hbx
              exact hbx rfl
            have hce : cmpNat c.toNat e.toNat = .lt :=
              lawful_cmpNat.lt_of_lt_of_le hcd hde
            rw [hce]
            intro hcontra
            cases cmpCharList cs es <;> simp [Ordering.then] at hcontra
          · -- c = d
            have hcex : cmpNat c.toNat e.toNat = cmpNat d.toNat e.toNat :=
              lawful_cmpNat.congr_left hcd e.toNat
            cases hde : cmpNat d.toNat e.toNat <;> rw [hde] at hbx <;>
              simp [Ordering.then] at hbx
            · rw [hcex, hde]
              intro hcontra
              cases cmpCharList cs es <;> simp [Ordering.then] at hcontra
            · rw [hcex, hde]
              intro hcontra
              cases hv : cmpCharList cs es <;> rw [hv] at hcontra <;>
                simp [Ordering.then] at hcontra
              exact ih hab hbx hv

theorem lawful_cmpStr : LawfulCmp cmpStr := by
  constructor
  · intro a b
    exact lawful_cmpCharList.symm a.data b.data
  · intro a b x hab hbx
    exact lawful_cmpCharList.le_trans hab hbx

theorem lawful_cmpOpt {c : α → α → Ordering} (h : LawfulCmp c) :
    LawfulCmp (cmpOpt c) := by
  constructor
  · intro a b
    cases a <;> cases b <;> simp only [cmpOpt] <;> try rfl
    exact h.symm _ _
  · intro a b x hab hbx
    cases a <;> cases b <;> cases x <;> simp only [cmpOpt] at * <;>
      first
      | exact hbx
      | exact hab
      | exact absurd rfl hab
      | exact absurd rfl hbx
      | exact h.le_trans hab hbx
      | simp

theorem cmpNat_eq_iff {a b : Nat} : cmpNat a b = .eq ↔ a = b := by
  unfold cmpNat
  split_ifs with h1 h2 <;> simp_all <;> omega

/-! ### The typed record store (modelled from the spec, section 4.1) -/

/-- A typed field value: `STRING` or `DATE`.  Modelled from the spec:
`planet/cache.py` is not under `src/`; section 4.1 specifies that each field
stores a value together with its type, and that dates are canonical UTC time
tuples (modeled here by their timestamp). -/
inductive FieldVal where
  | str (v : String)
  | date (v : Int)
deriving DecidableEq, Repr

/-- The overlay of a record: an association list from field name to typed
value, insertion-ordered like a Python dict. -/
abbrev Fields := List (String × FieldVal)

/-- Read a field; an absent key yields `none` (the spec's `NULL`). -/
def Fields.get : Fields → String → Option FieldVal
  | [], _ => none
  | (k', v) :: rest, k => if k' == k then some v else Fields.get rest k

/-- Write a field, replacing in place (dict semantics: an existing key keeps
its position, a new key is appended). -/
def Fields.set : Fields → String → FieldVal → Fields
  | [], k, v => [(k, v)]
  | (k', v') :: rest, k, v =>
    if k' == k then (k, v) :: rest else (k', v') :: Fields.set rest k v

/-! ### NewsItem: stored state and accessors -/

/-- One cached feed entry: its record-store overlay
(`NewsItem` in the source; the `_channel` back-reference is passed explicitly
to the operations that read channel state). -/
structure NewsItem where
  fields : Fields
deriving DecidableEq, Repr

def NewsItem.get (it : NewsItem) (k : String) : Option FieldVal :=
  it.fields.get k

def NewsItem.setStr (it : NewsItem) (k v : String) : NewsItem :=
  ⟨it.fields.set k (.str v)⟩

def NewsItem.setDate (it : NewsItem) (k : String) (v : Int) : NewsItem :=
  ⟨it.fields.set k (.date v)⟩

/-- The item's `id` attribute, set at construction.  (Reading it as a string;
`NewsItem.__init__` always stores the string id.) -/
def NewsItem.id (it : NewsItem) : String :=
  match it.get "id" with
  | some (.str v) => v
  | _ => ""

/-- The `date` attribute as a date value; `none` when absent or non-date
(the source would raise when such an item reaches `mktime`). -/
def NewsItem.dateF (it : NewsItem) : Option Int :=
  match it.get "date" with
  | some (.date d) => some d
  | _ => none

/-- The `order` attribute as a string; `none` when absent or non-string. -/
def NewsItem.orderF (it : NewsItem) : Option String :=
  match it.get "order" with
  | some (.str v) => some v
  | _ => none

/-- Whether the item is hidden: the source tests `"hidden" not in item`,
i.e. mere key presence. -/
def NewsItem.hiddenF (it : NewsItem) : Bool :=
  (it.get "hidden").isSome

/-- A fresh `NewsItem` (the constructor): stores `id` and `id_hash`; `date`,
`order` and `content` are initialized to `None`, i.e. absent. -/
def NewsItem.mk0 (md5hex : String → String) (id_ : String) : NewsItem :=
  ⟨[("id", .str id_), ("id_hash", .str (md5hex id_))]⟩

/-- `get_as_date`: read a field expecting a date.  (On a string-typed field
the real store raises a decode error; modeled as `none`.  Entries from the
external parser deliver all date claims pre-parsed — spec section 6 — so the
mismatch branch is not reachable from well-formed parser output.) -/
def NewsItem.get_as_date (it : NewsItem) (k : String) : Option Int :=
  match it.get k with
  | some (.date d) => some d
  | _ => none

/-! ### mktime and the numeric sort key -/

/-- Lower end of the modeled `time_t` range. -/
def mktimeLow : Int := -2147483648

/-- Upper end of the modeled `time_t` range. -/
def mktimeHigh : Int := 2147483647

/-- `time.mktime`: the timestamp when representable, `none` (OverflowError)
outside the platform range. -/
def mktime (d : Int) : Option Int :=
  if mktimeLow ≤ d ∧ d ≤ mktimeHigh then some d else none

/-- `NewsItem.time_since_epoch`: `mktime(self.date)`, substituting `0.0` when
`mktime` raises `OverflowError`.  (A `None` date would raise `TypeError` in
the source — not caught there; items reaching the sort have their date set by
`get_date`.  Modeled as 0.) -/
def NewsItem.time_since_epoch (it : NewsItem) : Int :=
  match it.dateF with
  | some d => (mktime d).getD 0
  | none => 0

/-! ### Feed entries (the external parser's output shape) -/

/-- One block of a multi-part `content` field. -/
structure ContentPart where
  typ : String
  language : Option String
  value : String
deriving DecidableEq, Repr

/-- A value in a parsed feed entry: a plain string, a pre-parsed date
(`*_parsed` keys; the parser may yield `None`), a `*_detail` sub-object, the
composite `source` object, or the multi-part `content` list. -/
inductive EVal where
  | s (v : String)
  | d (v : Option Int)
  | detail (typ nm em lang : Option String)
  | source (value url : Option String)
  | content (parts : List ContentPart)
deriving DecidableEq, Repr

/-- A parsed feed entry: an insertion-ordered mapping from key to value. -/
structure Entry where
  kvs : List (String × EVal)
deriving DecidableEq, Repr

def Entry.get (e : Entry) (k : String) : Option EVal :=
  match e.kvs.find? (fun kv => kv.1 == k) with
  | some kv => some kv.2
  | none => none

def Entry.hasKey (e : Entry) (k : String) : Bool :=
  (e.get k).isSome

/-- `cache.utf8` on parser strings is the identity (Python 3 strings).
Modelled from the spec: the record-store module is not under `src/`; section 6
says parser output fields are strings, on which utf8-normalization is the
identity.  Non-string values are outside the modeled universe. -/
def utf8 (v : EVal) : String :=
  match v with
  | .s s => s
  | _ => ""

/-- `xml.sax.saxutils.escape`: replace the three XML special characters. -/
def escapeChars : List Char → List Char
  | [] => []
  | c :: cs =>
    (if c = '&' then "&amp;".data
     else if c = '<' then "&lt;".data
     else if c = '>' then "&gt;".data
     else [c]) ++ escapeChars cs

def escapeHtml (s : String) : String := ⟨escapeChars s.data⟩

/-- String suffix test (`str.endswith`). -/
def strEndsWith (s suffix : String) : Bool :=
  suffix.data.isSuffixOf s.data

/-- Drop the last 7 characters (`key[:-7]`, `len("_parsed") = 7`). -/
def dropLast7 (k : String) : String :=
  ⟨k.data.take (k.data.length - 7)⟩

/-- `key[: -len("_parsed")]`: drop a suffix of length 7. -/
def stripParsedSuffix (k : String) : String := dropLast7 k

/-- `key.replace("_detail", X)` for keys that end in `"_detail"`. -/
def detailReplace (k : String) (x : String) : String :=
  dropLast7 k ++ x

/-! ### Channel state -/

/-- One cached feed (`Channel` in the source), restricted to the fields the
reconciliation and query algorithms read or write.  `chanFilter`/`chanExclude`
are the compiled per-channel regexes (external, modeled as predicates);
`nameF` is the `name` record field; `chanHidden` is presence of the channel
`hidden` field. -/
structure Channel where
  url : String
  url_status : Option String
  nameF : Option String
  chanHidden : Bool
  language : Option String
  chanFilter : Option (String → Bool)
  chanExclude : Option (String → Bool)
  updated : Option Int
  last_updated : Option Int
  next_order : String
  items : List NewsItem
  expired : List NewsItem

/-! ### NewsItem date resolution (`get_date`) and field merge (`update`) -/

/-- The claimed-date keys probed by `get_date`, in order. -/
def claimKeys : List String := ["updated", "modified", "published", "issued", "created"]

/-- The `for ... break / else` search in `get_date`: the first *present* key
among the claim keys, read as a date.  (A present but string-typed claim makes
the store raise in the source; modeled as `none`, which then falls through to
the cached-value branch.) -/
def NewsItem.claimedDate (it : NewsItem) : Option Int :=
  match claimKeys.find? (fun k => (it.get k).isSome) with
  | some k => it.get_as_date k
  | none => none

/-- `NewsItem.get_date(key)`: resolve the canonical sort date and write it
back; returns the updated item and the resolved date. -/
def NewsItem.get_date (ch : Channel) (it : NewsItem) (key : String) :
    NewsItem × Option Int :=
  match it.claimedDate with
  | some d =>
    let d' := match ch.updated with
      | some u => if d > u then u else d
      | none => d
    (it.setDate key d', some d')
  | none =>
    if (it.get key).isSome then (it, it.get_as_date key)
    else
      match ch.updated with
      | some u => (it.setDate key u, some u)
      | none => (it, none)

/-- The `IGNORE_KEYS` tuple of `NewsItem`. -/
def newsItemIgnoreKeys : List String :=
  ["categories", "contributors", "enclosures", "links", "guidislink", "date", "tags"]

/-- The content-part value contribution: HTML markup is kept verbatim,
plain text is escaped, anything else passes through. -/
def contentPV (part : ContentPart) : String :=
  if part.typ == "text/html" then part.value
  else if part.typ == "text/plain" then escapeHtml part.value
  else part.value

/-- Merge one `(key, value)` pair of a parsed entry into the item
(the body of the `for key in entry.keys()` loop of `NewsItem.update`). -/
def NewsItem.updKey (ch : Channel) (e : Entry) (it : NewsItem)
    (k : String) (v : EVal) : NewsItem :=
  if k ∈ newsItemIgnoreKeys || (k ++ "_parsed") ∈ newsItemIgnoreKeys then
    it
  else if e.hasKey (k ++ "_parsed") then
    it
  else if strEndsWith k "_detail" then
    match v with
    | .detail _ nm em lang =>
      let it1 := match nm with
        | some n => if n != "" then it.setStr (detailReplace k "_name") n else it
        | none => it
      let it2 := match em with
        | some m => if m != "" then it1.setStr (detailReplace k "_email") m else it1
        | none => it1
      match lang with
      | some l =>
        if l != "" && (ch.language.isNone || ch.language != some l) then
          it2.setStr (detailReplace k "_language") l
        else it2
      | none => it2
    | _ => it
  else if strEndsWith k "_parsed" then
    match v with
    | .d (some t) => it.setDate (stripParsedSuffix k) t
    | _ => it
  else if k == "source" then
    match v with
    | .source value url =>
      let it1 := match value with
        | some s => it.setStr (k ++ "_name") s
        | none => it
      match url with
      | some u => it1.setStr (k ++ "_link") u
      | none => it1
    | _ => it
  else if k == "content" then
    match v with
    | .content parts =>
      let step := fun (acc : NewsItem × String) (part : ContentPart) =>
        let it' := match part.language with
          | some l =>
            if l != "" && (ch.language.isNone || ch.language != some l) then
              acc.1.setStr (k ++ "_language") l
            else acc.1
          | none => acc.1
        (it', acc.2 ++ contentPV part)
      let r := parts.foldl step (it, "")
      r.1.setStr k r.2
    | _ => it
  else
    match v with
    | .s sv =>
      let sv' :=
        match e.get (k ++ "_detail") with
        | some (.detail (some t) _ _ _) =>
          if t == "text/html" then sv
          else if t == "text/plain" then escapeHtml sv
          else sv
        | _ => sv
      it.setStr k sv'
    | _ => it

/-- `NewsItem.update(entry)`: merge every entry field, then recompute the
canonical `date` via `get_date("date")`. -/
def NewsItem.update (ch : Channel) (e : Entry) (it : NewsItem) : NewsItem :=
  let it' := e.kvs.foldl (fun acc kv => NewsItem.updKey ch e acc kv.1 kv.2) it
  (it'.get_date ch "date").1

/-! ### Item ordering and the sorted item view -/

/-- The comparison `NewsItem.__lt__`: by `date`, then by `order` (plain string
comparison).  Python's `None` comparisons raise; modeled via `cmpOpt`. -/
def NewsItem.lt (a b : NewsItem) : Bool :=
  match cmpOpt cmpInt a.dateF b.dateF with
  | .lt => true
  | .eq => (cmpOpt cmpStr a.orderF b.orderF) == .lt
  | .gt => false

/-- Comparator for the `(time_since_epoch, order, item)` sort tuples.  Tuple
comparison reaches the item (compared by `__lt__`, i.e. `(date, order)`) only
on ties, so the effective key is `(time_since_epoch, order, date)`. -/
def sortTupleCmp (a b : NewsItem) : Ordering :=
  (cmpInt a.time_since_epoch b.time_since_epoch).then
    ((cmpOpt cmpStr a.orderF b.orderF).then
      (cmpOpt cmpInt a.dateF b.dateF))

/-- Comparator on index-tagged items realizing Python's stable ascending sort
followed by `reverse()`: key descending, original position descending. -/
def pairCmp (a b : Nat × NewsItem) : Ordering :=
  (sortTupleCmp a.2 b.2).then (cmpNat a.1 b.1)

/-- The sort relation: `a` precedes `b` when `a`'s (key, index) is not below
`b`'s (descending order). -/
def pairGe (a b : Nat × NewsItem) : Prop := pairCmp a b ≠ .lt

instance : DecidableRel pairGe := fun a b => by unfold pairGe; infer_instance

/-- Precomposing a lawful comparator with a key function stays lawful. -/
theorem LawfulCmp.pullback {c : β → β → Ordering} (h : LawfulCmp c) (f : α → β) :
    LawfulCmp (fun a b => c (f a) (f b)) := by
  constructor
  · intro a b
    exact h.symm (f a) (f b)
  · intro a b x hab hbx
    exact h.le_trans hab hbx

theorem lawful_sortTupleCmp : LawfulCmp sortTupleCmp := by
  have h1 := (lawful_cmpOpt lawful_cmpStr).pullback NewsItem.orderF
  have h2 := (lawful_cmpOpt lawful_cmpInt).pullback NewsItem.dateF
  have h3 := lawful_cmpInt.pullback NewsItem.time_since_epoch
  have hinner := LawfulCmp.then_comp h1 h2
  have houter := LawfulCmp.then_comp h3 hinner
  exact houter

theorem lawful_pairCmp : LawfulCmp pairCmp := by
  have h1 := lawful_sortTupleCmp.pullback (fun p : Nat × NewsItem => p.2)
  have h2 := lawful_cmpNat.pullback (fun p : Nat × NewsItem => p.1)
  exact LawfulCmp.then_comp h1 h2

/-- The non-hidden (or all) items of a channel in store order
(`Channel.items` without sorting). -/
def Channel.itemsView (ch : Channel) (hidden : Bool) : List NewsItem :=
  ch.items.filter (fun it => hidden || !it.hiddenF)

/-- The index-tagged, sorted item list (descending). -/
def Channel.sortedPairs (ch : Channel) (hidden : Bool) : List (Nat × NewsItem) :=
  List.insertionSort pairGe (ch.itemsView hidden).enum

/-- `Channel.items(sorted=True)`: newest first. -/
def Channel.itemsSorted (ch : Channel) (hidden : Bool) : List NewsItem :=
  (ch.sortedPairs hidden).map (fun p => p.2)

/-! ### The expiration sweep -/

/-- The expiration loop of `update_entries` (lines 860–868): iterate the
sorted existing items; break when the remaining count is below 1; a matched
item consumes one unit; an unmatched item is expired unless the channel
status is the `"226"` retain sentinel.  Returns the expired items in visit
order.  Generic in the element type (instantiated with index-tagged items in
proofs and with plain items in the algorithm). -/
def sweepExpired (matched : α → Bool) (retain : Bool) : Nat → List α → List α
  | _, [] => []
  | 0, _ :: _ => []
  | Nat.succ n, it :: rest =>
    if matched it then sweepExpired matched retain n rest
    else if !retain then it :: sweepExpired matched retain (Nat.succ n) rest
    else sweepExpired matched retain (Nat.succ n) rest

/-! ### Channel.update_entries -/

/-- The Planet-level configuration read during reconciliation and querying. -/
structure PlanetCfg where
  new_feed_items : Nat
  pfilter : Option (String → Bool)
  pexclude : Option (String → Bool)
  subscribed : List Channel

/-- State threaded through the per-entry loop of `update_entries`: the item
mapping, the ids of newly created items (in creation order), and the ids seen
this cycle (`feed_items`). -/
structure MergeState where
  items : List NewsItem
  newIds : List String
  feedItems : List String

/-- Membership of an id in the item mapping (`Channel.has_item`). -/
def hasId (items : List NewsItem) (i : String) : Bool :=
  items.any (fun it => it.id == i)

/-- Update the item with the given id in place (dict entry mutation). -/
def updateById (items : List NewsItem) (i : String) (f : NewsItem → NewsItem) :
    List NewsItem :=
  items.map (fun it => if it.id == i then f it else it)

/-- The timestamp shift at the top of `update_entries` (lines 812–813):
`last_updated` takes the old `updated`, `updated` becomes the fetch time. -/
def Channel.shifted (ch : Channel) (now : Int) : Channel :=
  { ch with last_updated := ch.updated, updated := some now }

/-- The id computed by the derivation of lines 818–831 on the branches that
complete: explicit `id`, else `link`, else `none` (entry dropped).  For the
`title`/`summary` branches it records the id the hash expression aims at,
but the source never produces it: `from hashlib import md5` (line 23) yields
an object with no `new`, so `md5.new(...)` at lines 824/827 raises
`AttributeError`.  The faithful translation is `Channel.deriveIdE` below;
on entries with `Entry.idCrash = false` the two agree (`deriveIdE_eq`), and
theorems about the completed pipeline restrict to that domain. -/
def Channel.deriveId (md5hex : String → String) (ch : Channel) (e : Entry) :
    Option String :=
  match e.get "id" with
  | some v => some (utf8 v)
  | none =>
    match e.get "link" with
    | some v => some (utf8 v)
    | none =>
      match e.get "title" with
      | some v => some (ch.url ++ "/" ++ md5hex (utf8 v))
      | none =>
        match e.get "summary" with
        | some v => some (ch.url ++ "/" ++ md5hex (utf8 v))
        | none => none

/-- The entries on which the id derivation reaches the broken hash fallback:
no `id` and no `link`, but a `title` or a `summary` (legal RSS). -/
def Entry.idCrash (e : Entry) : Bool :=
  (e.get "id").isNone && (e.get "link").isNone &&
    ((e.get "title").isSome || (e.get "summary").isSome)

/-- Lines 818–831 as the source executes them: explicit `id`, else `link`,
else the `title`/`summary` hash fallback — whose `md5.new(...)` call raises
`AttributeError` (hashlib's `md5` has no `new`), aborting `update_entries` —
else the entry is dropped (`.ok none`, the `continue` branch). -/
def Channel.deriveIdE (_ch : Channel) (e : Entry) :
    Except Unit (Option String) :=
  match e.get "id" with
  | some v => .ok (some (utf8 v))
  | none =>
    match e.get "link" with
    | some v => .ok (some (utf8 v))
    | none =>
      match e.get "title" with
      | some _ => .error ()
      | none =>
        match e.get "summary" with
        | some _ => .error ()
        | none => .ok none

/-- Away from the broken branches the completed-pipeline derivation agrees
with the faithful one. -/
theorem deriveIdE_eq (md5hex : String → String) (ch : Channel) (e : Entry)
    (h : e.idCrash = false) :
    ch.deriveIdE e = .ok (ch.deriveId md5hex e) := by
  unfold Entry.idCrash at h
  unfold Channel.deriveIdE Channel.deriveId
  cases h0 : e.get "id" with
  | some v => rfl
  | none =>
    cases h1 : e.get "link" with
    | some v => rfl
    | none =>
      rw [h0, h1] at h
      simp only [Option.isNone_none, Bool.true_and] at h
      cases h2 : e.get "title" with
      | some v =>
        rw [h2] at h
        simp at h
      | none =>
        cases h3 : e.get "summary" with
        | some v =>
          rw [h3] at h
          simp at h
        | none => rfl

/-- On the broken branches the derivation raises. -/
theorem deriveIdE_crash (ch : Channel) (e : Entry) (h : e.idCrash = true) :
    ch.deriveIdE e = .error () := by
  unfold Entry.idCrash at h
  rw [Bool.and_eq_true, Bool.and_eq_true] at h
  rcases h with ⟨⟨hid, hlink⟩, hts⟩
  have h0 : e.get "id" = none := Option.isNone_iff_eq_none.mp hid
  have h1 : e.get "link" = none := Option.isNone_iff_eq_none.mp hlink
  unfold Channel.deriveIdE
  simp only [h0, h1]
  cases h2 : e.get "title" with
  | some v => rfl
  | none =>
    cases h3 : e.get "summary" with
    | some v => rfl
    | none =>
      rw [h2, h3] at hts
      simp at hts

/-- The body of the per-entry loop of `update_entries` (lines 817–850):
derive the id (drop the entry if none), find-or-create the item, merge the
entry into it, record the id, and apply first-sync hiding when the shifted
`last_updated` is unset and the count of seen ids exceeds the threshold. -/
def Channel.mergeEntry (cfg : PlanetCfg) (md5hex : String → String)
    (ch : Channel) (st : MergeState) (e : Entry) : MergeState :=
  match ch.deriveId md5hex e with
  | none => st
  | some eid =>
    let found := hasId st.items eid
    let items1 :=
      if found then updateById st.items eid (NewsItem.update ch e)
      else st.items ++ [NewsItem.update ch e (NewsItem.mk0 md5hex eid)]
    let newIds1 := if found then st.newIds else st.newIds ++ [eid]
    let feed1 := st.feedItems ++ [eid]
    let items2 :=
      if ch.last_updated.isNone && cfg.new_feed_items != 0 &&
          feed1.length > cfg.new_feed_items then
        updateById items1 eid (fun it => it.setStr "hidden" "yes")
      else items1
    ⟨items2, newIds1, feed1⟩

/-- The body of the per-entry loop (lines 817–850) with the id-derivation
error kept: an entry that reaches the broken `md5.new` call raises and
aborts the loop. -/
def Channel.mergeEntryE (cfg : PlanetCfg) (md5hex : String → String)
    (ch : Channel) (st : MergeState) (e : Entry) : Except Unit MergeState :=
  match ch.deriveIdE e with
  | .error _ => .error ()
  | .ok none => .ok st
  | .ok (some eid) =>
    let found := hasId st.items eid
    let items1 :=
      if found then updateById st.items eid (NewsItem.update ch e)
      else st.items ++ [NewsItem.update ch e (NewsItem.mk0 md5hex eid)]
    let newIds1 := if found then st.newIds else st.newIds ++ [eid]
    let feed1 := st.feedItems ++ [eid]
    let items2 :=
      if ch.last_updated.isNone && cfg.new_feed_items != 0 &&
          feed1.length > cfg.new_feed_items then
        updateById items1 eid (fun it => it.setStr "hidden" "yes")
      else items1
    .ok ⟨items2, newIds1, feed1⟩

theorem mergeEntryE_ok (cfg : PlanetCfg) (md5hex : String → String)
    (ch : Channel) (st : MergeState) (e : Entry) (h : e.idCrash = false) :
    Channel.mergeEntryE cfg md5hex ch st e =
      .ok (Channel.mergeEntry cfg md5hex ch st e) := by
  unfold Channel.mergeEntryE Channel.mergeEntry
  rw [deriveIdE_eq md5hex ch e h]
  cases ch.deriveId md5hex e with
  | none => rfl
  | some eid => rfl

theorem mergeEntryE_err (cfg : PlanetCfg) (md5hex : String → String)
    (ch : Channel) (st : MergeState) (e : Entry) (h : e.idCrash = true) :
    Channel.mergeEntryE cfg md5hex ch st e = .error () := by
  unfold Channel.mergeEntryE
  rw [deriveIdE_crash ch e h]

/-- Parse the decimal digits of the stored `next_order` counter
(`int(self.next_order)`; the counter is always written by `str(...)`). -/
def parseDigits : List Char → Nat → Nat
  | [], acc => acc
  | c :: cs, acc => parseDigits cs (acc * 10 + (c.toNat - 48))

def strToNat (s : String) : Nat := parseDigits s.data 0

/-- The decimal digit character for `d < 10`. -/
def digitChr (d : Nat) : Char := Char.ofNat (48 + d)

/-- Canonical decimal printing of a natural (`str(n)`), fueled so that it is
structurally recursive. -/
def natToStrCore : Nat → Nat → List Char
  | 0, _ => []
  | fuel + 1, n =>
    if n < 10 then [digitChr n]
    else natToStrCore fuel (n / 10) ++ [digitChr (n % 10)]

/-- `str` on naturals. -/
def natToStr (n : Nat) : String := ⟨natToStrCore (n + 1) n⟩

/-- One order assignment:
`item.order = self.next_order = str(int(self.next_order) + 1)`. -/
def orderStep (acc : List NewsItem × String) (i : String) :
    List NewsItem × String :=
  let no := natToStr (strToNat acc.2 + 1)
  (updateById acc.1 i (fun it => it.setStr "order" no), no)

/-- Order assignment (lines 852–855): reverse the newly created items and give
each the next value of the textual counter. -/
def assignOrders (items : List NewsItem) (next_order : String)
    (newIds : List String) : List NewsItem × String :=
  newIds.reverse.foldl orderStep (items, next_order)

/-- The state of the per-entry loop after processing all entries
(lines 815–850). -/
def Channel.mergedState (cfg : PlanetCfg) (md5hex : String → String)
    (now : Int) (ch : Channel) (entries : List Entry) : MergeState :=
  entries.foldl (Channel.mergeEntry cfg md5hex (ch.shifted now))
    ⟨(ch.shifted now).items, [], []⟩

/-- The channel state just before the expiration sweep: timestamps shifted,
entries merged, order numbers assigned (lines 812–855). -/
def Channel.preSweep (cfg : PlanetCfg) (md5hex : String → String)
    (now : Int) (ch : Channel) (entries : List Entry) : Channel :=
  let st := Channel.mergedState cfg md5hex now ch entries
  let ordered := assignOrders st.items (ch.shifted now).next_order st.newIds
  { (ch.shifted now) with items := ordered.1, next_order := ordered.2 }

/-- The expired items computed by the sweep (lines 857–868), in visit
order. -/
def Channel.sweepResult (cfg : PlanetCfg) (md5hex : String → String)
    (now : Int) (ch : Channel) (entries : List Entry) : List NewsItem :=
  let st := Channel.mergedState cfg md5hex now ch entries
  let ch2 := Channel.preSweep cfg md5hex now ch entries
  sweepExpired (fun it => st.feedItems.contains it.id)
    (ch2.url_status == some "226") st.feedItems.length (ch2.itemsSorted false)

/-- `Channel.update_entries(entries)` (lines 794–868). -/
def Channel.update_entries (cfg : PlanetCfg) (md5hex : String → String)
    (now : Int) (ch : Channel) (entries : List Entry) : Channel :=
  if entries.isEmpty then ch
  else
    let ch2 := Channel.preSweep cfg md5hex now ch entries
    let ex := Channel.sweepResult cfg md5hex now ch entries
    { ch2 with
        items := ch2.items.filter (fun it => !(ex.any (fun j => j.id == it.id))),
        expired := ch2.expired ++ ex }

/-- `Channel.update_entries(entries)` (lines 794–868) with the error path
kept: when some entry reaches the broken `md5.new` call the whole call
raises `AttributeError` — no order assignment and no expiration sweep
run. -/
def Channel.update_entriesE (cfg : PlanetCfg) (md5hex : String → String)
    (now : Int) (ch : Channel) (entries : List Entry) : Except Unit Channel :=
  if entries.isEmpty then .ok ch
  else
    match entries.foldlM (Channel.mergeEntryE cfg md5hex (ch.shifted now))
        ⟨(ch.shifted now).items, [], []⟩ with
    | .error _ => .error ()
    | .ok st =>
      let ordered := assignOrders st.items (ch.shifted now).next_order
        st.newIds
      let ch2 := { ch.shifted now with
        items := ordered.1, next_order := ordered.2 }
      let ex := sweepExpired (fun it => st.feedItems.contains it.id)
        (ch2.url_status == some "226") st.feedItems.length
        (ch2.itemsSorted false)
      .ok { ch2 with
        items := ch2.items.filter
          (fun it => !(ex.any (fun j => j.id == it.id))),
        expired := ch2.expired ++ ex }

theorem mergeFoldE_ok (cfg : PlanetCfg) (md5hex : String → String)
    (ch : Channel) :
    ∀ (E : List Entry) (st : MergeState),
    (∀ e ∈ E, e.idCrash = false) →
    E.foldlM (Channel.mergeEntryE cfg md5hex ch) st =
      .ok (E.foldl (Channel.mergeEntry cfg md5hex ch) st) := by
  intro E
  induction E with
  | nil => intro st _; rfl
  | cons e rest ih =>
    intro st h
    rw [List.foldlM_cons, mergeEntryE_ok cfg md5hex ch st e
      (h e (List.mem_cons_self _ _))]
    show rest.foldlM (Channel.mergeEntryE cfg md5hex ch)
      (Channel.mergeEntry cfg md5hex ch st e) = _
    rw [ih _ (fun e' he' => h e' (List.mem_cons_of_mem _ he')),
      List.foldl_cons]

theorem mergeFoldE_err (cfg : PlanetCfg) (md5hex : String → String)
    (ch : Channel) :
    ∀ (E : List Entry) (st : MergeState),
    (∃ e ∈ E, e.idCrash = true) →
    E.foldlM (Channel.mergeEntryE cfg md5hex ch) st = .error () := by
  intro E
  induction E with
  | nil =>
    rintro st ⟨e, he, _⟩
    exact absurd he (List.not_mem_nil _)
  | cons e rest ih =>
    rintro st ⟨e', he', hc⟩
    cases hcr : e.idCrash with
    | true =>
      rw [List.foldlM_cons, mergeEntryE_err cfg md5hex ch st e hcr]
      rfl
    | false =>
      rw [List.foldlM_cons, mergeEntryE_ok cfg md5hex ch st e hcr]
      have he'' : e' ∈ rest := by
        rcases List.mem_cons.mp he' with rfl | hm
        · rw [hcr] at hc
          exact absurd hc (by decide)
        · exact hm
      show rest.foldlM (Channel.mergeEntryE cfg md5hex ch) _ = _
      exact ih _ ⟨e', he'', hc⟩

/-- On entry lists with no entry reaching the broken hash fallback, the
faithful `update_entries` completes and agrees with the pure pipeline. -/
theorem update_entriesE_ok (cfg : PlanetCfg) (md5hex : String → String)
    (now : Int) (ch : Channel) (entries : List Entry)
    (h : ∀ e ∈ entries, e.idCrash = false) :
    Channel.update_entriesE cfg md5hex now ch entries =
      .ok (Channel.update_entries cfg md5hex now ch entries) := by
  unfold Channel.update_entriesE Channel.update_entries
  cases he : entries.isEmpty with
  | true => rfl
  | false =>
    simp only [Bool.false_eq_true, if_false]
    rw [mergeFoldE_ok cfg md5hex (ch.shifted now) entries _ h]
    rfl

/-- An entry list containing an entry that reaches the broken hash fallback
makes `update_entries` raise. -/
theorem update_entriesE_err (cfg : PlanetCfg) (md5hex : String → String)
    (now : Int) (ch : Channel) (entries : List Entry)
    (h : ∃ e ∈ entries, e.idCrash = true) :
    Channel.update_entriesE cfg md5hex now ch entries = .error () := by
  have hne : entries.isEmpty = false := by
    rcases h with ⟨e, he, _⟩
    cases entries with
    | nil => exact absurd he (List.not_mem_nil _)
    | cons a l => rfl
  unfold Channel.update_entriesE
  rw [hne]
  simp only [Bool.false_eq_true, if_false]
  rw [mergeFoldE_err cfg md5hex (ch.shifted now) entries _ h]

/-! ### The aggregator query surface (`Planet.items`) -/

/-- `NewsItem.get_content`: the first present of `content`, `tagline`,
`summary`, as a string (else the empty string). -/
def NewsItem.get_content (it : NewsItem) : String :=
  match ["content", "tagline", "summary"].find? (fun k => (it.get k).isSome) with
  | some k =>
    match it.get k with
    | some (.str v) => v
    | _ => ""
  | none => ""

/-- The item `title` used by the aggregation filters (empty when absent). -/
def NewsItem.titleF (it : NewsItem) : String :=
  match it.get "title" with
  | some (.str v) => v
  | _ => ""

/-- One regex stage of `Planet.items`: a compiled include pattern passes when
it matches the title or the content; an exclude pattern drops on match. -/
def searchHit (re : Option (String → Bool)) (title content : String) : Bool :=
  match re with
  | some f => f title || f content
  | none => false

/-- The four filter stages applied to one item of one channel (lines 437–461),
in source order: planet include, planet exclude, channel include, channel
exclude. -/
def passesFilters (cfg : PlanetCfg) (ch : Channel) (it : NewsItem) : Bool :=
  let title := it.titleF
  let content := it.get_content
  (cfg.pfilter.isNone || searchHit cfg.pfilter title content) &&
  (cfg.pexclude.isNone || !searchHit cfg.pexclude title content) &&
  (ch.chanFilter.isNone || searchHit ch.chanFilter title content) &&
  (ch.chanExclude.isNone || !searchHit ch.chanExclude title content)

/-- `Planet.channels(hidden, sorted=False)`: the subscription list in
insertion order, optionally without hidden channels.  (`Planet.items` always
requests the unsorted list, source line 416.) -/
def Planet.channelsUnsorted (cfg : PlanetCfg) (hidden : Bool) : List Channel :=
  cfg.subscribed.filter (fun c => hidden || !c.chanHidden)

/-- The visible, filter-passing candidate items of the selected channels, in
channel-iteration order (the nested loops of lines 417–461). -/
def candidateItems (cfg : PlanetCfg) (hidden : Bool) (chans : List Channel) :
    List NewsItem :=
  chans.flatMap (fun c =>
    c.items.filter (fun it => (hidden || !it.hiddenF) && passesFilters cfg c it))

/-- Global dedup by id: the first occurrence across the iteration order wins
(`seen_guids`, lines 463–465). -/
def dedupById (seen : List String) : List NewsItem → List NewsItem
  | [] => []
  | it :: rest =>
    if seen.contains it.id then dedupById seen rest
    else it :: dedupById (seen ++ [it.id]) rest

/-- The `max_days` window (lines 476–485): keep the initial run of items
newer than `newest − max_days·84600`.  The source counts the passing prefix
and slices at the first failure, which is exactly this recursion. -/
def maxDaysLoop (maxTime : Int) : List NewsItem → List NewsItem
  | [] => []
  | it :: rest =>
    if it.time_since_epoch > maxTime then it :: maxDaysLoop maxTime rest
    else []

/-- Sort the deduplicated aggregate list newest-first (lines 467–470),
with the same tuple comparison as the channel-level sort. -/
def aggSorted (l : List NewsItem) : List NewsItem :=
  (List.insertionSort pairGe l.enum).map (fun p => p.2)

/-- `Planet.items(hidden, sorted, max_items, max_days, channels)`
(lines 380–487).  An empty `channelsArg` models both `None` and an empty
caller-supplied list (`if not channels`). -/
def Planet.itemsPreWindow (cfg : PlanetCfg) (hidden sorted : Bool)
    (max_items : Nat) (channelsArg : List Channel) : List NewsItem :=
  let chans := if channelsArg.isEmpty then Planet.channelsUnsorted cfg hidden
    else channelsArg
  let collected := dedupById [] (candidateItems cfg hidden chans)
  let sorted_items := if sorted then aggSorted collected else collected
  if !sorted_items.isEmpty && max_items != 0 then sorted_items.take max_items
  else sorted_items

def Planet.items (cfg : PlanetCfg) (hidden sorted : Bool) (max_items : Nat)
    (max_days : Int) (channelsArg : List Channel) : List NewsItem :=
  let truncated := Planet.itemsPreWindow cfg hidden sorted max_items channelsArg
  if !truncated.isEmpty && max_days != 0 then
    match truncated with
    | [] => []
    | first :: _ => maxDaysLoop (first.time_since_epoch - max_days * 84600) truncated
  else truncated

/-! ### Basic store lemmas -/

theorem Fields.get_set_self (fs : Fields) (k : String) (v : FieldVal) :
    (fs.set k v).get k = some v := by
  induction fs with
  | nil => simp [Fields.set, Fields.get]
  | cons kv rest ih =>
    by_cases hk : kv.1 = k
    · subst hk
      simp [Fields.set, Fields.get]
    · have hb : (kv.1 == k) = false := beq_eq_false_iff_ne.mpr hk
      simp [Fields.set, Fields.get, hb, ih]

theorem Fields.get_set_ne (fs : Fields) (k k' : String) (v : FieldVal)
    (h : k' ≠ k) : (fs.set k v).get k' = fs.get k' := by
  have hkk : (k == k') = false := beq_eq_false_iff_ne.mpr (Ne.symm h)
  induction fs with
  | nil => simp [Fields.set, Fields.get, hkk]
  | cons kv rest ih =>
    by_cases hk : kv.1 = k
    · subst hk
      simp [Fields.set, Fields.get, hkk]
    · have hb : (kv.1 == k) = false := beq_eq_false_iff_ne.mpr hk
      simp [Fields.set, Fields.get, hb, ih]

/-! ### Claim C10 -/

/-- C10: calling `Channel.update_entries` with an empty entry list returns
immediately and changes nothing: `updated` and `last_updated` keep their
previous values, no item is created, hidden, reordered, or expired, and
`next_order` is unchanged — the channel state is literally unchanged. -/
theorem update_entries_nil_id (cfg : PlanetCfg) (md5hex : String → String)
    (now : Int) (ch : Channel) :
    Channel.update_entries cfg md5hex now ch [] = ch := rfl

/-! ### Claim C3 -/

/-- C3: if the first present claimed date among `updated`, `modified`,
`published`, `issued`, `created` is strictly after the owning channel's known
`updated` time, `get_date` clamps the resolved date down to `channel.updated`
and writes it back as the item's canonical date field. -/
theorem get_date_clamps_future_claim (ch : Channel) (it : NewsItem) (u d : Int)
    (hu : ch.updated = some u) (hclaim : it.claimedDate = some d) (hgt : d > u) :
    (it.get_date ch "date").2 = some u ∧
      ((it.get_date ch "date").1).get "date" = some (.date u) := by
  have hres : it.get_date ch "date" = (it.setDate "date" u, some u) := by
    unfold NewsItem.get_date
    rw [hclaim, hu]
    simp [hgt]
  rw [hres]
  exact ⟨rfl, Fields.get_set_self it.fields "date" (.date u)⟩

/-- Witness for C3: an entry claiming `updated = channel.updated + 1 day`
(86400 seconds) is stored with `date = channel.updated`. -/
theorem get_date_clamps_future_claim_witness :
    ((NewsItem.mk ([("updated", .date (1000000 + 86400))])).get_date
        { url := "u", url_status := none, nameF := none, chanHidden := false,
          language := none, chanFilter := none, chanExclude := none,
          updated := some 1000000, last_updated := none, next_order := "0",
          items := [], expired := [] } "date").2 = some 1000000 ∧
      (((NewsItem.mk ([("updated", .date (1000000 + 86400))])).get_date
        { url := "u", url_status := none, nameF := none, chanHidden := false,
          language := none, chanFilter := none, chanExclude := none,
          updated := some 1000000, last_updated := none, next_order := "0",
          items := [], expired := [] } "date").1).get "date" =
        some (.date 1000000) :=
  get_date_clamps_future_claim _ _ 1000000 (1000000 + 86400)
    rfl (by decide) (by decide)

/-! ### Claim C8 -/

/-- Reflexivity helpers for the comparators. -/
theorem cmpInt_refl (a : Int) : cmpInt a a = .eq := by
  unfold cmpInt
  rw [if_neg (by omega), if_pos rfl]

theorem cmpOpt_refl_int (a : Option Int) : cmpOpt cmpInt a a = .eq := by
  cases a with
  | none => rfl
  | some v => exact cmpInt_refl v

/-- C8: when two items have equal `date` fields, `NewsItem.__lt__` compares
their `order` fields as plain strings (lexicographically). -/
theorem newsitem_lt_ties_compare_orders_as_strings (a b : NewsItem)
    (sa sb : String) (hdate : a.dateF = b.dateF)
    (ha : a.orderF = some sa) (hb : b.orderF = some sb) :
    NewsItem.lt a b = (cmpStr sa sb == .lt) := by
  unfold NewsItem.lt
  rw [hdate, cmpOpt_refl_int, ha, hb]
  rfl

/-- Witness for C8: an item with order `"10"` compares less than (sorts older
than) an item with order `"3"` under equal dates. -/
theorem newsitem_lt_ties_witness :
    NewsItem.lt (NewsItem.mk [("date", .date 5), ("order", .str "10")])
        (NewsItem.mk [("date", .date 5), ("order", .str "3")]) = true ∧
      NewsItem.lt (NewsItem.mk [("date", .date 5), ("order", .str "10")])
        (NewsItem.mk [("date", .date 5), ("order", .str "3")]) =
        (cmpStr "10" "3" == .lt) :=
  ⟨by decide,
   newsitem_lt_ties_compare_orders_as_strings _ _ "10" "3" rfl rfl rfl⟩

/-! ### Claim C9 (corrected) -/

/-- Counterexample to C9 as stated: `time_since_epoch` substitutes `0.0`
(the epoch) when `mktime` overflows, which is not the lowest possible
sort-key value: an item with the representable pre-epoch date `-100` has a
strictly smaller sort key, so the overflowing item does not sort as older
than every item with a representable date. -/
theorem time_since_epoch_zero_not_lowest :
    mktime 4000000000 = none ∧
      NewsItem.time_since_epoch (NewsItem.mk [("date", .date 4000000000)]) = 0 ∧
      mktime (-100) = some (-100) ∧
      NewsItem.time_since_epoch (NewsItem.mk [("date", .date (-100))]) = -100 ∧
      ¬(NewsItem.time_since_epoch (NewsItem.mk [("date", .date 4000000000)]) ≤
        NewsItem.time_since_epoch (NewsItem.mk [("date", .date (-100))])) := by
  refine ⟨by decide, by decide, by decide, by decide, by decide⟩

/-- C9 (amended): `time_since_epoch` never raises: it returns `mktime(date)`
when the date is representable, and substitutes `0.0` (the epoch — not the
lowest possible value) when `mktime` overflows; such an item sorts as older
than items with positive sort keys but newer than items with pre-epoch
dates. -/
theorem time_since_epoch_total (it : NewsItem) (d : Int) (hd : it.dateF = some d) :
    (∀ t, mktime d = some t → NewsItem.time_since_epoch it = t) ∧
      (mktime d = none → NewsItem.time_since_epoch it = 0) := by
  constructor
  · intro t ht
    unfold NewsItem.time_since_epoch
    rw [hd]
    simp only [ht]
    rfl
  · intro ht
    unfold NewsItem.time_since_epoch
    rw [hd]
    simp only [ht]
    rfl

/-- Witness for the amended C9. -/
theorem time_since_epoch_total_witness :
    (∀ t, mktime (-100) = some t →
      NewsItem.time_since_epoch (NewsItem.mk [("date", .date (-100))]) = t) ∧
      (mktime (-100) = none →
        NewsItem.time_since_epoch (NewsItem.mk [("date", .date (-100))]) = 0) :=
  time_since_epoch_total (NewsItem.mk [("date", .date (-100))]) (-100) rfl

/-! ### Claim C5 -/

/-- An entry with no derivable id leaves the merge state untouched
(the `continue` branch of the per-entry loop). -/
theorem mergeEntry_skip (cfg : PlanetCfg) (md5hex : String → String)
    (ch : Channel) (st : MergeState) (e : Entry)
    (h : ch.deriveId md5hex e = none) :
    Channel.mergeEntry cfg md5hex ch st e = st := by
  unfold Channel.mergeEntry
  rw [h]

/-- Dropping an entry with no derivable id does not change the completed
pipeline's result (the `continue` branch, lines 829–831). -/
theorem update_entries_drop (cfg : PlanetCfg) (md5hex : String → String)
    (now : Int) (ch : Channel) (e : Entry)
    (hnone : ch.deriveId md5hex e = none) :
    ∀ es₁ es₂ : List Entry, es₁ ++ es₂ ≠ [] →
      Channel.update_entries cfg md5hex now ch (es₁ ++ e :: es₂) =
        Channel.update_entries cfg md5hex now ch (es₁ ++ es₂) := by
  intro es₁ es₂ hne
  have hskip : ∀ st, Channel.mergeEntry cfg md5hex (ch.shifted now) st e = st := by
    intro st
    exact mergeEntry_skip cfg md5hex _ st e hnone
  have hms : Channel.mergedState cfg md5hex now ch (es₁ ++ e :: es₂) =
      Channel.mergedState cfg md5hex now ch (es₁ ++ es₂) := by
    unfold Channel.mergedState
    simp only [List.foldl_append, List.foldl_cons, hskip]
  have hps : Channel.preSweep cfg md5hex now ch (es₁ ++ e :: es₂) =
      Channel.preSweep cfg md5hex now ch (es₁ ++ es₂) := by
    unfold Channel.preSweep
    rw [hms]
  have hsw : Channel.sweepResult cfg md5hex now ch (es₁ ++ e :: es₂) =
      Channel.sweepResult cfg md5hex now ch (es₁ ++ es₂) := by
    unfold Channel.sweepResult
    rw [hms, hps]
  unfold Channel.update_entries
  rw [if_neg (by simp), if_neg (by simp [hne])]
  rw [hps, hsw]

/-- C5 (code bug): the fallback derives the item id from an explicit `id`
when present, else from `link`, and an entry with none of the four sources
is dropped with processing continuing (the result is as if it had not been
in the list); but the claimed `hash(title)`/`hash(summary)` fallbacks never
produce an id — `from hashlib import md5` (line 23) binds an object with no
`new`, so `md5.new(...)` at lines 824/827 raises `AttributeError` and the
whole `update_entries` call aborts for any entry list containing such an
entry, wherever it sits. -/
theorem entry_id_fallback_crash (cfg : PlanetCfg) (md5hex : String → String)
    (now : Int) (ch : Channel) (e : Entry) :
    (∀ v, e.get "id" = some v → ch.deriveIdE e = .ok (some (utf8 v))) ∧
    (e.get "id" = none → ∀ v, e.get "link" = some v →
      ch.deriveIdE e = .ok (some (utf8 v))) ∧
    (e.get "id" = none → e.get "link" = none → ∀ v, e.get "title" = some v →
      ch.deriveIdE e = .error ()) ∧
    (e.get "id" = none → e.get "link" = none → e.get "title" = none →
      ∀ v, e.get "summary" = some v → ch.deriveIdE e = .error ()) ∧
    (e.get "id" = none → e.get "link" = none → e.get "title" = none →
      e.get "summary" = none → ch.deriveIdE e = .ok none) ∧
    (e.idCrash = true → ∀ es₁ es₂ : List Entry,
      Channel.update_entriesE cfg md5hex now ch (es₁ ++ e :: es₂) =
        .error ()) ∧
    (e.get "id" = none → e.get "link" = none → e.get "title" = none →
      e.get "summary" = none → ∀ es₁ es₂ : List Entry, es₁ ++ es₂ ≠ [] →
      Channel.update_entriesE cfg md5hex now ch (es₁ ++ e :: es₂) =
        Channel.update_entriesE cfg md5hex now ch (es₁ ++ es₂)) := by
  refine ⟨?_, ?_, ?_, ?_, ?_, ?_, ?_⟩
  · intro v hv
    unfold Channel.deriveIdE
    rw [hv]
  · intro h0 v hv
    unfold Channel.deriveIdE
    rw [h0, hv]
  · intro h0 h1 v hv
    unfold Channel.deriveIdE
    rw [h0, h1, hv]
  · intro h0 h1 h2 v hv
    unfold Channel.deriveIdE
    rw [h0, h1, h2, hv]
  · intro h0 h1 h2 h3
    unfold Channel.deriveIdE
    rw [h0, h1, h2, h3]
  · intro hcr es₁ es₂
    exact update_entriesE_err cfg md5hex now ch _
      ⟨e, List.mem_append.mpr (Or.inr (List.mem_cons_self _ _)), hcr⟩
  · intro h0 h1 h2 h3 es₁ es₂ hne
    have hcr : e.idCrash = false := by
      unfold Entry.idCrash
      rw [h0, h1, h2, h3]
      rfl
    have hder : ch.deriveId md5hex e = none := by
      unfold Channel.deriveId
      rw [h0, h1, h2, h3]
    by_cases hc : ∃ e' ∈ es₁ ++ es₂, e'.idCrash = true
    · have hc' : ∃ e' ∈ es₁ ++ e :: es₂, e'.idCrash = true := by
        rcases hc with ⟨e', he', hcr'⟩
        refine ⟨e', ?_, hcr'⟩
        rcases List.mem_append.mp he' with hm | hm
        · exact List.mem_append.mpr (Or.inl hm)
        · exact List.mem_append.mpr (Or.inr (List.mem_cons_of_mem _ hm))
      rw [update_entriesE_err cfg md5hex now ch _ hc',
        update_entriesE_err cfg md5hex now ch _ hc]
    · have hall : ∀ e' ∈ es₁ ++ es₂, e'.idCrash = false := by
        intro e' he'
        exact Bool.eq_false_iff.mpr (fun hx => hc ⟨e', he', hx⟩)
      have hall' : ∀ e' ∈ es₁ ++ e :: es₂, e'.idCrash = false := by
        intro e' he'
        rcases List.mem_append.mp he' with hm | hm
        · exact hall e' (List.mem_append.mpr (Or.inl hm))
        · rcases List.mem_cons.mp hm with rfl | hm'
          · exact hcr
          · exact hall e' (List.mem_append.mpr (Or.inr hm'))
      rw [update_entriesE_ok cfg md5hex now ch _ hall',
        update_entriesE_ok cfg md5hex now ch _ hall,
        update_entries_drop cfg md5hex now ch e hder es₁ es₂ hne]

/-! ### Witness fixtures -/

/-- A minimal channel fixture for witnesses. -/
def chFix : Channel :=
  { url := "http://feed", url_status := some "200", nameF := some "n",
    chanHidden := false, language := none, chanFilter := none,
    chanExclude := none, updated := none, last_updated := none,
    next_order := "0", items := [], expired := [] }

/-- A minimal planet configuration fixture for witnesses. -/
def cfgFix : PlanetCfg :=
  { new_feed_items := 10, pfilter := none, pexclude := none, subscribed := [] }

/-- A stand-in hex digest used by witnesses (any deterministic function). -/
def digestFix : String → String := fun s => s ++ "?"

/-- Witness for C5: an entry with an explicit id maps to that id; a
title-only entry raises in the derivation; and a list containing a
title-only entry makes the whole `update_entries` call raise. -/
theorem entry_id_fallback_crash_witness :
    Channel.deriveIdE chFix ⟨[("id", .s "X")]⟩ = .ok (some "X") ∧
      Channel.deriveIdE chFix ⟨[("title", .s "T")]⟩ = .error () ∧
      Channel.update_entriesE cfgFix digestFix 100 chFix
        ([⟨[("id", .s "X")]⟩] ++ ⟨[("title", .s "T")]⟩ :: []) = .error () :=
  ⟨(entry_id_fallback_crash cfgFix digestFix 100 chFix
      ⟨[("id", .s "X")]⟩).1 (.s "X") rfl,
   (entry_id_fallback_crash cfgFix digestFix 100 chFix
      ⟨[("title", .s "T")]⟩).2.2.1 rfl rfl (.s "T") rfl,
   (entry_id_fallback_crash cfgFix digestFix 100 chFix
      ⟨[("title", .s "T")]⟩).2.2.2.2.2.1 (by decide) [⟨[("id", .s "X")]⟩] []⟩

/-! ### Sortedness of the item views -/

theorem pairGe_total_pair (a b : Nat × NewsItem) : pairGe a b ∨ pairGe b a := by
  unfold pairGe
  by_cases h : pairCmp a b = .lt
  · right
    rw [lawful_pairCmp.lt_symm h]
    simp
  · left
    exact h

theorem pairGe_trans_pair (a b c : Nat × NewsItem)
    (hab : pairGe a b) (hbc : pairGe b c) : pairGe a c := by
  unfold pairGe at *
  rw [lawful_pairCmp.not_lt_iff] at *
  exact lawful_pairCmp.le_trans hbc hab

instance : IsTotal (Nat × NewsItem) pairGe := ⟨pairGe_total_pair⟩

instance : IsTrans (Nat × NewsItem) pairGe := ⟨pairGe_trans_pair⟩

/-- The sorted pair list is pairwise `pairGe` (descending). -/
theorem insertionSort_pairGe_pairwise (l : List (Nat × NewsItem)) :
    (List.insertionSort pairGe l).Pairwise pairGe :=
  List.sorted_insertionSort pairGe l

/-- `pairGe` implies a non-increasing numeric sort key. -/
theorem pairGe_tse_ge {a b : Nat × NewsItem} (h : pairGe a b) :
    b.2.time_since_epoch ≤ a.2.time_since_epoch := by
  by_contra hlt
  push_neg at hlt
  apply h
  unfold pairCmp sortTupleCmp
  have : cmpInt a.2.time_since_epoch b.2.time_since_epoch = .lt := by
    unfold cmpInt
    rw [if_pos hlt]
  rw [this]
  rfl

/-- The aggregate sorted list has non-increasing `time_since_epoch`. -/
theorem aggSorted_tse_pairwise (l : List NewsItem) :
    (aggSorted l).Pairwise
      (fun a b => b.time_since_epoch ≤ a.time_since_epoch) := by
  unfold aggSorted
  rw [List.pairwise_map]
  exact (insertionSort_pairGe_pairwise l.enum).imp (fun h => pairGe_tse_ge h)

/-- The pre-window stage of `Planet.items` with `sorted=True` has
non-increasing `time_since_epoch`. -/
theorem itemsPreWindow_tse_pairwise (cfg : PlanetCfg) (hidden : Bool)
    (max_items : Nat) (channelsArg : List Channel) :
    (Planet.itemsPreWindow cfg hidden true max_items channelsArg).Pairwise
      (fun a b => b.time_since_epoch ≤ a.time_since_epoch) := by
  unfold Planet.itemsPreWindow
  dsimp only
  rw [if_pos (rfl : (true : Bool) = true)]
  split <;> split <;>
    first
      | exact List.Pairwise.sublist (List.take_sublist _ _)
          (aggSorted_tse_pairwise _)
      | exact aggSorted_tse_pairwise _

/-- On a list with non-increasing sort keys, the source's count-and-slice
`max_days` loop keeps exactly the items strictly newer than the cutoff. -/
theorem maxDaysLoop_eq_filter (m : Int) (l : List NewsItem)
    (hs : l.Pairwise (fun a b => b.time_since_epoch ≤ a.time_since_epoch)) :
    maxDaysLoop m l = l.filter (fun it => decide (m < it.time_since_epoch)) := by
  induction l with
  | nil => rfl
  | cons it rest ih =>
    rcases List.pairwise_cons.mp hs with ⟨hhead, htail⟩
    by_cases h : m < it.time_since_epoch
    · simp only [maxDaysLoop, List.filter_cons]
      rw [if_pos h, if_pos (by simpa using h)]
      rw [ih htail]
    · simp only [maxDaysLoop, List.filter_cons]
      rw [if_neg h, if_neg (by simpa using h)]
      have : rest.filter (fun it => decide (m < it.time_since_epoch)) = [] := by
        rw [List.filter_eq_nil_iff]
        intro x hx
        have hle : x.time_since_epoch ≤ it.time_since_epoch := hhead x hx
        simp only [decide_eq_true_eq]
        omega
      rw [this]

/-! ### Claim C7 -/

/-- C7: with `sorted=True` and positive `max_days = d`, the max-days window
of `Planet.items` keeps exactly the items whose `time_since_epoch` exceeds
the newest surviving item's `time_since_epoch` minus `d * 84600` (a nominal
84600-second day, not 86400); the newest pre-window item always survives and
is the newest surviving item. -/
theorem planet_items_max_days_window (cfg : PlanetCfg) (hidden : Bool)
    (max_items : Nat) (d : Int) (channelsArg : List Channel) (hd : 0 < d)
    (first : NewsItem) (rest : List NewsItem)
    (hpre : Planet.itemsPreWindow cfg hidden true max_items channelsArg =
      first :: rest) :
    Planet.items cfg hidden true max_items d channelsArg =
      (first :: rest).filter
        (fun it => decide (first.time_since_epoch - d * 84600 <
          it.time_since_epoch)) ∧
      ∃ rest2, Planet.items cfg hidden true max_items d channelsArg =
        first :: rest2 := by
  have hsorted := itemsPreWindow_tse_pairwise cfg hidden max_items channelsArg
  rw [hpre] at hsorted
  have hdne : (d != 0) = true := by
    simp only [bne_iff_ne]
    omega
  have hitems : Planet.items cfg hidden true max_items d channelsArg =
      maxDaysLoop (first.time_since_epoch - d * 84600) (first :: rest) := by
    unfold Planet.items
    rw [hpre]
    simp only [List.isEmpty_cons, Bool.not_false, hdne, Bool.and_self, if_pos]
  have hfilter := maxDaysLoop_eq_filter (first.time_since_epoch - d * 84600)
    (first :: rest) hsorted
  constructor
  · rw [hitems, hfilter]
  · refine ⟨rest.filter (fun it => decide (first.time_since_epoch - d * 84600 <
      it.time_since_epoch)), ?_⟩
    rw [hitems, hfilter, List.filter_cons]
    rw [if_pos (by simp only [decide_eq_true_eq]; nlinarith)]

/-- C7 witness fixture: a newer and a much older item in one channel. -/
def itemNewFix : NewsItem :=
  NewsItem.mk [("id", .str "A"), ("date", .date 100000), ("order", .str "2")]

def itemOldFix : NewsItem :=
  NewsItem.mk [("id", .str "B"), ("date", .date 1), ("order", .str "1")]

def chWindowFix : Channel :=
  { url := "http://w", url_status := some "200", nameF := some "w",
    chanHidden := false, language := none, chanFilter := none,
    chanExclude := none, updated := some 100000, last_updated := none,
    next_order := "2", items := [itemNewFix, itemOldFix], expired := [] }

def cfgWindowFix : PlanetCfg :=
  { new_feed_items := 10, pfilter := none, pexclude := none,
    subscribed := [chWindowFix] }

/-- Witness for C7: with `max_days = 1`, the cutoff is
`100000 − 84600 = 15400`, so the old item (key 1) is dropped. -/
theorem planet_items_max_days_window_witness :
    Planet.items cfgWindowFix false true 0 1 [] =
      ([itemNewFix, itemOldFix].filter
        (fun it => decide (itemNewFix.time_since_epoch - 1 * 84600 <
          it.time_since_epoch))) ∧
      ∃ rest2, Planet.items cfgWindowFix false true 0 1 [] =
        itemNewFix :: rest2 :=
  planet_items_max_days_window cfgWindowFix false 0 1 [] (by decide)
    itemNewFix [itemOldFix] (by decide)

/-! ### Decimal counter round-trip and projection lemmas -/

theorem parseDigits_append (l : List Char) (c : Char) (acc : Nat) :
    parseDigits (l ++ [c]) acc = (parseDigits l acc) * 10 + (c.toNat - 48) := by
  induction l generalizing acc with
  | nil => rfl
  | cons d ds ih =>
    simp only [List.cons_append, parseDigits]
    exact ih _

theorem digitChr_toNat (d : Nat) (h : d < 10) : (digitChr d).toNat = 48 + d := by
  interval_cases d <;> rfl

theorem natToStrCore_parse (fuel : Nat) : ∀ n, n < fuel →
    parseDigits (natToStrCore fuel n) 0 = n := by
  induction fuel with
  | zero => intro n h; omega
  | succ f ih =>
    intro n h
    by_cases hn : n < 10
    · simp only [natToStrCore, if_pos hn, parseDigits]
      rw [digitChr_toNat n hn]
      omega
    · simp only [natToStrCore, if_neg hn]
      rw [parseDigits_append, ih (n / 10) (by omega),
        digitChr_toNat (n % 10) (by omega)]
      omega

theorem strToNat_natToStr (n : Nat) : strToNat (natToStr n) = n :=
  natToStrCore_parse (n + 1) n (by omega)

theorem NewsItem.setStr_id_of_ne (it : NewsItem) (k v : String) (h : k ≠ "id") :
    (it.setStr k v).id = it.id := by
  unfold NewsItem.id NewsItem.get NewsItem.setStr
  rw [Fields.get_set_ne it.fields k "id" (.str v) (Ne.symm h)]

theorem NewsItem.setStr_hiddenF_of_ne (it : NewsItem) (k v : String)
    (h : k ≠ "hidden") : (it.setStr k v).hiddenF = it.hiddenF := by
  unfold NewsItem.hiddenF NewsItem.get NewsItem.setStr
  rw [Fields.get_set_ne it.fields k "hidden" (.str v) (Ne.symm h)]

theorem NewsItem.setStr_hiddenF_self (it : NewsItem) (v : String) :
    (it.setStr "hidden" v).hiddenF = true := by
  unfold NewsItem.hiddenF NewsItem.get NewsItem.setStr
  rw [Fields.get_set_self it.fields "hidden" (.str v)]
  rfl

theorem NewsItem.setStr_dateF_of_ne (it : NewsItem) (k v : String)
    (h : k ≠ "date") : (it.setStr k v).dateF = it.dateF := by
  unfold NewsItem.dateF NewsItem.get NewsItem.setStr
  rw [Fields.get_set_ne it.fields k "date" (.str v) (Ne.symm h)]

theorem NewsItem.setStr_orderF_of_ne (it : NewsItem) (k v : String)
    (h : k ≠ "order") : (it.setStr k v).orderF = it.orderF := by
  unfold NewsItem.orderF NewsItem.get NewsItem.setStr
  rw [Fields.get_set_ne it.fields k "order" (.str v) (Ne.symm h)]

/-- Updating one id with a projection-preserving function keeps every
projection of the item list. -/
theorem updateById_map_proj {β : Type} (items : List NewsItem) (i : String)
    (f : NewsItem → NewsItem) (proj : NewsItem → β)
    (h : ∀ it, proj (f it) = proj it) :
    (updateById items i f).map proj = items.map proj := by
  unfold updateById
  rw [List.map_map]
  apply List.map_congr_left
  intro it _
  by_cases hc : (it.id == i) = true
  · simp only [Function.comp, hc, if_pos, h]
  · simp only [Function.comp, hc]
    rw [if_neg (by simp_all)]

/-- `updateById` is the identity when no item carries the id. -/
theorem updateById_no_match (items : List NewsItem) (i : String)
    (f : NewsItem → NewsItem) (h : hasId items i = false) :
    updateById items i f = items := by
  unfold hasId at h
  rw [List.any_eq_false] at h
  unfold updateById
  conv_rhs => rw [← List.map_id items]
  apply List.map_congr_left
  intro it hm
  simp [h it hm]

/-! ### The first-sync merge on a fresh channel -/

/-- The expected item list produced by the per-entry loop on a fresh channel:
one new item per entry in feed order, hidden from the point where the running
count of seen ids exceeds the threshold (`k` counts ids seen before). -/
def freshItemsFrom (ch1 : Channel) (md5hex : String → String) (T : Nat)
    (did : Entry → String) : Nat → List Entry → List NewsItem
  | _, [] => []
  | k, e :: es =>
    (if T != 0 && decide (k + 1 > T) then
      (NewsItem.update ch1 e (NewsItem.mk0 md5hex (did e))).setStr "hidden" "yes"
    else NewsItem.update ch1 e (NewsItem.mk0 md5hex (did e))) ::
      freshItemsFrom ch1 md5hex T did (k + 1) es

theorem hasId_append (l₁ l₂ : List NewsItem) (i : String) :
    hasId (l₁ ++ l₂) i = (hasId l₁ i || hasId l₂ i) := by
  unfold hasId
  exact List.any_append

theorem hasId_map_of_id_preserved (l : List NewsItem) (g : NewsItem → NewsItem)
    (h : ∀ it ∈ l, (g it).id = it.id) (j : String) :
    hasId (l.map g) j = hasId l j := by
  unfold hasId
  induction l with
  | nil => rfl
  | cons a rest ih =>
    simp only [List.map_cons, List.any_cons]
    rw [h a (by simp), ih (fun it hm => h it (by simp [hm]))]

/-- `mergeEntry` on an entry whose id is new to the channel. -/
theorem mergeEntry_new (cfg : PlanetCfg) (md5hex : String → String)
    (ch1 : Channel) (st : MergeState) (e : Entry) (i : String)
    (hd : ch1.deriveId md5hex e = some i)
    (hfound : hasId st.items i = false) :
    Channel.mergeEntry cfg md5hex ch1 st e =
      ⟨(if ch1.last_updated.isNone && cfg.new_feed_items != 0 &&
            decide ((st.feedItems ++ [i]).length > cfg.new_feed_items) then
          updateById (st.items ++ [NewsItem.update ch1 e (NewsItem.mk0 md5hex i)])
            i (fun it => it.setStr "hidden" "yes")
        else st.items ++ [NewsItem.update ch1 e (NewsItem.mk0 md5hex i)]),
        st.newIds ++ [i], st.feedItems ++ [i]⟩ := by
  unfold Channel.mergeEntry
  rw [hd]
  dsimp only
  rw [hfound]
  rfl


/-- The per-entry loop on entries whose ids are all fresh and distinct:
it appends one (possibly hidden) new item per entry and records the ids. -/
theorem mergeFold_fresh_aux (cfg : PlanetCfg) (md5hex : String → String)
    (ch1 : Channel) (hlu : ch1.last_updated = none) (did : Entry → String) :
    ∀ (rest : List Entry) (st : MergeState),
    (∀ e ∈ rest, ch1.deriveId md5hex e = some (did e)) →
    (∀ e ∈ rest,
      (NewsItem.update ch1 e (NewsItem.mk0 md5hex (did e))).id = did e) →
    ((rest.map did).Nodup) →
    (∀ e ∈ rest, hasId st.items (did e) = false) →
    rest.foldl (Channel.mergeEntry cfg md5hex ch1) st =
      ⟨st.items ++ freshItemsFrom ch1 md5hex cfg.new_feed_items did
          st.feedItems.length rest,
        st.newIds ++ rest.map did,
        st.feedItems ++ rest.map did⟩ := by
  intro rest
  induction rest with
  | nil =>
    intro st _ _ _ _
    simp [freshItemsFrom]
  | cons e es ih =>
    intro st hder hid hnd hfr
    have hdide : ch1.deriveId md5hex e = some (did e) := hder e (by simp)
    have hfre : hasId st.items (did e) = false := hfr e (by simp)
    have hide : (NewsItem.update ch1 e (NewsItem.mk0 md5hex (did e))).id = did e :=
      hid e (by simp)
    have hnd2 : (did e :: es.map did).Nodup := by simpa using hnd
    have hnotin : did e ∉ es.map did := (List.nodup_cons.mp hnd2).1
    rw [List.foldl_cons, mergeEntry_new cfg md5hex ch1 st e (did e) hdide hfre]
    have hwrap : (if ch1.last_updated.isNone && cfg.new_feed_items != 0 &&
          decide ((st.feedItems ++ [did e]).length > cfg.new_feed_items) then
        updateById (st.items ++ [NewsItem.update ch1 e (NewsItem.mk0 md5hex (did e))])
          (did e) (fun it => it.setStr "hidden" "yes")
      else st.items ++ [NewsItem.update ch1 e (NewsItem.mk0 md5hex (did e))]) =
        st.items ++
          [if cfg.new_feed_items != 0 &&
              decide (st.feedItems.length + 1 > cfg.new_feed_items) then
            (NewsItem.update ch1 e (NewsItem.mk0 md5hex (did e))).setStr
              "hidden" "yes"
          else NewsItem.update ch1 e (NewsItem.mk0 md5hex (did e))] := by
      rw [hlu]
      simp only [Option.isNone_none, Bool.true_and, List.length_append,
        List.length_cons, List.length_nil, Nat.zero_add]
      by_cases hc : (cfg.new_feed_items != 0 &&
          decide (st.feedItems.length + 1 > cfg.new_feed_items)) = true
      · rw [if_pos hc, if_pos hc]
        unfold updateById
        rw [List.map_append]
        congr 1
        · conv_rhs => rw [← List.map_id st.items]
          apply List.map_congr_left
          intro it hmem
          have hne : (it.id == did e) = false := by
            unfold hasId at hfre
            rw [List.any_eq_false] at hfre
            simpa using hfre it hmem
          simp [hne]
        · simp [hide]
      · rw [if_neg hc, if_neg hc]
    rw [hwrap]
    have hfr2 : ∀ x ∈ es,
        hasId (st.items ++
          [if cfg.new_feed_items != 0 &&
              decide (st.feedItems.length + 1 > cfg.new_feed_items) then
            (NewsItem.update ch1 e (NewsItem.mk0 md5hex (did e))).setStr
              "hidden" "yes"
          else NewsItem.update ch1 e (NewsItem.mk0 md5hex (did e))])
          (did x) = false := by
      intro x hx
      rw [hasId_append]
      have h1 : hasId st.items (did x) = false := hfr x (by simp [hx])
      have hidw : (if cfg.new_feed_items != 0 &&
          decide (st.feedItems.length + 1 > cfg.new_feed_items) then
            (NewsItem.update ch1 e (NewsItem.mk0 md5hex (did e))).setStr
              "hidden" "yes"
          else NewsItem.update ch1 e (NewsItem.mk0 md5hex (did e))).id = did e := by
        split
        · rw [NewsItem.setStr_id_of_ne _ _ _ (by decide)]
          exact hide
        · exact hide
      have h2 : (did e == did x) = false := by
        rw [beq_eq_false_iff_ne]
        intro hcontra
        exact hnotin (hcontra ▸ List.mem_map_of_mem did hx)
      unfold hasId
      simp only [List.any_append, List.any_cons, List.any_nil, Bool.or_false]
      rw [hidw, h2]
      unfold hasId at h1
      rw [h1]
      rfl
    have := ih ⟨st.items ++
        [if cfg.new_feed_items != 0 &&
            decide (st.feedItems.length + 1 > cfg.new_feed_items) then
          (NewsItem.update ch1 e (NewsItem.mk0 md5hex (did e))).setStr
            "hidden" "yes"
        else NewsItem.update ch1 e (NewsItem.mk0 md5hex (did e))],
        st.newIds ++ [did e], st.feedItems ++ [did e]⟩
      (fun x hx => hder x (by simp [hx]))
      (fun x hx => hid x (by simp [hx]))
      ((List.nodup_cons.mp hnd2).2)
      hfr2
    rw [this]
    simp only [List.length_append, List.length_cons, List.length_nil,
      Nat.zero_add, List.map_cons, freshItemsFrom]
    simp [List.append_assoc]

/-- Ids of the fresh items are the derived entry ids. -/
theorem freshItemsFrom_map_id (ch1 : Channel) (md5hex : String → String)
    (T : Nat) (did : Entry → String) :
    ∀ (es : List Entry) (k : Nat),
    (∀ e ∈ es, (NewsItem.update ch1 e (NewsItem.mk0 md5hex (did e))).id = did e) →
    (freshItemsFrom ch1 md5hex T did k es).map NewsItem.id = es.map did := by
  intro es
  induction es with
  | nil => intro k _; rfl
  | cons e rest ih =>
    intro k hid
    simp only [freshItemsFrom, List.map_cons]
    congr 1
    · split
      · rw [NewsItem.setStr_id_of_ne _ _ _ (by decide)]
        exact hid e (by simp)
      · exact hid e (by simp)
    · exact ih (k + 1) (fun x hx => hid x (by simp [hx]))

/-- Visibility of the fresh items: hidden exactly beyond the threshold. -/
theorem freshItemsFrom_map_hiddenF (ch1 : Channel) (md5hex : String → String)
    (T : Nat) (did : Entry → String) :
    ∀ (es : List Entry) (k : Nat),
    (∀ e ∈ es,
      (NewsItem.update ch1 e (NewsItem.mk0 md5hex (did e))).hiddenF = false) →
    (freshItemsFrom ch1 md5hex T did k es).map NewsItem.hiddenF =
      (List.range es.length).map
        (fun j => T != 0 && decide (k + j + 1 > T)) := by
  intro es
  induction es with
  | nil => intro k _; rfl
  | cons e rest ih =>
    intro k hfresh
    simp only [freshItemsFrom, List.map_cons, List.length_cons,
      List.range_succ_eq_map, List.map_map]
    congr 1
    · split
      · rename_i hcond
        rw [NewsItem.setStr_hiddenF_self]
        simp only [Nat.add_zero]
        exact hcond.symm
      · rename_i hcond
        rw [hfresh e (by simp)]
        simp only [Nat.add_zero]
        exact (Bool.eq_false_iff.mpr hcond).symm
    · rw [ih (k + 1) (fun x hx => hfresh x (by simp [hx]))]
      apply List.map_congr_left
      intro j _
      simp only [Function.comp]
      have harith : k + 1 + j + 1 = k + (j + 1) + 1 := by omega
      rw [harith]

/-- The counter after the order-assignment fold. -/
theorem foldl_orderStep_snd (l : List String) :
    ∀ (acc : List NewsItem × String) (m : Nat), acc.2 = natToStr m →
    (l.foldl orderStep acc).2 = natToStr (m + l.length) := by
  induction l with
  | nil =>
    intro acc m h
    simpa using h
  | cons i rest ih =>
    intro acc m h
    rw [List.foldl_cons]
    have hstep : (orderStep acc i).2 = natToStr (m + 1) := by
      unfold orderStep
      rw [h, strToNat_natToStr]
    rw [ih (orderStep acc i) (m + 1) hstep]
    congr 1
    simp only [List.length_cons]
    omega

/-- The order-assignment fold keeps both the ids and the visibility of the
item list (it writes only the `order` field). -/
theorem foldl_orderStep_projections (l : List String) :
    ∀ (acc : List NewsItem × String),
    ((l.foldl orderStep acc).1.map NewsItem.id = acc.1.map NewsItem.id) ∧
    ((l.foldl orderStep acc).1.map NewsItem.hiddenF = acc.1.map NewsItem.hiddenF) := by
  induction l with
  | nil => intro acc; exact ⟨rfl, rfl⟩
  | cons i rest ih =>
    intro acc
    rw [List.foldl_cons]
    rcases ih (orderStep acc i) with ⟨h1, h2⟩
    constructor
    · rw [h1]
      unfold orderStep
      exact updateById_map_proj _ _ _ _
        (fun it => NewsItem.setStr_id_of_ne it _ _ (by decide))
    · rw [h2]
      unfold orderStep
      exact updateById_map_proj _ _ _ _
        (fun it => NewsItem.setStr_hiddenF_of_ne it _ _ (by decide))

/-- When every visited item is matched, the expiration sweep expires
nothing. -/
theorem sweepExpired_all_matched {α : Type} (matched : α → Bool) (retain : Bool) :
    ∀ (n : Nat) (l : List α), (∀ x ∈ l, matched x = true) →
    sweepExpired matched retain n l = [] := by
  intro n l
  induction l generalizing n with
  | nil => intro _; cases n <;> rfl
  | cons a rest ih =>
    intro h
    cases n with
    | zero => rfl
    | succ m =>
      unfold sweepExpired
      rw [h a (by simp)]
      simp only [if_pos]
      exact ih m (fun x hx => h x (by simp [hx]))

/-- Members of the sorted item view are channel items. -/
theorem mem_itemsSorted {ch : Channel} {h : Bool} {x : NewsItem}
    (hx : x ∈ ch.itemsSorted h) : x ∈ ch.items := by
  unfold Channel.itemsSorted Channel.sortedPairs at hx
  rcases List.mem_map.mp hx with ⟨p, hp, hpx⟩
  have hmem : p ∈ (ch.itemsView h).enum := (List.mem_insertionSort pairGe).mp hp
  have h2 : p.2 ∈ (ch.itemsView h).enum.map Prod.snd := List.mem_map_of_mem _ hmem
  rw [List.enum_map_snd] at h2
  rw [← hpx]
  exact List.mem_of_mem_filter h2

/-! ### Claim C4 (corrected) -/

/-- Counterexample to C4 as stated: the hiding trigger is the previous
`updated` value (shifted into `last_updated` at lines 812–813), not a
previously unset `last_updated`.  A channel that has already completed one
successful fetch (so `updated` is set) while its stored `last_updated` is
still unset hides nothing when 15 entries arrive with a threshold of 10 —
the claim demands exactly 5 hidden items. -/
theorem first_sync_trigger_not_last_updated :
    (Channel.mk "u" (some "200") none false none none none (some 400) none "0"
        [] []).last_updated = none ∧
      ((Channel.update_entries cfgFix digestFix 500
          (Channel.mk "u" (some "200") none false none none none (some 400)
            none "0" [] [])
          [⟨[("id", .s "e01")]⟩, ⟨[("id", .s "e02")]⟩, ⟨[("id", .s "e03")]⟩,
           ⟨[("id", .s "e04")]⟩, ⟨[("id", .s "e05")]⟩, ⟨[("id", .s "e06")]⟩,
           ⟨[("id", .s "e07")]⟩, ⟨[("id", .s "e08")]⟩, ⟨[("id", .s "e09")]⟩,
           ⟨[("id", .s "e10")]⟩, ⟨[("id", .s "e11")]⟩, ⟨[("id", .s "e12")]⟩,
           ⟨[("id", .s "e13")]⟩, ⟨[("id", .s "e14")]⟩,
           ⟨[("id", .s "e15")]⟩]).items.countP
        (fun it => it.hiddenF)) = 0 :=
  ⟨rfl, by decide⟩

/-- C4 (amended): the first-sync suppression triggers when the channel's
previous `updated` was unset (so the shifted `last_updated` is `None` during
the run), and holds for runs that complete — entries whose ids come from the
explicit `id`/`link` branches, not the broken `md5.new` fallback
(`Entry.idCrash = false`, see C5), where the faithful `update_entriesE`
returns the pure pipeline's result.  On such a brand-new channel (no items,
counter `"0"`), ingesting entries with distinct derivable ids marks exactly
the entries beyond the positive threshold (counting in feed order) as
hidden, leaves the earlier ones visible, sets `next_order` to the number of
entries, and expires nothing. -/
theorem first_sync_hiding_threshold (cfg : PlanetCfg) (md5hex : String → String)
    (now : Int) (ch : Channel) (entries : List Entry) (did : Entry → String)
    (hupd : ch.updated = none)
    (hitems : ch.items = [])
    (hexp : ch.expired = [])
    (hnext : ch.next_order = "0")
    (hne : entries ≠ [])
    (hok : ∀ e ∈ entries, e.idCrash = false)
    (hder : ∀ e ∈ entries, (ch.shifted now).deriveId md5hex e = some (did e))
    (hid : ∀ e ∈ entries,
      (NewsItem.update (ch.shifted now) e (NewsItem.mk0 md5hex (did e))).id =
        did e)
    (hfresh : ∀ e ∈ entries,
      (NewsItem.update (ch.shifted now) e
        (NewsItem.mk0 md5hex (did e))).hiddenF = false)
    (hnd : (entries.map did).Nodup) :
    (Channel.update_entriesE cfg md5hex now ch entries =
      .ok (Channel.update_entries cfg md5hex now ch entries)) ∧
    ((Channel.update_entries cfg md5hex now ch entries).items.map NewsItem.id =
        entries.map did) ∧
      ((Channel.update_entries cfg md5hex now ch entries).items.map
          NewsItem.hiddenF =
        (List.range entries.length).map
          (fun j => cfg.new_feed_items != 0 &&
            decide (j + 1 > cfg.new_feed_items))) ∧
      (Channel.update_entries cfg md5hex now ch entries).next_order =
        natToStr entries.length ∧
      (Channel.update_entries cfg md5hex now ch entries).expired = [] := by
  refine ⟨update_entriesE_ok cfg md5hex now ch entries hok, ?_⟩
  have hne' : entries.isEmpty = false := by
    cases entries with
    | nil => exact absurd rfl hne
    | cons a l => rfl
  have hlu : (ch.shifted now).last_updated = none := hupd
  have hfold := mergeFold_fresh_aux cfg md5hex (ch.shifted now) hlu did entries
    ⟨(ch.shifted now).items, [], []⟩ hder hid hnd
    (by
      intro e _
      show hasId (ch.shifted now).items (did e) = false
      have : (ch.shifted now).items = [] := hitems
      rw [this]
      rfl)
  have hitems0 : (ch.shifted now).items = [] := hitems
  rw [hitems0] at hfold
  simp only [List.nil_append, List.length_nil] at hfold
  -- name the merge result and the ordering result
  set fresh := freshItemsFrom (ch.shifted now) md5hex cfg.new_feed_items did 0
    entries with hfreshdef
  have hnext0 : (ch.shifted now).next_order = "0" := hnext
  have hsnd : (assignOrders fresh (ch.shifted now).next_order
      (entries.map did)).2 = natToStr entries.length := by
    unfold assignOrders
    rw [hnext0]
    rw [foldl_orderStep_snd (entries.map did).reverse (fresh, "0") 0 rfl]
    rw [List.length_reverse, List.length_map]
    simp
  have hproj := foldl_orderStep_projections (entries.map did).reverse
    (fresh, (ch.shifted now).next_order)
  have hmapid : (assignOrders fresh (ch.shifted now).next_order
      (entries.map did)).1.map NewsItem.id = entries.map did := by
    unfold assignOrders
    rw [hproj.1]
    exact freshItemsFrom_map_id (ch.shifted now) md5hex cfg.new_feed_items did
      entries 0 hid
  have hmaph : (assignOrders fresh (ch.shifted now).next_order
      (entries.map did)).1.map NewsItem.hiddenF =
      (List.range entries.length).map
        (fun j => cfg.new_feed_items != 0 &&
          decide (j + 1 > cfg.new_feed_items)) := by
    unfold assignOrders
    rw [hproj.2]
    rw [freshItemsFrom_map_hiddenF (ch.shifted now) md5hex cfg.new_feed_items
      did entries 0 hfresh]
    apply List.map_congr_left
    intro j _
    have : 0 + j + 1 = j + 1 := by omega
    rw [this]
  -- now compute update_entries
  unfold Channel.update_entries Channel.sweepResult Channel.preSweep
    Channel.mergedState
  rw [hne']
  simp only [Bool.false_eq_true, if_false]
  rw [hitems0, hfold]
  dsimp only
  set ordered := assignOrders fresh (ch.shifted now).next_order
    (entries.map did) with horddef
  have hmatched : ∀ x ∈ Channel.itemsSorted
      { (ch.shifted now) with items := ordered.1, next_order := ordered.2 } false,
      (entries.map did).contains x.id = true := by
    intro x hx
    have hmem : x ∈ ordered.1 := mem_itemsSorted hx
    have : x.id ∈ ordered.1.map NewsItem.id := List.mem_map_of_mem _ hmem
    rw [hmapid] at this
    exact List.elem_eq_true_of_mem this
  have hex : sweepExpired
      (fun it => (entries.map did).contains it.id)
      ({ (ch.shifted now) with
          items := ordered.1,
          next_order := ordered.2 }.url_status == some "226")
      (entries.map did).length
      (Channel.itemsSorted
        { (ch.shifted now) with items := ordered.1, next_order := ordered.2 }
        false) = [] := by
    apply sweepExpired_all_matched
    intro x hx
    exact hmatched x hx
  rw [hex]
  refine ⟨?_, ?_, ?_, ?_⟩
  · simp only [List.any_nil, Bool.not_false, List.filter_true]
    exact hmapid
  · simp only [List.any_nil, Bool.not_false, List.filter_true]
    exact hmaph
  · exact hsnd
  · show (ch.shifted now).expired ++ [] = []
    have : (ch.shifted now).expired = [] := hexp
    rw [this]
    rfl

/-- Fifteen minimal entries with distinct explicit ids. -/
def entries15Fix : List Entry :=
  [⟨[("id", .s "e01")]⟩, ⟨[("id", .s "e02")]⟩, ⟨[("id", .s "e03")]⟩,
   ⟨[("id", .s "e04")]⟩, ⟨[("id", .s "e05")]⟩, ⟨[("id", .s "e06")]⟩,
   ⟨[("id", .s "e07")]⟩, ⟨[("id", .s "e08")]⟩, ⟨[("id", .s "e09")]⟩,
   ⟨[("id", .s "e10")]⟩, ⟨[("id", .s "e11")]⟩, ⟨[("id", .s "e12")]⟩,
   ⟨[("id", .s "e13")]⟩, ⟨[("id", .s "e14")]⟩, ⟨[("id", .s "e15")]⟩]

/-- The derived id of an entry with an explicit id. -/
def didFix : Entry → String := fun e =>
  match e.get "id" with
  | some v => utf8 v
  | none => ""

/-- A brand-new channel: nothing fetched yet. -/
def chBrandNewFix : Channel :=
  Channel.mk "u" (some "200") none false none none none none none "0" [] []

/-- Witness for the amended C4: a brand-new channel with threshold 10 ingests
15 entries; the last 5 in feed order end hidden, the first 10 visible, and
`next_order` ends at `"15"`. -/
theorem first_sync_hiding_threshold_witness :
    (Channel.update_entriesE cfgFix digestFix 500 chBrandNewFix
        entries15Fix =
      .ok (Channel.update_entries cfgFix digestFix 500 chBrandNewFix
        entries15Fix)) ∧
    ((Channel.update_entries cfgFix digestFix 500 chBrandNewFix
        entries15Fix).items.map NewsItem.id = entries15Fix.map didFix) ∧
      ((Channel.update_entries cfgFix digestFix 500 chBrandNewFix
          entries15Fix).items.map NewsItem.hiddenF =
        (List.range entries15Fix.length).map
          (fun j => cfgFix.new_feed_items != 0 &&
            decide (j + 1 > cfgFix.new_feed_items))) ∧
      (Channel.update_entries cfgFix digestFix 500 chBrandNewFix
          entries15Fix).next_order = natToStr entries15Fix.length ∧
      (Channel.update_entries cfgFix digestFix 500 chBrandNewFix
          entries15Fix).expired = [] :=
  first_sync_hiding_threshold cfgFix digestFix 500 chBrandNewFix entries15Fix
    didFix rfl rfl rfl rfl (by decide) (by decide) (by decide) (by decide)
    (by decide) (by decide)

/-! ### Claim C6 (corrected) -/

theorem contains_eq_false_iff (l : List String) (a : String) :
    l.contains a = false ↔ a ∉ l := by
  constructor
  · intro h hmem
    have := List.elem_eq_true_of_mem hmem
    rw [show l.elem a = l.contains a from rfl, h] at this
    exact Bool.false_ne_true this
  · intro h
    cases hb : l.contains a
    · rfl
    · exact absurd (List.mem_of_elem_eq_true hb) h

/-- Every survivor of the id-dedup pass is the first occurrence of its id in
the candidate order, and its id was not previously seen. -/
theorem dedupById_spec (l : List NewsItem) :
    ∀ (seen : List String), ∀ it ∈ dedupById seen l,
      seen.contains it.id = false ∧
        l.find? (fun c => c.id == it.id) = some it := by
  induction l with
  | nil =>
    intro seen it hit
    simp [dedupById] at hit
  | cons a rest ih =>
    intro seen it hit
    unfold dedupById at hit
    by_cases hs : seen.contains a.id
    · rw [if_pos hs] at hit
      rcases ih seen it hit with ⟨h1, h2⟩
      have hne : (a.id == it.id) = false := by
        rw [beq_eq_false_iff_ne]
        intro hcontra
        rw [hcontra] at hs
        rw [h1] at hs
        exact Bool.false_ne_true hs
      refine ⟨h1, ?_⟩
      rw [List.find?_cons_of_neg _ (by simp [hne]), h2]
    · rw [if_neg hs] at hit
      rcases List.mem_cons.mp hit with heq | htail
      · subst heq
        refine ⟨by simpa using hs, ?_⟩
        rw [List.find?_cons_of_pos _ (by simp)]
      · rcases ih (seen ++ [a.id]) it htail with ⟨h1, h2⟩
        have hnotmem : it.id ∉ seen ++ [a.id] :=
          (contains_eq_false_iff _ _).mp h1
        have hseen : seen.contains it.id = false :=
          (contains_eq_false_iff _ _).mpr
            (fun hm => hnotmem (List.mem_append_left _ hm))
        have hne : (a.id == it.id) = false := by
          rw [beq_eq_false_iff_ne]
          intro hcontra
          exact hnotmem (List.mem_append_right _ (by simp [hcontra]))
        refine ⟨hseen, ?_⟩
        rw [List.find?_cons_of_neg _ (by simp [hne]), h2]

/-- The deduplicated list has pairwise-distinct ids. -/
theorem dedupById_nodup (l : List NewsItem) :
    ∀ seen, ((dedupById seen l).map NewsItem.id).Nodup := by
  induction l with
  | nil => intro seen; simp [dedupById]
  | cons a rest ih =>
    intro seen
    unfold dedupById
    by_cases hs : seen.contains a.id
    · rw [if_pos hs]
      exact ih seen
    · rw [if_neg hs]
      simp only [List.map_cons, List.nodup_cons]
      refine ⟨?_, ih (seen ++ [a.id])⟩
      intro hmem
      rcases List.mem_map.mp hmem with ⟨it, hit, hid⟩
      rcases dedupById_spec rest (seen ++ [a.id]) it hit with ⟨h1, _⟩
      have := (contains_eq_false_iff _ _).mp h1
      exact this (List.mem_append_right _ (by simp [hid]))

/-- An id survives the dedup pass exactly when it is unseen and occurs among
the candidates. -/
theorem dedupById_mem_id (l : List NewsItem) :
    ∀ seen x, (∃ it ∈ dedupById seen l, it.id = x) ↔
      (x ∉ seen ∧ ∃ c ∈ l, c.id = x) := by
  induction l with
  | nil =>
    intro seen x
    simp [dedupById]
  | cons a rest ih =>
    intro seen x
    unfold dedupById
    by_cases hs : seen.contains a.id
    · rw [if_pos hs]
      rw [ih seen x]
      constructor
      · rintro ⟨h1, c, hc, hcx⟩
        exact ⟨h1, c, by simp [hc], hcx⟩
      · rintro ⟨h1, c, hc, hcx⟩
        rcases List.mem_cons.mp hc with heq | htail
        · subst heq
          subst hcx
          exact absurd (List.mem_of_elem_eq_true hs) h1
        · exact ⟨h1, c, htail, hcx⟩
    · rw [if_neg hs]
      constructor
      · rintro ⟨it, hit, hix⟩
        rcases List.mem_cons.mp hit with heq | htail
        · subst heq
          refine ⟨?_, it, by simp, hix⟩
          rw [← hix]
          exact (contains_eq_false_iff _ _).mp (by simpa using hs)
        · rcases (ih (seen ++ [a.id]) x).mp ⟨it, htail, hix⟩ with ⟨h1, c, hc, hcx⟩
          exact ⟨fun hm => h1 (List.mem_append_left _ hm), c, by simp [hc], hcx⟩
      · rintro ⟨h1, c, hc, hcx⟩
        by_cases hax : a.id = x
        · exact ⟨a, by simp, hax⟩
        · rcases List.mem_cons.mp hc with heq | htail
          · subst heq
            exact absurd hcx hax
          · have hnm : x ∉ seen ++ [a.id] := by
              intro hm
              rcases List.mem_append.mp hm with hm1 | hm2
              · exact h1 hm1
              · have hx2 : x = a.id := by simpa using hm2
                exact hax hx2.symm
            rcases (ih (seen ++ [a.id]) x).mpr ⟨hnm, c, htail, hcx⟩ with
              ⟨it, hit, hix⟩
            exact ⟨it, by simp [hit], hix⟩

/-- The aggregate sort is a permutation. -/
theorem aggSorted_perm (l : List NewsItem) : (aggSorted l).Perm l := by
  unfold aggSorted
  have h1 := List.perm_insertionSort pairGe l.enum
  have h2 := h1.map (fun p : Nat × NewsItem => p.2)
  have h3 : l.enum.map (fun p : Nat × NewsItem => p.2) = l := List.enum_map_snd l
  rw [h3] at h2
  exact h2

/-- With `max_items = 0` and `max_days = 0`, `Planet.items` is the dedup of
the candidate stream, sorted when requested. -/
theorem planet_items_no_truncation (cfg : PlanetCfg) (hidden sorted : Bool)
    (channelsArg : List Channel) :
    Planet.items cfg hidden sorted 0 0 channelsArg =
      (if sorted then
        aggSorted (dedupById [] (candidateItems cfg hidden
          (if channelsArg.isEmpty then Planet.channelsUnsorted cfg hidden
           else channelsArg)))
      else dedupById [] (candidateItems cfg hidden
          (if channelsArg.isEmpty then Planet.channelsUnsorted cfg hidden
           else channelsArg))) := by
  unfold Planet.items Planet.itemsPreWindow
  dsimp only
  simp only [bne_self_eq_false, Bool.and_false, Bool.false_eq_true, if_false]

/-- C6 (amended): `Planet.items` (without truncation windows) returns
pairwise-distinct ids; each returned item is the first candidate with its id
in the channel iteration order — the subscription (insertion) order by
default, since `Planet.items` requests the channel list unsorted, or the
caller-supplied order — among the items that pass the visibility and filter
checks; and an id is returned exactly when some passing candidate carries
it. -/
theorem planet_items_dedup_first_wins (cfg : PlanetCfg) (hidden sorted : Bool)
    (channelsArg : List Channel) :
    (((Planet.items cfg hidden sorted 0 0 channelsArg).map NewsItem.id).Nodup) ∧
      (∀ it ∈ Planet.items cfg hidden sorted 0 0 channelsArg,
        (candidateItems cfg hidden
          (if channelsArg.isEmpty then Planet.channelsUnsorted cfg hidden
           else channelsArg)).find? (fun c => c.id == it.id) = some it) ∧
      (∀ x, (∃ it ∈ Planet.items cfg hidden sorted 0 0 channelsArg,
          it.id = x) ↔
        (∃ c ∈ candidateItems cfg hidden
          (if channelsArg.isEmpty then Planet.channelsUnsorted cfg hidden
           else channelsArg), c.id = x)) := by
  rw [planet_items_no_truncation cfg hidden sorted channelsArg]
  set cands := candidateItems cfg hidden
    (if channelsArg.isEmpty then Planet.channelsUnsorted cfg hidden
     else channelsArg) with hcands
  have hperm : (if sorted then aggSorted (dedupById [] cands)
      else dedupById [] cands).Perm (dedupById [] cands) := by
    split
    · exact aggSorted_perm _
    · exact List.Perm.refl _
  refine ⟨?_, ?_, ?_⟩
  · exact ((hperm.map NewsItem.id).nodup_iff).mpr (dedupById_nodup cands [])
  · intro it hit
    exact (dedupById_spec cands [] it (hperm.mem_iff.mp hit)).2
  · intro x
    constructor
    · rintro ⟨it, hit, hix⟩
      exact ((dedupById_mem_id cands [] x).mp
        ⟨it, hperm.mem_iff.mp hit, hix⟩).2
    · intro hc
      rcases (dedupById_mem_id cands [] x).mpr ⟨by simp, hc⟩ with ⟨it, hit, hix⟩
      exact ⟨it, hperm.mem_iff.mpr hit, hix⟩

/-- C6 counterexample fixtures: two channels both carrying an item with id
`"X"`; the channel named `"B"` is subscribed first, the channel named `"A"`
second. -/
def itemBXFix : NewsItem :=
  NewsItem.mk [("id", .str "X"), ("title", .str "fromB"), ("date", .date 10),
    ("order", .str "1")]

def itemAXFix : NewsItem :=
  NewsItem.mk [("id", .str "X"), ("title", .str "fromA"), ("date", .date 20),
    ("order", .str "1")]

def chNameBFix : Channel :=
  Channel.mk "http://b" (some "200") (some "B") false none none none
    (some 100) none "1" [itemBXFix] []

def chNameAFix : Channel :=
  Channel.mk "http://a" (some "200") (some "A") false none none none
    (some 100) none "1" [itemAXFix] []

def cfgDub : PlanetCfg := ⟨10, none, none, [chNameBFix, chNameAFix]⟩

/-- Counterexample to C6 as stated: `Planet.items` visits channels in
subscription order, not name-sorted order (`Planet.items` calls
`self.channels(..., sorted=False)`, source line 416).  With both channels
holding an item with id `"X"` and the later-subscribed channel named `"A"`
sorting first by name, the returned item is the one from the
first-subscribed channel `"B"` — not, as the claim states, from the channel
visited first in name-sorted order. -/
theorem planet_items_winner_not_name_sorted :
    chNameBFix.items.map NewsItem.id = ["X"] ∧
      chNameAFix.items.map NewsItem.id = ["X"] ∧
      cmpStr "A" "B" = .lt ∧
      (Planet.items cfgDub false true 0 0 []).map NewsItem.titleF = ["fromB"] ∧
      itemAXFix.titleF = "fromA" :=
  ⟨by decide, by decide, by decide, by decide, by decide⟩

/-- Witness for the amended C6: in the two-channel fixture the returned item
with id `"X"` is the first passing candidate in subscription order. -/
theorem planet_items_dedup_first_wins_witness :
    (candidateItems cfgDub false (Planet.channelsUnsorted cfgDub false)).find?
        (fun c => c.id == itemBXFix.id) = some itemBXFix :=
  (planet_items_dedup_first_wins cfgDub false true []).2.1 itemBXFix (by decide)

/-! ### Claim C1 (corrected): the expiration sweep -/

/-- Strict comparison on index-tagged items. -/
def pairGtB (a b : Nat × NewsItem) : Bool := pairCmp a b == .gt

theorem pairGtB_asym (a b : Nat × NewsItem) (h : pairGtB a b = true) :
    pairGtB b a = false := by
  unfold pairGtB at *
  have hgt : pairCmp a b = .gt := by
    cases hv : pairCmp a b <;> rw [hv] at h <;> first | rfl | exact absurd h (by decide)
  rw [lawful_pairCmp.gt_symm hgt]
  rfl

/-- A full tie of the pair comparator forces equal original positions. -/
theorem pairCmp_eq_fst (a b : Nat × NewsItem) (h : pairCmp a b = .eq) :
    a.1 = b.1 := by
  unfold pairCmp at h
  rw [Ordering.then_eq_eq] at h
  exact cmpNat_eq_iff.mp h.2

/-- The sorted pair view of a channel is strictly descending. -/
theorem sortedPairs_pairwise_gt (ch : Channel) (hid : Bool) :
    (ch.sortedPairs hid).Pairwise (fun a b => pairGtB a b = true) := by
  have h1 : (ch.sortedPairs hid).Pairwise pairGe :=
    List.sorted_insertionSort pairGe _
  have hperm : (ch.sortedPairs hid).Perm (ch.itemsView hid).enum :=
    List.perm_insertionSort pairGe _
  have hnodup : ((ch.sortedPairs hid).map Prod.fst).Nodup := by
    have hpf := hperm.map Prod.fst
    rw [List.enum_map_fst] at hpf
    exact hpf.nodup_iff.mpr (List.nodup_range _)
  have hne : (ch.sortedPairs hid).Pairwise (fun a b => a.1 ≠ b.1) :=
    List.pairwise_map.mp hnodup
  exact (h1.and hne).imp (by
    rintro a b ⟨hge, hfst⟩
    unfold pairGe at hge
    unfold pairGtB
    cases hv : pairCmp a b with
    | lt => exact absurd hv hge
    | eq => exact absurd (pairCmp_eq_fst a b hv) hfst
    | gt => rfl)

/-- Characterization of the expiration loop on a strictly descending list:
an element is expired exactly when it is unmatched, the channel is not in
retain mode, and strictly fewer than `n` matched elements sort strictly
above it — equivalently, the sweep stops as soon as the remaining count hits
zero and removes only unmatched elements seen before that point. -/
theorem sweepExpired_char {α : Type} (matched : α → Bool) (retain : Bool)
    (gt : α → α → Bool) (hasym : ∀ a b, gt a b = true → gt b a = false) :
    ∀ (n : Nat) (L : List α), L.Pairwise (fun a b => gt a b = true) →
    ∀ x, x ∈ sweepExpired matched retain n L ↔
      (x ∈ L ∧ matched x = false ∧ retain = false ∧
        L.countP (fun j => matched j && gt j x) < n) := by
  intro n L
  induction L generalizing n with
  | nil =>
    intro _ x
    cases n <;> simp [sweepExpired]
  | cons a rest ih =>
    intro hpw x
    rcases List.pairwise_cons.mp hpw with ⟨hhead, htail⟩
    cases n with
    | zero =>
      simp only [sweepExpired, List.not_mem_nil, false_iff]
      rintro ⟨_, _, _, hcount⟩
      omega
    | succ m =>
      by_cases hma : matched a = true
      · have hsw : sweepExpired matched retain (m + 1) (a :: rest) =
            sweepExpired matched retain m rest := by
          conv_lhs => unfold sweepExpired
          rw [hma]
          simp
        rw [hsw, ih m htail x]
        constructor
        · rintro ⟨hmem, hmx, hr, hcount⟩
          refine ⟨by simp [hmem], hmx, hr, ?_⟩
          have hga : gt a x = true := hhead x hmem
          rw [List.countP_cons,
            if_pos (show (matched a && gt a x) = true by rw [hma, hga]; rfl)]
          omega
        · rintro ⟨hmem, hmx, hr, hcount⟩
          have hxa : x ≠ a := by
            intro hcontra
            rw [hcontra] at hmx
            rw [hma] at hmx
            exact absurd hmx (by decide)
          have hmem2 : x ∈ rest := by
            rcases List.mem_cons.mp hmem with h1 | h2
            · exact absurd h1 hxa
            · exact h2
          refine ⟨hmem2, hmx, hr, ?_⟩
          have hga : gt a x = true := hhead x hmem2
          rw [List.countP_cons,
            if_pos (show (matched a && gt a x) = true by rw [hma, hga]; rfl)]
            at hcount
          omega
      · have hma' : matched a = false := by
          cases hv : matched a
          · rfl
          · exact absurd hv hma
        by_cases hr : retain = true
        · have hsw : sweepExpired matched retain (m + 1) (a :: rest) =
              sweepExpired matched retain (m + 1) rest := by
            conv_lhs => unfold sweepExpired
            rw [hma', hr]
            simp
          rw [hsw, ih (m + 1) htail x]
          constructor
          · rintro ⟨_, _, hrf, _⟩
            rw [hr] at hrf
            exact absurd hrf (by decide)
          · rintro ⟨_, _, hrf, _⟩
            rw [hr] at hrf
            exact absurd hrf (by decide)
        · have hrf : retain = false := by
            cases hv : retain
            · rfl
            · exact absurd hv hr
          have hsw : sweepExpired matched retain (m + 1) (a :: rest) =
              a :: sweepExpired matched retain (m + 1) rest := by
            conv_lhs => unfold sweepExpired
            rw [hma', hrf]
            simp
          rw [hsw]
          constructor
          · intro hmem
            rcases List.mem_cons.mp hmem with heq | htl
            · subst heq
              refine ⟨by simp, hma', hrf, ?_⟩
              have hcz : rest.countP (fun j => matched j && gt j x) = 0 := by
                rw [List.countP_eq_zero]
                intro j hj
                have := hasym x j (hhead j hj)
                simp [this]
              rw [List.countP_cons,
                if_neg (show ¬(matched x && gt x x) = true by rw [hma']; simp)]
              omega
            · rcases (ih (m + 1) htail x).mp htl with ⟨hmem2, hmx, _, hcount⟩
              refine ⟨by simp [hmem2], hmx, hrf, ?_⟩
              rw [List.countP_cons,
                if_neg (show ¬(matched a && gt a x) = true by rw [hma']; simp)]
              omega
          · rintro ⟨hmem, hmx, _, hcount⟩
            rcases List.mem_cons.mp hmem with heq | htl
            · subst heq
              exact List.mem_cons_self _ _
            · refine List.mem_cons_of_mem a ((ih (m + 1) htail x).mpr
                ⟨htl, hmx, hrf, ?_⟩)
              rw [List.countP_cons,
                if_neg (show ¬(matched a && gt a x) = true by rw [hma']; simp)]
                at hcount
              omega

/-- The sweep commutes with mapping (the algorithm visits items, the proofs
reason on index-tagged pairs). -/
theorem sweepExpired_map {α β : Type} (f : α → β) (matched : β → Bool)
    (retain : Bool) :
    ∀ (n : Nat) (l : List α),
    sweepExpired matched retain n (l.map f) =
      (sweepExpired (fun x => matched (f x)) retain n l).map f := by
  intro n l
  induction l generalizing n with
  | nil => cases n <;> rfl
  | cons a rest ih =>
    cases n with
    | zero => rfl
    | succ m =>
      simp only [List.map_cons]
      unfold sweepExpired
      by_cases hma : matched (f a) = true
      · rw [hma]
        simp only [if_pos]
        exact ih m
      · have hma' : matched (f a) = false := by
          cases hv : matched (f a)
          · rfl
          · exact absurd hv hma
        rw [hma']
        cases retain with
        | true =>
          simp only [Bool.not_true, Bool.false_eq_true, if_false]
          exact ih (m + 1)
        | false =>
          simp only [Bool.not_false, if_pos, List.map_cons]
          rw [ih (m + 1)]
          simp only [Bool.false_eq_true, if_false, List.map_cons]

def entryMatchFix : Entry := ⟨[("id", .s "A"), ("updated_parsed", .d (some 50))]⟩

/-- C2 counterexample fixture: an entry carrying a literal string field named
`order` — such a key is not in `NewsItem.IGNORE_KEYS`, so `NewsItem.update`
stores it verbatim like any other string field. -/
def entryOrderFix : Entry :=
  ⟨[("id", .s "X"), ("updated_parsed", .d (some 50)), ("order", .s "zzz")]⟩

/-- Counterexample to C2 as stated: the first run creates item `X`, whose
order is overwritten by the counter assignment (the item is new), giving
order "1"; the second run with the byte-identical entry list finds `X`
already present, so the counter assignment is skipped and `update` resets
its order to the entry's literal "zzz" — the order field of an existing
item changed on an identical second run. -/
theorem update_entries_not_idempotent_order :
    ((Channel.update_entries cfgFix digestFix 100 chBrandNewFix
        [entryOrderFix]).items.map NewsItem.orderF = [some "1"]) ∧
      ((Channel.update_entries cfgFix digestFix 100
        (Channel.update_entries cfgFix digestFix 100 chBrandNewFix
          [entryOrderFix]) [entryOrderFix]).items.map NewsItem.orderF =
        [some "zzz"]) := by
  constructor
  · decide
  · decide

/-! ### Claim C2: groundwork — the store as a sequence of field writes -/

/-- The keys of a record overlay, in insertion order. -/
def Fields.keys (fs : Fields) : List String := fs.map Prod.fst

theorem Fields.get_set (fs : Fields) (k k' : String) (v : FieldVal) :
    (fs.set k v).get k' = if k == k' then some v else fs.get k' := by
  by_cases h : k = k'
  · subst h
    rw [if_pos (by simp), Fields.get_set_self]
  · rw [if_neg (by simpa using h), Fields.get_set_ne fs k k' v (fun hc => h hc.symm)]

theorem Fields.mem_keys_iff_get (fs : Fields) (k : String) :
    k ∈ fs.keys ↔ (fs.get k).isSome := by
  induction fs with
  | nil => simp [Fields.keys, Fields.get]
  | cons kv rest ih =>
    simp only [Fields.keys, List.map_cons, List.mem_cons, Fields.get]
    by_cases h : kv.1 = k
    · subst h
      simp
    · have hb : (kv.1 == k) = false := beq_eq_false_iff_ne.mpr h
      rw [hb]
      simp only [Bool.false_eq_true, if_false]
      constructor
      · rintro (h1 | h2)
        · exact absurd h1.symm h
        · exact (ih.mp (by simpa [Fields.keys] using h2))
      · intro hg
        exact Or.inr (by simpa [Fields.keys] using ih.mpr hg)

theorem Fields.keys_cons (kv : String × FieldVal) (rest : Fields) :
    Fields.keys (kv :: rest) = kv.1 :: Fields.keys rest := rfl

theorem Fields.keys_set_of_mem (fs : Fields) (k : String) (v : FieldVal)
    (h : k ∈ fs.keys) : (fs.set k v).keys = fs.keys := by
  induction fs with
  | nil => exact absurd h (by simp [Fields.keys])
  | cons kv rest ih =>
    by_cases hk : kv.1 = k
    · subst hk
      show Fields.keys (if kv.1 == kv.1 then (kv.1, v) :: rest else _) = _
      rw [if_pos (by simp)]
      rfl
    · have hb : (kv.1 == k) = false := beq_eq_false_iff_ne.mpr hk
      have hmem : k ∈ Fields.keys rest := by
        rw [Fields.keys_cons] at h
        rcases List.mem_cons.mp h with h1 | h2
        · exact absurd h1.symm hk
        · exact h2
      show Fields.keys (if kv.1 == k then _ else kv :: Fields.set rest k v) = _
      rw [hb]
      simp only [Bool.false_eq_true, if_false]
      rw [Fields.keys_cons, Fields.keys_cons, ih hmem]

theorem Fields.keys_set_of_not_mem (fs : Fields) (k : String) (v : FieldVal)
    (h : k ∉ fs.keys) : (fs.set k v).keys = fs.keys ++ [k] := by
  induction fs with
  | nil => rfl
  | cons kv rest ih =>
    have hk : kv.1 ≠ k := by
      intro hc
      exact h (by rw [Fields.keys_cons, hc]; exact List.mem_cons_self _ _)
    have hb : (kv.1 == k) = false := beq_eq_false_iff_ne.mpr hk
    have hmem : k ∉ Fields.keys rest := by
      intro hc
      exact h (by rw [Fields.keys_cons]; exact List.mem_cons_of_mem _ hc)
    show Fields.keys (if kv.1 == k then _ else kv :: Fields.set rest k v) = _
    rw [hb]
    simp only [Bool.false_eq_true, if_false]
    rw [Fields.keys_cons, Fields.keys_cons, ih hmem]
    rfl

theorem Fields.keys_set_sub (fs : Fields) (k k' : String) (v : FieldVal)
    (h : k' ∈ fs.keys) : k' ∈ (fs.set k v).keys := by
  by_cases hm : k ∈ fs.keys
  · rw [Fields.keys_set_of_mem fs k v hm]; exact h
  · rw [Fields.keys_set_of_not_mem fs k v hm]; exact List.mem_append_left _ h

theorem Fields.keys_set_self_mem (fs : Fields) (k : String) (v : FieldVal) :
    k ∈ (fs.set k v).keys :=
  (Fields.mem_keys_iff_get _ k).mpr (by rw [Fields.get_set_self]; rfl)

theorem Fields.nodup_keys_set (fs : Fields) (k : String) (v : FieldVal)
    (h : fs.keys.Nodup) : (fs.set k v).keys.Nodup := by
  by_cases hm : k ∈ fs.keys
  · rw [Fields.keys_set_of_mem fs k v hm]; exact h
  · rw [Fields.keys_set_of_not_mem fs k v hm]
    simpa [List.nodup_append] using ⟨h, hm⟩

theorem Fields.get_eq_none_of_not_mem (fs : Fields) (k : String)
    (h : k ∉ fs.keys) : fs.get k = none := by
  cases hv : fs.get k with
  | none => rfl
  | some v =>
    exact absurd ((Fields.mem_keys_iff_get fs k).mpr (by rw [hv]; rfl)) h

/-- Extensionality for records with distinct keys: same key sequence and same
lookups force equality. -/
theorem Fields.ext_of_nodup (fs gs : Fields) (hn : fs.keys.Nodup)
    (hk : fs.keys = gs.keys) (hg : ∀ k, fs.get k = gs.get k) : fs = gs := by
  induction fs generalizing gs with
  | nil =>
    cases gs with
    | nil => rfl
    | cons kv rest => exact absurd hk (by simp [Fields.keys])
  | cons kv rest ih =>
    cases gs with
    | nil => exact absurd hk (by simp [Fields.keys])
    | cons kw rest' =>
      rw [Fields.keys_cons, Fields.keys_cons] at hk
      have hk1 : kv.1 = kw.1 := (List.cons.injEq _ _ _ _).mp hk |>.1
      have hk2 : Fields.keys rest = Fields.keys rest' :=
        (List.cons.injEq _ _ _ _).mp hk |>.2
      have hself : (kv.1 == kv.1) = true := by simp
      have hval : kv.2 = kw.2 := by
        have h1 := hg kv.1
        simp only [Fields.get, hself] at h1
        rw [← hk1] at h1
        simp only [hself, if_pos] at h1
        exact (Option.some.injEq _ _).mp h1
      have hcons := List.nodup_cons.mp (by rw [Fields.keys_cons] at hn; exact hn)
      have hrest : rest = rest' := by
        refine ih rest' hcons.2 hk2 ?_
        intro k
        by_cases hkk : kv.1 = k
        · subst hkk
          rw [Fields.get_eq_none_of_not_mem rest kv.1 hcons.1,
            Fields.get_eq_none_of_not_mem rest' kv.1 (hk2 ▸ hcons.1)]
        · have hb : (kv.1 == k) = false := beq_eq_false_iff_ne.mpr hkk
          have h1 := hg k
          simp only [Fields.get, hb, Bool.false_eq_true, if_false] at h1
          rw [← hk1] at h1
          simp only [Fields.get, hb, Bool.false_eq_true, if_false] at h1
          exact h1
      rw [hrest, show kv = kw from Prod.ext hk1 hval]

/-- Apply a sequence of field writes left to right. -/
def applyW (fs : Fields) (W : List (String × FieldVal)) : Fields :=
  W.foldl (fun f w => f.set w.1 w.2) fs

/-- The last value written to a key by a write sequence, if any. -/
def lastW (W : List (String × FieldVal)) (k : String) : Option FieldVal :=
  W.foldl (fun acc w => if w.1 == k then some w.2 else acc) none

theorem applyW_nil (fs : Fields) : applyW fs [] = fs := rfl

theorem applyW_cons (fs : Fields) (w : String × FieldVal)
    (W : List (String × FieldVal)) :
    applyW fs (w :: W) = applyW (fs.set w.1 w.2) W := rfl

theorem applyW_append (fs : Fields) (W₁ W₂ : List (String × FieldVal)) :
    applyW fs (W₁ ++ W₂) = applyW (applyW fs W₁) W₂ :=
  List.foldl_append _ _ _ _

theorem lastW_foldl_acc (W : List (String × FieldVal)) (k : String)
    (i : Option FieldVal) :
    W.foldl (fun acc w => if w.1 == k then some w.2 else acc) i =
      match lastW W k with
      | some v => some v
      | none => i := by
  induction W generalizing i with
  | nil => rfl
  | cons w W' ih =>
    show W'.foldl _ (if w.1 == k then some w.2 else i) = _
    rw [ih]
    show _ = match W'.foldl _ (if w.1 == k then some w.2 else none) with
      | some v => some v
      | none => i
    rw [ih (if w.1 == k then some w.2 else none)]
    cases lastW W' k with
    | some v => rfl
    | none =>
      by_cases hw : (w.1 == k) = true
      · rw [hw]; rfl
      · rw [Bool.eq_false_iff.mpr hw]; rfl

theorem lastW_cons (w : String × FieldVal) (W : List (String × FieldVal))
    (k : String) :
    lastW (w :: W) k = match lastW W k with
      | some v => some v
      | none => if w.1 == k then some w.2 else none := by
  show W.foldl _ (if w.1 == k then some w.2 else none) = _
  exact lastW_foldl_acc W k _

theorem lastW_append (W₁ W₂ : List (String × FieldVal)) (k : String) :
    lastW (W₁ ++ W₂) k = match lastW W₂ k with
      | some v => some v
      | none => lastW W₁ k := by
  unfold lastW
  rw [List.foldl_append]
  exact lastW_foldl_acc W₂ k _

theorem get_applyW (fs : Fields) (W : List (String × FieldVal)) (k : String) :
    (applyW fs W).get k = match lastW W k with
      | some v => some v
      | none => fs.get k := by
  induction W generalizing fs with
  | nil => rfl
  | cons w W' ih =>
    rw [applyW_cons, ih, lastW_cons]
    cases lastW W' k with
    | some v => rfl
    | none =>
      by_cases hw : (w.1 == k) = true
      · rw [hw, Fields.get_set, hw]; rfl
      · rw [Bool.eq_false_iff.mpr hw, Fields.get_set,
          Bool.eq_false_iff.mpr hw]; rfl

theorem lastW_eq_none_iff (W : List (String × FieldVal)) (k : String) :
    lastW W k = none ↔ ∀ w ∈ W, (w.1 == k) = false := by
  induction W with
  | nil => simp [lastW]
  | cons w W' ih =>
    rw [lastW_cons]
    constructor
    · intro h
      cases hv : lastW W' k with
      | some v => rw [hv] at h; exact absurd h (by simp)
      | none =>
        rw [hv] at h
        intro w' hw'
        rcases List.mem_cons.mp hw' with h1 | h2
        · subst h1
          by_cases hb : (w'.1 == k) = true
          · rw [hb] at h; exact absurd h (by simp)
          · exact Bool.eq_false_iff.mpr hb
        · exact (ih.mp hv) w' h2
    · intro h
      have hv : lastW W' k = none := ih.mpr (fun w' hw' => h w' (List.mem_cons_of_mem _ hw'))
      rw [hv, h w (List.mem_cons_self _ _)]
      rfl

theorem lastW_isSome_of_mem (W : List (String × FieldVal)) (k : String)
    (w : String × FieldVal) (hw : w ∈ W) (hk : w.1 = k) :
    (lastW W k).isSome := by
  cases hv : lastW W k with
  | some v => rfl
  | none =>
    have := (lastW_eq_none_iff W k).mp hv w hw
    rw [hk] at this
    simp at this

theorem applyW_keys_of_sub (fs : Fields) (W : List (String × FieldVal))
    (h : ∀ w ∈ W, w.1 ∈ fs.keys) : (applyW fs W).keys = fs.keys := by
  induction W generalizing fs with
  | nil => rfl
  | cons w W' ih =>
    rw [applyW_cons]
    have h1 : w.1 ∈ fs.keys := h w (List.mem_cons_self _ _)
    have hkeys := Fields.keys_set_of_mem fs w.1 w.2 h1
    rw [ih _ (fun w' hw' => by rw [hkeys]; exact h w' (List.mem_cons_of_mem _ hw')),
      hkeys]

theorem applyW_keys_sub (fs : Fields) (W : List (String × FieldVal)) :
    ∀ k ∈ fs.keys, k ∈ (applyW fs W).keys := by
  induction W generalizing fs with
  | nil => exact fun k h => h
  | cons w W' ih =>
    intro k hk
    rw [applyW_cons]
    exact ih _ k (Fields.keys_set_sub fs w.1 k w.2 hk)

theorem applyW_nodup_keys (fs : Fields) (W : List (String × FieldVal))
    (h : fs.keys.Nodup) : (applyW fs W).keys.Nodup := by
  induction W generalizing fs with
  | nil => exact h
  | cons w W' ih =>
    rw [applyW_cons]
    exact ih _ (Fields.nodup_keys_set fs w.1 w.2 h)

theorem target_mem_applyW (fs : Fields) (W : List (String × FieldVal))
    (w : String × FieldVal) (hw : w ∈ W) : w.1 ∈ (applyW fs W).keys := by
  induction W generalizing fs with
  | nil => exact absurd hw (List.not_mem_nil _)
  | cons w' W' ih =>
    rw [applyW_cons]
    rcases List.mem_cons.mp hw with h1 | h2
    · subst h1
      exact applyW_keys_sub _ W' w.1 (Fields.keys_set_self_mem fs w.1 w.2)
    · exact ih _ h2

theorem Fields.set_set_same (fs : Fields) (k : String) (v v' : FieldVal) :
    (fs.set k v).set k v' = fs.set k v' := by
  induction fs with
  | nil => simp [Fields.set]
  | cons kv rest ih =>
    by_cases hk : kv.1 = k
    · subst hk
      simp [Fields.set]
    · have hb : (kv.1 == k) = false := beq_eq_false_iff_ne.mpr hk
      simp [Fields.set, hb, ih]

/-- The language sub-write of one content part. -/
def contentLangW (lang : Option String) (k : String) (part : ContentPart) :
    List (String × FieldVal) :=
  match part.language with
  | some l =>
    if l != "" && (lang.isNone || lang != some l) then
      [(k ++ "_language", FieldVal.str l)]
    else []
  | none => []

/-- The field writes performed by one `(key, value)` merge step of
`NewsItem.update` — same branch structure as `NewsItem.updKey`, recording
the `(target, value)` pairs instead of performing them.  The written values
depend only on the key, the value, the entry and the channel language, never
on the item state. -/
def updKeyWrites (lang : Option String) (e : Entry) (k : String) (v : EVal) :
    List (String × FieldVal) :=
  if k ∈ newsItemIgnoreKeys || (k ++ "_parsed") ∈ newsItemIgnoreKeys then []
  else if e.hasKey (k ++ "_parsed") then []
  else if strEndsWith k "_detail" then
    match v with
    | .detail _ nm em lg =>
      (match nm with
        | some n => if n != "" then [(detailReplace k "_name", FieldVal.str n)] else []
        | none => []) ++
      ((match em with
        | some m => if m != "" then [(detailReplace k "_email", FieldVal.str m)] else []
        | none => []) ++
      (match lg with
        | some l =>
          if l != "" && (lang.isNone || lang != some l) then
            [(detailReplace k "_language", FieldVal.str l)]
          else []
        | none => []))
    | _ => []
  else if strEndsWith k "_parsed" then
    match v with
    | .d (some t) => [(stripParsedSuffix k, FieldVal.date t)]
    | _ => []
  else if k == "source" then
    match v with
    | .source value url =>
      (match value with
        | some s => [(k ++ "_name", FieldVal.str s)]
        | none => []) ++
      (match url with
        | some u => [(k ++ "_link", FieldVal.str u)]
        | none => [])
    | _ => []
  else if k == "content" then
    match v with
    | .content parts =>
      parts.flatMap (contentLangW lang k) ++
        [(k, FieldVal.str (parts.foldl (fun s part => s ++ contentPV part) ""))]
    | _ => []
  else
    match v with
    | .s sv =>
      [(k, FieldVal.str (match e.get (k ++ "_detail") with
        | some (.detail (some t) _ _ _) =>
          if t == "text/html" then sv
          else if t == "text/plain" then escapeHtml sv
          else sv
        | _ => sv))]
    | _ => []

theorem content_value_acc (ps : List ContentPart) :
    ∀ s' : String, ps.foldl (fun s part => s ++ contentPV part) s' =
      s' ++ ps.foldl (fun s part => s ++ contentPV part) "" := by
  induction ps with
  | nil => intro s'; simp
  | cons q qs ihq =>
    intro s'
    rw [List.foldl_cons, List.foldl_cons, ihq (s' ++ contentPV q),
      ihq ("" ++ contentPV q)]
    simp [String.append_assoc]

theorem content_fold_spec (ch : Channel) (k : String)
    (parts : List ContentPart) (it : NewsItem) (s : String) :
    parts.foldl (fun (acc : NewsItem × String) (part : ContentPart) =>
      let it' := match part.language with
        | some l =>
          if l != "" && (ch.language.isNone || ch.language != some l) then
            acc.1.setStr (k ++ "_language") l
          else acc.1
        | none => acc.1
      (it', acc.2 ++ contentPV part)) (it, s) =
      (⟨applyW it.fields (parts.flatMap (contentLangW ch.language k))⟩,
        s ++ parts.foldl (fun s part => s ++ contentPV part) "") := by
  induction parts generalizing it s with
  | nil => simp [applyW]
  | cons p ps ih =>
    rw [List.foldl_cons, List.foldl_cons]
    have hs := content_value_acc ps
    rw [List.flatMap_cons, applyW_append]
    cases hpl : p.language with
    | none =>
      rw [ih]
      simp only [contentLangW, hpl]
      rw [hs ("" ++ contentPV p)]
      simp [String.append_assoc, applyW_nil]
    | some l =>
      simp only [contentLangW, hpl]
      by_cases hl : (l != "" && (ch.language.isNone || ch.language != some l)) = true
      · rw [if_pos hl, if_pos hl, ih]
        rw [hs ("" ++ contentPV p)]
        simp [String.append_assoc, NewsItem.setStr, applyW]
      · rw [if_neg hl, if_neg hl, ih]
        rw [hs ("" ++ contentPV p)]
        simp [String.append_assoc, applyW]

/-- One merge step equals applying its recorded writes. -/
theorem updKey_fields (ch : Channel) (e : Entry) (it : NewsItem)
    (k : String) (v : EVal) :
    (NewsItem.updKey ch e it k v).fields =
      applyW it.fields (updKeyWrites ch.language e k v) := by
  unfold NewsItem.updKey updKeyWrites
  split_ifs with h1 h2 h3 h4 h5 h6
  · rfl
  · rfl
  · cases v with
    | detail t nm em lg =>
      dsimp only
      cases nm <;> cases em <;> cases lg <;> dsimp only <;>
        (try split_ifs) <;> rfl
    | s sv => dsimp only; rfl
    | d od => dsimp only; rfl
    | source a b => dsimp only; rfl
    | content ps => dsimp only; rfl
  · cases v with
    | d od => cases od <;> dsimp only <;> rfl
    | s sv => dsimp only; rfl
    | detail a b c d => dsimp only; rfl
    | source a b => dsimp only; rfl
    | content ps => dsimp only; rfl
  · cases v with
    | source value url =>
      dsimp only
      cases value <;> cases url <;> dsimp only <;> rfl
    | s sv => dsimp only; rfl
    | d od => dsimp only; rfl
    | detail a b c d => dsimp only; rfl
    | content ps => dsimp only; rfl
  · cases v with
    | content parts =>
      show ((parts.foldl _ (it, "")).1.setStr k (parts.foldl _ (it, "")).2).fields = _
      rw [content_fold_spec ch k parts it ""]
      rw [applyW_append]
      rfl
    | s sv => dsimp only; rfl
    | d od => dsimp only; rfl
    | detail a b c d => dsimp only; rfl
    | source a b => dsimp only; rfl
  · cases v with
    | s sv => dsimp only; rfl
    | d od => dsimp only; rfl
    | detail a b c d => dsimp only; rfl
    | source a b => dsimp only; rfl
    | content ps => dsimp only; rfl

/-- All writes of one entry, in merge order. -/
def entryWrites (lang : Option String) (e : Entry) : List (String × FieldVal) :=
  e.kvs.flatMap (fun kv => updKeyWrites lang e kv.1 kv.2)

/-- Whether merging the entry can write the given field (before the final
`date` resolution). -/
def writesTo (lang : Option String) (e : Entry) (f : String) : Bool :=
  (entryWrites lang e).any (fun w => w.1 == f)

/-- The merge loop of `NewsItem.update` equals applying the entry's writes. -/
theorem update_fold_fields (ch : Channel) (e : Entry) (it : NewsItem) :
    (e.kvs.foldl (fun acc kv => NewsItem.updKey ch e acc kv.1 kv.2) it).fields =
      applyW it.fields (entryWrites ch.language e) := by
  have main : ∀ (kvs : List (String × EVal)) (it : NewsItem),
      (kvs.foldl (fun acc kv => NewsItem.updKey ch e acc kv.1 kv.2) it).fields =
        applyW it.fields
          (kvs.flatMap (fun kv => updKeyWrites ch.language e kv.1 kv.2)) := by
    intro kvs
    induction kvs with
    | nil => intro it; rfl
    | cons kv rest ih =>
      intro it
      rw [List.foldl_cons, List.flatMap_cons, applyW_append, ih,
        updKey_fields ch e it kv.1 kv.2]
  exact main e.kvs it

/-- `update` in write-list form: apply the writes, then resolve the date. -/
theorem update_eq_applyW (ch : Channel) (e : Entry) (it : NewsItem) :
    NewsItem.update ch e it =
      ((⟨applyW it.fields (entryWrites ch.language e)⟩ : NewsItem).get_date
        ch "date").1 := by
  unfold NewsItem.update
  rw [show (⟨applyW it.fields (entryWrites ch.language e)⟩ : NewsItem) =
    e.kvs.foldl (fun acc kv => NewsItem.updKey ch e acc kv.1 kv.2) it from by
      cases hv : e.kvs.foldl (fun acc kv => NewsItem.updKey ch e acc kv.1 kv.2) it with
      | mk fs =>
        congr 1
        have := update_fold_fields ch e it
        rw [hv] at this
        exact this.symm]

/-- A date value in the recorded writes always originates in a pre-parsed
entry date value. -/
theorem updKeyWrites_date_val (lang : Option String) (e : Entry)
    (k : String) (v : EVal) (k' : String) (d : Int)
    (h : (k', FieldVal.date d) ∈ updKeyWrites lang e k v) : v = EVal.d (some d) := by
  unfold updKeyWrites at h
  split_ifs at h
  · exact absurd h (List.not_mem_nil _)
  · exact absurd h (List.not_mem_nil _)
  · cases v with
    | detail t nm em lg =>
      dsimp only at h
      rcases List.mem_append.mp h with h1 | h2
      · cases nm with
        | none => exact absurd h1 (List.not_mem_nil _)
        | some n =>
          dsimp only at h1
          split_ifs at h1
          · rcases List.mem_singleton.mp h1 with h3
            exact absurd (congrArg Prod.snd h3) (by simp)
          · exact absurd h1 (List.not_mem_nil _)
      · rcases List.mem_append.mp h2 with h3 | h4
        · cases em with
          | none => exact absurd h3 (List.not_mem_nil _)
          | some m =>
            dsimp only at h3
            split_ifs at h3
            · rcases List.mem_singleton.mp h3 with h5
              exact absurd (congrArg Prod.snd h5) (by simp)
            · exact absurd h3 (List.not_mem_nil _)
        · cases lg with
          | none => exact absurd h4 (List.not_mem_nil _)
          | some l =>
            dsimp only at h4
            split_ifs at h4
            · rcases List.mem_singleton.mp h4 with h5
              exact absurd (congrArg Prod.snd h5) (by simp)
            · exact absurd h4 (List.not_mem_nil _)
    | s sv => exact absurd h (List.not_mem_nil _)
    | d od => exact absurd h (List.not_mem_nil _)
    | source a b => exact absurd h (List.not_mem_nil _)
    | content ps => exact absurd h (List.not_mem_nil _)
  · cases v with
    | d od =>
      cases od with
      | none => exact absurd h (List.not_mem_nil _)
      | some t =>
        dsimp only at h
        rcases List.mem_singleton.mp h with h1
        have := congrArg Prod.snd h1
        simp only at this
        rw [show d = t from by
          cases this; rfl]
    | s sv => exact absurd h (List.not_mem_nil _)
    | detail a b c dd => exact absurd h (List.not_mem_nil _)
    | source a b => exact absurd h (List.not_mem_nil _)
    | content ps => exact absurd h (List.not_mem_nil _)
  · cases v with
    | source value url =>
      dsimp only at h
      rcases List.mem_append.mp h with h1 | h2
      · cases value with
        | none => exact absurd h1 (List.not_mem_nil _)
        | some s =>
          rcases List.mem_singleton.mp h1 with h3
          exact absurd (congrArg Prod.snd h3) (by simp)
      · cases url with
        | none => exact absurd h2 (List.not_mem_nil _)
        | some u =>
          rcases List.mem_singleton.mp h2 with h3
          exact absurd (congrArg Prod.snd h3) (by simp)
    | s sv => exact absurd h (List.not_mem_nil _)
    | d od => exact absurd h (List.not_mem_nil _)
    | detail a b c dd => exact absurd h (List.not_mem_nil _)
    | content ps => exact absurd h (List.not_mem_nil _)
  · cases v with
    | content parts =>
      dsimp only at h
      rcases List.mem_append.mp h with h1 | h2
      · rcases List.mem_flatMap.mp h1 with ⟨part, _, hpw⟩
        unfold contentLangW at hpw
        cases hv : part.language with
        | none => rw [hv] at hpw; exact absurd hpw (List.not_mem_nil _)
        | some l =>
          rw [hv] at hpw
          dsimp only at hpw
          split_ifs at hpw
          · rcases List.mem_singleton.mp hpw with h3
            exact absurd (congrArg Prod.snd h3) (by simp)
          · exact absurd hpw (List.not_mem_nil _)
      · rcases List.mem_singleton.mp h2 with h3
        exact absurd (congrArg Prod.snd h3) (by simp)
    | s sv => exact absurd h (List.not_mem_nil _)
    | d od => exact absurd h (List.not_mem_nil _)
    | detail a b c dd => exact absurd h (List.not_mem_nil _)
    | source a b => exact absurd h (List.not_mem_nil _)
  · cases v with
    | s sv =>
      dsimp only at h
      rcases List.mem_singleton.mp h with h3
      exact absurd (congrArg Prod.snd h3) (by simp)
    | d od => exact absurd h (List.not_mem_nil _)
    | detail a b c dd => exact absurd h (List.not_mem_nil _)
    | source a b => exact absurd h (List.not_mem_nil _)
    | content ps => exact absurd h (List.not_mem_nil _)

/-- `get_date` only ever writes the requested key. -/
theorem get_date_get_ne (ch : Channel) (it : NewsItem) (key f : String)
    (h : f ≠ key) : ((it.get_date ch key).1).get f = it.get f := by
  unfold NewsItem.get_date
  cases it.claimedDate with
  | some d =>
    cases ch.updated with
    | some u =>
      dsimp only
      show (it.setDate key _).get f = _
      exact Fields.get_set_ne it.fields key f _ h
    | none =>
      show (it.setDate key _).get f = _
      exact Fields.get_set_ne it.fields key f _ h
  | none =>
    dsimp only
    by_cases hp : (it.get key).isSome
    · rw [if_pos hp]
    · rw [if_neg hp]
      cases ch.updated with
      | some u => exact Fields.get_set_ne it.fields key f _ h
      | none => rfl

/-- `get_date` keeps distinct keys distinct. -/
theorem get_date_keys_nodup (ch : Channel) (it : NewsItem) (key : String)
    (h : it.fields.keys.Nodup) : ((it.get_date ch key).1).fields.keys.Nodup := by
  unfold NewsItem.get_date
  cases it.claimedDate with
  | some d =>
    cases ch.updated <;> exact Fields.nodup_keys_set _ key _ h
  | none =>
    dsimp only
    by_cases hp : (it.get key).isSome
    · rw [if_pos hp]; exact h
    · rw [if_neg hp]
      cases ch.updated with
      | some u => exact Fields.nodup_keys_set _ key _ h
      | none => exact h

/-- A field the entry does not write, other than `date`, survives `update`. -/
theorem update_get_stable (ch : Channel) (e : Entry) (it : NewsItem)
    (f : String) (hw : writesTo ch.language e f = false) (hd : f ≠ "date") :
    (NewsItem.update ch e it).get f = it.get f := by
  rw [update_eq_applyW, get_date_get_ne _ _ _ _ hd]
  show (applyW it.fields (entryWrites ch.language e)).get f = _
  rw [get_applyW]
  have hnone : lastW (entryWrites ch.language e) f = none := by
    rw [lastW_eq_none_iff]
    intro w hwmem
    rcases hb : (w.1 == f) with _ | _
    · rfl
    · have : writesTo ch.language e f = true :=
        List.any_eq_true.mpr ⟨w, hwmem, hb⟩
      rw [hw] at this
      exact absurd this (by simp)
  rw [hnone]
  rfl

/-- `update` keeps distinct keys distinct. -/
theorem update_keys_nodup (ch : Channel) (e : Entry) (it : NewsItem)
    (h : it.fields.keys.Nodup) :
    (NewsItem.update ch e it).fields.keys.Nodup := by
  rw [update_eq_applyW]
  exact get_date_keys_nodup ch _ "date" (applyW_nodup_keys _ _ h)

/-- Per-entry cleanliness (decidable): the entry does not overwrite the
store's bookkeeping fields `order` and `hidden`, does not alias the item id
through `id_parsed`/`id_detail`, no key other than `id` itself writes the
`id` field, and — as for every parsed mapping — its keys are distinct. -/
def entryClean (lang : Option String) (e : Entry) : Bool :=
  !(writesTo lang e "order") && !(writesTo lang e "hidden") &&
    !(e.hasKey "id_parsed") && !(e.hasKey "id_detail") &&
    e.kvs.all (fun kv => kv.1 == "id" ||
      (updKeyWrites lang e kv.1 kv.2).all (fun w => w.1 != "id")) &&
    decide ((e.kvs.map Prod.fst).Nodup)

theorem entryClean_spec (lang : Option String) (e : Entry)
    (h : entryClean lang e = true) :
    writesTo lang e "order" = false ∧ writesTo lang e "hidden" = false ∧
      e.hasKey "id_parsed" = false ∧ e.hasKey "id_detail" = false ∧
      (∀ kv ∈ e.kvs, kv.1 = "id" ∨
        ∀ w ∈ updKeyWrites lang e kv.1 kv.2, w.1 ≠ "id") ∧
      (e.kvs.map Prod.fst).Nodup := by
  unfold entryClean at h
  simp only [Bool.and_eq_true, Bool.not_eq_true', List.all_eq_true,
    decide_eq_true_eq, Bool.or_eq_true, beq_iff_eq, bne_iff_ne] at h
  exact ⟨h.1.1.1.1.1, h.1.1.1.1.2, h.1.1.1.2, h.1.1.2, h.1.2, h.2⟩

/-- The writes of the literal `id` entry key, when nothing aliases it. -/
theorem updKeyWrites_id_entry (lang : Option String) (e : Entry) (v : String)
    (hp : e.hasKey "id_parsed" = false) (hd : e.hasKey "id_detail" = false) :
    updKeyWrites lang e "id" (.s v) = [("id", FieldVal.str v)] := by
  unfold updKeyWrites
  rw [if_neg (by decide), if_neg (by
    rw [show ("id" ++ "_parsed" : String) = "id_parsed" from rfl, hp]
    simp)]
  rw [if_neg (by decide), if_neg (by decide), if_neg (by decide),
    if_neg (by decide)]
  dsimp only
  rw [show ("id" ++ "_detail" : String) = "id_detail" from rfl]
  have : e.get "id_detail" = none := by
    unfold Entry.hasKey at hd
    cases hv : e.get "id_detail" with
    | none => rfl
    | some w => rw [hv] at hd; exact absurd hd (by simp)
  rw [this]

/-- The last `id` write of a clean entry comes from its literal `id` key. -/
theorem entry_lastW_id (lang : Option String) (e : Entry)
    (hok : ∀ kv ∈ e.kvs, kv.1 = "id" ∨
      ∀ w ∈ updKeyWrites lang e kv.1 kv.2, w.1 ≠ "id")
    (hnd : (e.kvs.map Prod.fst).Nodup) :
    lastW (entryWrites lang e) "id" =
      match e.kvs.find? (fun kv => kv.1 == "id") with
      | some kv => lastW (updKeyWrites lang e kv.1 kv.2) "id"
      | none => none := by
  unfold entryWrites
  have main : ∀ kvs : List (String × EVal),
      (∀ kv ∈ kvs, kv.1 = "id" ∨
        ∀ w ∈ updKeyWrites lang e kv.1 kv.2, w.1 ≠ "id") →
      (kvs.map Prod.fst).Nodup →
      lastW (kvs.flatMap (fun kv => updKeyWrites lang e kv.1 kv.2)) "id" =
        match kvs.find? (fun kv => kv.1 == "id") with
        | some kv => lastW (updKeyWrites lang e kv.1 kv.2) "id"
        | none => none := by
    intro kvs
    induction kvs with
    | nil => intro _ _; rfl
    | cons kv rest ih =>
      intro hok hnd
      rw [List.flatMap_cons, lastW_append]
      have hnd2 : kv.1 ∉ rest.map Prod.fst ∧ (rest.map Prod.fst).Nodup := by
        rw [List.map_cons] at hnd
        exact List.nodup_cons.mp hnd
      rcases hnd2 with ⟨hkm, hnd'⟩
      by_cases hid : kv.1 = "id"
      · have hrest : lastW (rest.flatMap
            (fun kv => updKeyWrites lang e kv.1 kv.2)) "id" = none := by
          rw [lastW_eq_none_iff]
          intro w hw
          rcases List.mem_flatMap.mp hw with ⟨kv', hkv', hw'⟩
          have hne : kv'.1 ≠ "id" := by
            intro hc
            exact hkm (by
              rw [hid, ← hc]
              exact List.mem_map_of_mem Prod.fst hkv')
          rcases hok kv' (List.mem_cons_of_mem _ hkv') with h1 | h2
          · exact absurd h1 hne
          · exact beq_eq_false_iff_ne.mpr (h2 w hw')
        rw [hrest, List.find?_cons_of_pos _ (by simpa using hid)]
      · have hself : lastW (updKeyWrites lang e kv.1 kv.2) "id" = none := by
          rw [lastW_eq_none_iff]
          intro w hw
          rcases hok kv (List.mem_cons_self _ _) with h1 | h2
          · exact absurd h1 hid
          · exact beq_eq_false_iff_ne.mpr (h2 w hw)
        rw [List.find?_cons_of_neg _ (by simpa using hid),
          ← ih (fun kv' h => hok kv' (List.mem_cons_of_mem _ h)) hnd']
        cases lastW (rest.flatMap (fun kv => updKeyWrites lang e kv.1 kv.2)) "id" with
        | some v => rfl
        | none => rw [hself]
  exact main e.kvs hok hnd

/-- The post-merge value of any field other than `date`. -/
theorem update_get_ne_date (ch : Channel) (e : Entry) (a : NewsItem)
    (f : String) (hd : f ≠ "date") :
    (NewsItem.update ch e a).get f =
      match lastW (entryWrites ch.language e) f with
      | some v => some v
      | none => a.get f := by
  rw [update_eq_applyW, get_date_get_ne _ _ _ _ hd]
  exact get_applyW a.fields _ f

theorem update_orderF (ch : Channel) (e : Entry) (a : NewsItem)
    (hw : writesTo ch.language e "order" = false) :
    (NewsItem.update ch e a).orderF = a.orderF := by
  unfold NewsItem.orderF
  rw [show (NewsItem.update ch e a).get "order" = a.get "order" from
    update_get_stable ch e a "order" hw (by decide)]

theorem update_hiddenF (ch : Channel) (e : Entry) (a : NewsItem)
    (hw : writesTo ch.language e "hidden" = false) :
    (NewsItem.update ch e a).hiddenF = a.hiddenF := by
  unfold NewsItem.hiddenF
  rw [show (NewsItem.update ch e a).get "hidden" = a.get "hidden" from
    update_get_stable ch e a "hidden" hw (by decide)]

/-- The writes of the literal `id` key, general value shape. -/
theorem updKeyWrites_id_entry_gen (lang : Option String) (e : Entry) (v : EVal)
    (hp : e.hasKey "id_parsed" = false) (hd : e.hasKey "id_detail" = false) :
    updKeyWrites lang e "id" v = match v with
      | .s sv => [("id", FieldVal.str sv)]
      | _ => [] := by
  unfold updKeyWrites
  rw [if_neg (by decide), if_neg (by
    rw [show ("id" ++ "_parsed" : String) = "id_parsed" from rfl, hp]
    simp)]
  rw [if_neg (by decide), if_neg (by decide), if_neg (by decide),
    if_neg (by decide)]
  have hnone : e.get ("id" ++ "_detail") = none := by
    rw [show ("id" ++ "_detail" : String) = "id_detail" from rfl]
    unfold Entry.hasKey at hd
    cases hv : e.get "id_detail" with
    | none => rfl
    | some w => rw [hv] at hd; exact absurd hd (by simp)
  simp only [hnone]

/-- A clean entry leaves the item id at the derived value. -/
theorem update_id_keep (ch : Channel) (e : Entry) (a : NewsItem) (i : String)
    (hcln : entryClean ch.language e = true) (ha : a.id = i)
    (hde : ∀ v, e.get "id" = some v → utf8 v = i) :
    (NewsItem.update ch e a).id = i := by
  rcases entryClean_spec _ _ hcln with ⟨_, _, hp, hd, hok, hnd⟩
  have hchar := update_get_ne_date ch e a "id" (by decide)
  rw [entry_lastW_id ch.language e hok hnd] at hchar
  unfold NewsItem.id
  cases hf : e.kvs.find? (fun kv => kv.1 == "id") with
  | none =>
    rw [hf] at hchar
    dsimp only at hchar
    rw [hchar]
    exact ha
  | some kv =>
    have hkv1 : kv.1 = "id" := by
      have := List.find?_some hf
      simpa using this
    have hget : e.get "id" = some kv.2 := by
      unfold Entry.get
      rw [hf]
    rw [hf] at hchar
    dsimp only at hchar
    rw [hkv1, updKeyWrites_id_entry_gen ch.language e kv.2 hp hd] at hchar
    cases hv : kv.2 with
    | s sv =>
      rw [hv] at hchar
      have : lastW [("id", FieldVal.str sv)] "id" = some (.str sv) := by
        simp [lastW]
      rw [this] at hchar
      rw [hchar]
      have := hde kv.2 hget
      rw [hv] at this
      exact this
    | d od =>
      rw [hv] at hchar
      rw [show lastW ([] : List (String × FieldVal)) "id" = none from rfl] at hchar
      rw [hchar]; exact ha
    | detail t nm em lg =>
      rw [hv] at hchar
      rw [show lastW ([] : List (String × FieldVal)) "id" = none from rfl] at hchar
      rw [hchar]; exact ha
    | source x y =>
      rw [hv] at hchar
      rw [show lastW ([] : List (String × FieldVal)) "id" = none from rfl] at hchar
      rw [hchar]; exact ha
    | content ps =>
      rw [hv] at hchar
      rw [show lastW ([] : List (String × FieldVal)) "id" = none from rfl] at hchar
      rw [hchar]; exact ha

theorem lastW_mem (W : List (String × FieldVal)) (k : String) (v : FieldVal)
    (h : lastW W k = some v) : (k, v) ∈ W := by
  induction W with
  | nil => exact absurd h (by simp [lastW])
  | cons w W' ih =>
    rw [lastW_cons] at h
    cases hv : lastW W' k with
    | some u =>
      rw [hv] at h
      dsimp only at h
      have hu : u = v := (Option.some.injEq _ _).mp h
      exact List.mem_cons_of_mem _ (ih (by rw [hv, hu]))
    | none =>
      rw [hv] at h
      dsimp only at h
      by_cases hw : (w.1 == k) = true
      · rw [if_pos hw] at h
        have hk : w.1 = k := by simpa using hw
        have hv2 : w.2 = v := (Option.some.injEq _ _).mp h
        have : w = (k, v) := Prod.ext hk hv2
        rw [← this]
        exact List.mem_cons_self _ _
      · rw [if_neg hw] at h
        exact absurd h (by simp)

theorem NewsItem.ext' (x y : NewsItem) (h : x.fields = y.fields) : x = y := by
  cases x
  cases y
  simpa using h

/-- `claimedDate` only looks at the claim keys. -/
theorem claimedDate_congr (x y : NewsItem)
    (h : ∀ k ∈ claimKeys, x.get k = y.get k) :
    x.claimedDate = y.claimedDate := by
  unfold NewsItem.claimedDate
  have main : ∀ ks : List String, (∀ k ∈ ks, x.get k = y.get k) →
      ks.find? (fun k => (x.get k).isSome) =
        ks.find? (fun k => (y.get k).isSome) := by
    intro ks
    induction ks with
    | nil => intro _; rfl
    | cons k ks' ih =>
      intro hks
      rw [List.find?_cons, List.find?_cons, hks k (List.mem_cons_self _ _),
        ih (fun k' h' => hks k' (List.mem_cons_of_mem _ h'))]
  rw [main claimKeys h]
  cases hf : claimKeys.find? (fun k => (y.get k).isSome) with
  | none => rfl
  | some k =>
    have hk : k ∈ claimKeys := List.mem_of_find?_eq_some hf
    unfold NewsItem.get_as_date
    dsimp only
    rw [h k hk]

/-- `get_date` always leaves the requested key present when the channel has
an `updated` time. -/
theorem get_date_key_isSome (ch : Channel) (it : NewsItem) (key : String)
    (u : Int) (h : ch.updated = some u) :
    (((it.get_date ch key).1).get key).isSome := by
  unfold NewsItem.get_date
  cases it.claimedDate with
  | some d =>
    rw [h]
    dsimp only
    show ((it.setDate key _).get key).isSome
    rw [show (it.setDate key _).get key = _ from Fields.get_set_self it.fields key _]
    rfl
  | none =>
    dsimp only
    by_cases hp : (it.get key).isSome
    · rw [if_pos hp]
      exact hp
    · rw [if_neg hp, h]
      show ((it.setDate key u).get key).isSome
      rw [show (it.setDate key u).get key = _ from Fields.get_set_self it.fields key _]
      rfl

theorem NewsItem.get_setDate_self (it : NewsItem) (k : String) (v : Int) :
    (it.setDate k v).get k = some (.date v) :=
  Fields.get_set_self it.fields k _

theorem NewsItem.get_setDate_ne (it : NewsItem) (k k' : String) (v : Int)
    (h : k' ≠ k) : (it.setDate k v).get k' = it.get k' :=
  Fields.get_set_ne it.fields k k' _ h

theorem NewsItem.get_setStr_self (it : NewsItem) (k v : String) :
    (it.setStr k v).get k = some (.str v) :=
  Fields.get_set_self it.fields k _

theorem NewsItem.get_setStr_ne (it : NewsItem) (k k' : String) (v : String)
    (h : k' ≠ k) : (it.setStr k v).get k' = it.get k' :=
  Fields.get_set_ne it.fields k k' _ h

theorem NewsItem.setDate_fields (it : NewsItem) (k : String) (v : Int) :
    (it.setDate k v).fields = it.fields.set k (.date v) := rfl

/-- Re-merging the same entry into an item that already carries its first
merge result (up to later `order`/`hidden` bookkeeping writes) changes
nothing, provided the clock did not go backwards between the fetches and no
claimed date exceeds the first fetch time. -/
theorem update_again_id (C₁ C₂ : Channel) (e : Entry) (a w : NewsItem)
    (now₁ now₂ : Int)
    (hup1 : C₁.updated = some now₁) (hup2 : C₂.updated = some now₂)
    (hlang : C₂.language = C₁.language) (h12 : now₁ ≤ now₂)
    (hka : a.fields.keys.Nodup)
    (had : ∀ k d, a.get k = some (.date d) → d ≤ now₁)
    (hWd : ∀ k d, (k, FieldVal.date d) ∈ entryWrites C₁.language e → d ≤ now₁)
    (hwo : writesTo C₁.language e "order" = false)
    (hwh : writesTo C₁.language e "hidden" = false)
    (hww : ∀ k, k ≠ "order" → k ≠ "hidden" →
      w.get k = (NewsItem.update C₁ e a).get k)
    (hwk : w.fields.keys.Nodup) :
    NewsItem.update C₂ e w = w := by
  have hWeq : entryWrites C₂.language e = entryWrites C₁.language e := by
    rw [hlang]
  have hb : NewsItem.update C₁ e a =
      ((⟨applyW a.fields (entryWrites C₁.language e)⟩ : NewsItem).get_date
        C₁ "date").1 := update_eq_applyW C₁ e a
  have hc : NewsItem.update C₂ e w =
      ((⟨applyW w.fields (entryWrites C₁.language e)⟩ : NewsItem).get_date
        C₂ "date").1 := by
    rw [update_eq_applyW C₂ e w, hWeq]
  have htgt : ∀ p ∈ entryWrites C₁.language e, p.1 ≠ "order" ∧ p.1 ≠ "hidden" := by
    intro p hp
    constructor
    · intro hcon
      have hx : writesTo C₁.language e "order" = true :=
        List.any_eq_true.mpr ⟨p, hp, by rw [hcon]; simp⟩
      rw [hwo] at hx
      exact absurd hx (by simp)
    · intro hcon
      have hx : writesTo C₁.language e "hidden" = true :=
        List.any_eq_true.mpr ⟨p, hp, by rw [hcon]; simp⟩
      rw [hwh] at hx
      exact absurd hx (by simp)
  have hbget : ∀ k, (⟨applyW a.fields (entryWrites C₁.language e)⟩ :
      NewsItem).get k = match lastW (entryWrites C₁.language e) k with
      | some v => some v
      | none => a.get k := fun k => get_applyW a.fields _ k
  have hcget : ∀ k, (⟨applyW w.fields (entryWrites C₁.language e)⟩ :
      NewsItem).get k = match lastW (entryWrites C₁.language e) k with
      | some v => some v
      | none => w.get k := fun k => get_applyW w.fields _ k
  have ha1 : ∀ k, k ≠ "date" → (NewsItem.update C₁ e a).get k =
      (⟨applyW a.fields (entryWrites C₁.language e)⟩ : NewsItem).get k := by
    intro k hk
    rw [hb]
    exact get_date_get_ne C₁ _ "date" k hk
  have hwb : ∀ k, k ≠ "order" → k ≠ "hidden" → k ≠ "date" →
      w.get k = (⟨applyW a.fields (entryWrites C₁.language e)⟩ :
        NewsItem).get k :=
    fun k h1 h2 h3 => (hww k h1 h2).trans (ha1 k h3)
  have hgetsbc : ∀ k, k ≠ "order" → k ≠ "hidden" → k ≠ "date" →
      (⟨applyW w.fields (entryWrites C₁.language e)⟩ : NewsItem).get k =
        (⟨applyW a.fields (entryWrites C₁.language e)⟩ : NewsItem).get k := by
    intro k h1 h2 h3
    rw [hbget, hcget]
    cases hl : lastW (entryWrites C₁.language e) k with
    | some v => rfl
    | none =>
      dsimp only
      have h4 := hwb k h1 h2 h3
      rw [hbget k, hl] at h4
      exact h4
  have hclaims : (⟨applyW w.fields (entryWrites C₁.language e)⟩ :
      NewsItem).claimedDate = (⟨applyW a.fields (entryWrites C₁.language e)⟩ :
      NewsItem).claimedDate := by
    refine claimedDate_congr _ _ ?_
    intro k hkmem
    have hne : k ≠ "order" ∧ k ≠ "hidden" ∧ k ≠ "date" := by
      simp only [claimKeys, List.mem_cons, List.not_mem_nil, or_false] at hkmem
      rcases hkmem with rfl | rfl | rfl | rfl | rfl <;>
        exact ⟨by decide, by decide, by decide⟩
    exact hgetsbc k hne.1 hne.2.1 hne.2.2
  have hdb : ∀ d, (⟨applyW a.fields (entryWrites C₁.language e)⟩ :
      NewsItem).claimedDate = some d → d ≤ now₁ := by
    intro d hcl
    unfold NewsItem.claimedDate at hcl
    cases hf : claimKeys.find? (fun k =>
        ((⟨applyW a.fields (entryWrites C₁.language e)⟩ : NewsItem).get
          k).isSome) with
    | none => rw [hf] at hcl; exact absurd hcl (by simp)
    | some k =>
      rw [hf] at hcl
      dsimp only at hcl
      unfold NewsItem.get_as_date at hcl
      rcases hv : (⟨applyW a.fields (entryWrites C₁.language e)⟩ :
          NewsItem).get k with _ | ⟨v⟩
      · rw [hv] at hcl; exact absurd hcl (by simp)
      · rw [hv] at hcl
        cases v with
        | str s => exact absurd hcl (by simp)
        | date d' =>
          have hd' : d' = d := by simpa using hcl
          subst hd'
          rw [hbget] at hv
          cases hl : lastW (entryWrites C₁.language e) k with
          | some u =>
            rw [hl] at hv
            dsimp only at hv
            have hu : u = FieldVal.date d' := (Option.some.injEq _ _).mp hv
            exact hWd k d' (by rw [← hu]; exact lastW_mem _ _ _ hl)
          | none =>
            rw [hl] at hv
            dsimp only at hv
            exact had k d' hv
  have htk : ∀ p ∈ entryWrites C₁.language e, p.1 ∈ w.fields.keys := by
    intro p hp
    rcases htgt p hp with ⟨ho, hh⟩
    have hsome : (lastW (entryWrites C₁.language e) p.1).isSome :=
      lastW_isSome_of_mem _ p.1 p hp rfl
    rcases Option.isSome_iff_exists.mp hsome with ⟨v, hl⟩
    have hbsome : (⟨applyW a.fields (entryWrites C₁.language e)⟩ :
        NewsItem).get p.1 = some v := by
      rw [hbget, hl]
    have hwsome : (w.get p.1).isSome := by
      by_cases hdk : p.1 = "date"
      · rw [hww p.1 ho hh, hdk, hb]
        exact get_date_key_isSome C₁ _ "date" now₁ hup1
      · rw [hwb p.1 ho hh hdk, hbsome]
        rfl
    exact (Fields.mem_keys_iff_get w.fields p.1).mpr hwsome
  have hkeysc : (applyW w.fields (entryWrites C₁.language e)).keys =
      w.fields.keys := applyW_keys_of_sub w.fields _ htk
  have hcn : (applyW w.fields (entryWrites C₁.language e)).keys.Nodup :=
    applyW_nodup_keys _ _ hwk
  rw [hc]
  unfold NewsItem.get_date
  rw [hclaims]
  cases hcl : (⟨applyW a.fields (entryWrites C₁.language e)⟩ :
      NewsItem).claimedDate with
  | some d =>
    have hd1 : d ≤ now₁ := hdb d hcl
    have ha1eq : NewsItem.update C₁ e a =
        (⟨applyW a.fields (entryWrites C₁.language e)⟩ : NewsItem).setDate
          "date" d := by
      rw [hb]
      unfold NewsItem.get_date
      rw [hcl, hup1]
      dsimp only
      rw [if_neg (by omega)]
    rw [hup2]
    dsimp only
    rw [if_neg (by omega)]
    show (⟨applyW w.fields (entryWrites C₁.language e)⟩ : NewsItem).setDate
      "date" d = w
    have hwdate : w.get "date" = some (.date d) := by
      rw [hww "date" (by decide) (by decide), ha1eq,
        NewsItem.get_setDate_self]
    have hdmem : "date" ∈ (applyW w.fields (entryWrites C₁.language e)).keys := by
      rw [hkeysc]
      refine (Fields.mem_keys_iff_get w.fields "date").mpr ?_
      show (w.get "date").isSome
      rw [hwdate]
      rfl
    refine NewsItem.ext' _ _ ?_
    rw [NewsItem.setDate_fields]
    refine Fields.ext_of_nodup _ _ (Fields.nodup_keys_set _ _ _ hcn) ?_ ?_
    · rw [Fields.keys_set_of_mem _ _ _ hdmem, hkeysc]
    · intro k
      by_cases hdk : k = "date"
      · subst hdk
        rw [Fields.get_set_self]
        show _ = w.get "date"
        rw [hwdate]
      · rw [Fields.get_set_ne _ _ _ _ hdk]
        show (⟨applyW w.fields (entryWrites C₁.language e)⟩ :
          NewsItem).get k = w.get k
        rw [hcget]
        cases hl : lastW (entryWrites C₁.language e) k with
        | some v =>
          dsimp only
          rcases htgt (k, v) (lastW_mem _ _ _ hl) with ⟨ho, hh⟩
          rw [hwb k ho hh hdk, hbget, hl]
        | none => rfl
  | none =>
    by_cases hbp : ((⟨applyW a.fields (entryWrites C₁.language e)⟩ :
        NewsItem).get "date").isSome
    · have ha1eq : NewsItem.update C₁ e a =
          (⟨applyW a.fields (entryWrites C₁.language e)⟩ : NewsItem) := by
        rw [hb]
        unfold NewsItem.get_date
        rw [hcl]
        dsimp only
        rw [if_pos hbp]
      have hcp : ((⟨applyW w.fields (entryWrites C₁.language e)⟩ :
          NewsItem).get "date").isSome := by
        rw [hcget]
        cases hl : lastW (entryWrites C₁.language e) "date" with
        | some v => rfl
        | none =>
          dsimp only
          rw [hww "date" (by decide) (by decide), ha1eq]
          rw [hbget, hl] at hbp ⊢
          exact hbp
      dsimp only
      rw [if_pos hcp]
      refine NewsItem.ext' _ _ ?_
      refine Fields.ext_of_nodup _ _ hcn hkeysc ?_
      intro k
      show (⟨applyW w.fields (entryWrites C₁.language e)⟩ :
        NewsItem).get k = w.get k
      rw [hcget]
      cases hl : lastW (entryWrites C₁.language e) k with
      | some v =>
        dsimp only
        rcases htgt (k, v) (lastW_mem _ _ _ hl) with ⟨ho, hh⟩
        rw [hww k ho hh, ha1eq, hbget, hl]
      | none => rfl
    · have ha1eq : NewsItem.update C₁ e a =
          (⟨applyW a.fields (entryWrites C₁.language e)⟩ : NewsItem).setDate
            "date" now₁ := by
        rw [hb]
        unfold NewsItem.get_date
        rw [hcl, hup1]
        dsimp only
        rw [if_neg hbp]
      have hldate : lastW (entryWrites C₁.language e) "date" = none := by
        cases hl : lastW (entryWrites C₁.language e) "date" with
        | some v =>
          rw [hbget, hl] at hbp
          exact absurd rfl hbp
        | none => rfl
      have hcp : ((⟨applyW w.fields (entryWrites C₁.language e)⟩ :
          NewsItem).get "date").isSome := by
        rw [hcget, hldate]
        dsimp only
        rw [hww "date" (by decide) (by decide), ha1eq]
        rw [show ((_ : NewsItem).setDate "date" now₁).get "date" = _ from
          Fields.get_set_self _ "date" _]
        rfl
      dsimp only
      rw [if_pos hcp]
      refine NewsItem.ext' _ _ ?_
      refine Fields.ext_of_nodup _ _ hcn hkeysc ?_
      intro k
      show (⟨applyW w.fields (entryWrites C₁.language e)⟩ :
        NewsItem).get k = w.get k
      rw [hcget]
      cases hl : lastW (entryWrites C₁.language e) k with
      | some v =>
        dsimp only
        rcases htgt (k, v) (lastW_mem _ _ _ hl) with ⟨ho, hh⟩
        have hdk : k ≠ "date" := by
          intro hcon
          rw [hcon, hldate] at hl
          exact absurd hl (by simp)
        rw [hwb k ho hh hdk, hbget, hl]
      | none => rfl

theorem Fields.get_mem (fs : Fields) (k : String) (v : FieldVal)
    (h : fs.get k = some v) : (k, v) ∈ fs := by
  induction fs with
  | nil => exact absurd h (by simp [Fields.get])
  | cons kv rest ih =>
    unfold Fields.get at h
    by_cases hk : (kv.1 == k) = true
    · rw [if_pos hk] at h
      have h1 : kv.1 = k := by simpa using hk
      have h2 : kv.2 = v := (Option.some.injEq _ _).mp h
      rw [show (k, v) = kv from (Prod.ext h1 h2).symm]
      exact List.mem_cons_self _ _
    · rw [if_neg hk] at h
      exact List.mem_cons_of_mem _ (ih h)

/-- Store invariant of one cached item (decidable): distinct field keys and
no stored date beyond the given bound. -/
def itemClean (t : Int) (it : NewsItem) : Bool :=
  decide it.fields.keys.Nodup &&
    it.fields.all (fun kv => match kv.2 with
      | .date d => decide (d ≤ t)
      | _ => true)

theorem itemClean_spec (t : Int) (it : NewsItem) (h : itemClean t it = true) :
    it.fields.keys.Nodup ∧ ∀ k d, it.get k = some (.date d) → d ≤ t := by
  unfold itemClean at h
  rw [Bool.and_eq_true] at h
  rcases h with ⟨h1, h2⟩
  refine ⟨by simpa using h1, ?_⟩
  intro k d hget
  have hmem : (k, FieldVal.date d) ∈ it.fields := Fields.get_mem _ _ _ hget
  have := List.all_eq_true.mp h2 _ hmem
  simpa using this

/-- No pre-parsed date of the entry exceeds the bound (decidable). -/
def entryDatesLe (t : Int) (e : Entry) : Bool :=
  e.kvs.all (fun kv => match kv.2 with
    | .d (some d) => decide (d ≤ t)
    | _ => true)

theorem entryWrites_dates_le (lang : Option String) (e : Entry) (t : Int)
    (h : entryDatesLe t e = true) :
    ∀ k d, (k, FieldVal.date d) ∈ entryWrites lang e → d ≤ t := by
  intro k d hmem
  rcases List.mem_flatMap.mp hmem with ⟨kv, hkv, hw⟩
  have hv := updKeyWrites_date_val lang e kv.1 kv.2 k d hw
  have := List.all_eq_true.mp h _ hkv
  rw [hv] at this
  simpa using this

theorem mk0_keys_nodup (md5hex : String → String) (i : String) :
    (NewsItem.mk0 md5hex i).fields.keys.Nodup := by
  unfold NewsItem.mk0 Fields.keys
  simp

theorem mk0_no_dates (md5hex : String → String) (i : String) :
    ∀ k d, (NewsItem.mk0 md5hex i).get k = some (.date d) → False := by
  intro k d h
  unfold NewsItem.mk0 NewsItem.get Fields.get at h
  by_cases h1 : ("id" == k) = true
  · rw [if_pos h1] at h
    exact absurd ((Option.some.injEq _ _).mp h) (by simp)
  · rw [if_neg h1] at h
    unfold Fields.get at h
    by_cases h2 : ("id_hash" == k) = true
    · rw [if_pos h2] at h
      exact absurd ((Option.some.injEq _ _).mp h) (by simp)
    · rw [if_neg h2] at h
      exact absurd h (by simp [Fields.get])

theorem mk0_id (md5hex : String → String) (i : String) :
    (NewsItem.mk0 md5hex i).id = i := rfl

theorem mk0_orderF (md5hex : String → String) (i : String) :
    (NewsItem.mk0 md5hex i).orderF = none := rfl

theorem deriveId_id_val (md5hex : String → String) (ch : Channel) (e : Entry)
    (i : String) (hd : ch.deriveId md5hex e = some i) :
    ∀ v, e.get "id" = some v → utf8 v = i := by
  intro v hv
  unfold Channel.deriveId at hd
  rw [hv] at hd
  exact (Option.some.injEq _ _).mp hd

/-- Member description of an in-place id update. -/
theorem mem_updateById (items : List NewsItem) (i : String)
    (f : NewsItem → NewsItem) (w' : NewsItem)
    (h : w' ∈ updateById items i f) :
    ∃ w ∈ items, (w.id = i ∧ w' = f w) ∨ (w.id ≠ i ∧ w' = w) := by
  unfold updateById at h
  rcases List.mem_map.mp h with ⟨w, hw, hww⟩
  by_cases hc : (w.id == i) = true
  · exact ⟨w, hw, Or.inl ⟨by simpa using hc, by rw [← hww, if_pos hc]⟩⟩
  · exact ⟨w, hw, Or.inr ⟨by simpa using hc, by rw [← hww, if_neg hc]⟩⟩

/-- Projections preserved by the update of the matching items are preserved
by `updateById`. -/
theorem updateById_map_proj_cond {β : Type} (items : List NewsItem) (i : String)
    (f : NewsItem → NewsItem) (proj : NewsItem → β)
    (h : ∀ it ∈ items, it.id = i → proj (f it) = proj it) :
    (updateById items i f).map proj = items.map proj := by
  unfold updateById
  rw [List.map_map]
  apply List.map_congr_left
  intro it hm
  by_cases hc : (it.id == i) = true
  · simp only [Function.comp, hc, if_pos]
    exact h it hm (by simpa using hc)
  · simp only [Function.comp, hc]
    rw [if_neg (by simp_all)]

/-- `w` is the run-one merge result of entry `e` over a clean base, up to
later `order`/`hidden` bookkeeping writes. -/
def GoodAt (C₁ : Channel) (now₁ : Int) (e : Entry) (w : NewsItem) : Prop :=
  ∃ a : NewsItem, a.fields.keys.Nodup ∧
    (∀ k d, a.get k = some (.date d) → d ≤ now₁) ∧
    (∀ k, k ≠ "order" → k ≠ "hidden" →
      w.get k = (NewsItem.update C₁ e a).get k) ∧
    w.fields.keys.Nodup

theorem GoodAt_update (C₁ : Channel) (now₁ : Int) (e : Entry) (a : NewsItem)
    (hk : a.fields.keys.Nodup)
    (hd : ∀ k d, a.get k = some (.date d) → d ≤ now₁) :
    GoodAt C₁ now₁ e (NewsItem.update C₁ e a) :=
  ⟨a, hk, hd, fun _ _ _ => rfl, update_keys_nodup C₁ e a hk⟩

theorem GoodAt_setStr (C₁ : Channel) (now₁ : Int) (e : Entry) (w : NewsItem)
    (k : String) (v : String) (hk : k = "order" ∨ k = "hidden")
    (h : GoodAt C₁ now₁ e w) : GoodAt C₁ now₁ e (w.setStr k v) := by
  rcases h with ⟨a, h1, h2, h3, h4⟩
  refine ⟨a, h1, h2, ?_, Fields.nodup_keys_set _ _ _ h4⟩
  intro k' ho hh
  have hne : k' ≠ k := by
    rcases hk with rfl | rfl
    · exact ho
    · exact hh
  rw [NewsItem.get_setStr_ne w k k' v hne]
  exact h3 k' ho hh

/-- The during-merge invariant of the first run's per-entry loop. -/
structure MergeInv (ch C₁ : Channel) (md5hex : String → String) (now₁ : Int)
    (v₀ : Nat) (entries : List Entry) (st : MergeState) : Prop where
  idsN : (st.items.map NewsItem.id).Nodup
  feedHas : ∀ i ∈ st.feedItems, hasId st.items i = true
  newHas : ∀ i ∈ st.newIds, hasId st.items i = true
  newNod : st.newIds.Nodup
  newFeed : ∀ i ∈ st.newIds, i ∈ st.feedItems
  goodFeed : ∀ w ∈ st.items, w.id ∈ st.feedItems →
    ∃ e' ∈ entries, C₁.deriveId md5hex e' = some w.id ∧ GoodAt C₁ now₁ e' w
  unmatchedBase : ∀ w ∈ st.items, w.id ∉ st.feedItems → w ∈ ch.items
  ordNone : ∀ w ∈ st.items, w.id ∈ st.newIds → w.orderF = none
  ordSome : ∀ w ∈ st.items, w.id ∉ st.newIds →
    ∃ v, v ≤ v₀ ∧ w.orderF = some (natToStr v)
  ordPW : st.items.Pairwise (fun x y => x.orderF = none ∨ y.orderF = none ∨
    x.orderF ≠ y.orderF)
  keysN : ∀ w ∈ st.items, w.fields.keys.Nodup

/-- The pairwise order-distinctness relation maintained during the merge. -/
def ordRel (x y : NewsItem) : Prop :=
  x.orderF = none ∨ y.orderF = none ∨ x.orderF ≠ y.orderF

theorem hasId_false_iff (items : List NewsItem) (i : String) :
    hasId items i = false ↔ ∀ it ∈ items, it.id ≠ i := by
  unfold hasId
  rw [List.any_eq_false]
  constructor
  · intro h it hm
    have := h it hm
    simpa using this
  · intro h it hm
    have := h it hm
    simpa using this

theorem hasId_true_of_mem (items : List NewsItem) (it : NewsItem)
    (hm : it ∈ items) : hasId items it.id = true := by
  unfold hasId
  exact List.any_eq_true.mpr ⟨it, hm, by simp⟩

theorem hasId_updateById (items : List NewsItem) (i : String)
    (f : NewsItem → NewsItem)
    (hpres : ∀ it ∈ items, it.id = i → (f it).id = it.id) (j : String) :
    hasId (updateById items i f) j = hasId items j := by
  unfold updateById
  refine hasId_map_of_id_preserved items _ ?_ j
  intro it hm
  by_cases hc : (it.id == i) = true
  · rw [if_pos hc]
    exact hpres it hm (by simpa using hc)
  · rw [if_neg hc]

theorem pairwise_ordRel_updateById (items : List NewsItem) (i : String)
    (f : NewsItem → NewsItem)
    (hf : ∀ it ∈ items, it.id = i → (f it).orderF = it.orderF)
    (h : items.Pairwise ordRel) : (updateById items i f).Pairwise ordRel := by
  unfold updateById
  refine List.pairwise_map.mpr ?_
  refine h.imp_of_mem ?_
  intro x y hx hy hr
  have hgx : (if x.id == i then f x else x).orderF = x.orderF := by
    by_cases hc : (x.id == i) = true
    · rw [if_pos hc]; exact hf x hx (by simpa using hc)
    · rw [if_neg hc]
  have hgy : (if y.id == i then f y else y).orderF = y.orderF := by
    by_cases hc : (y.id == i) = true
    · rw [if_pos hc]; exact hf y hy (by simpa using hc)
    · rw [if_neg hc]
  unfold ordRel at hr ⊢
  rw [hgx, hgy]
  exact hr

/-- The invariant survives the first-sync hiding write. -/
theorem mergeInv_hide (ch C₁ : Channel) (md5hex : String → String)
    (now₁ : Int) (v₀ : Nat) (entries : List Entry)
    (items : List NewsItem) (newIds feed : List String) (i : String)
    (hi : i ∈ feed)
    (hinv : MergeInv ch C₁ md5hex now₁ v₀ entries ⟨items, newIds, feed⟩) :
    MergeInv ch C₁ md5hex now₁ v₀ entries
      ⟨updateById items i (fun it => it.setStr "hidden" "yes"), newIds, feed⟩ := by
  have hidp : ∀ it ∈ items, it.id = i →
      (it.setStr "hidden" "yes").id = it.id := by
    intro it _ _
    exact NewsItem.setStr_id_of_ne it _ _ (by decide)
  have hordp : ∀ it ∈ items, it.id = i →
      (it.setStr "hidden" "yes").orderF = it.orderF := by
    intro it _ _
    exact NewsItem.setStr_orderF_of_ne it _ _ (by decide)
  refine ⟨?_, ?_, ?_, hinv.newNod, hinv.newFeed, ?_, ?_, ?_, ?_, ?_, ?_⟩
  · show ((updateById items i _).map NewsItem.id).Nodup
    rw [updateById_map_proj_cond items i _ NewsItem.id hidp]
    exact hinv.idsN
  · intro j hj
    rw [hasId_updateById items i _ hidp j]
    exact hinv.feedHas j hj
  · intro j hj
    rw [hasId_updateById items i _ hidp j]
    exact hinv.newHas j hj
  · intro w' hw' hf'
    rcases mem_updateById items i _ w' hw' with ⟨w, hw, hc | hc⟩
    · rcases hc with ⟨hwi, rfl⟩
      have hwid : (w.setStr "hidden" "yes").id = w.id :=
        NewsItem.setStr_id_of_ne w _ _ (by decide)
      rcases hinv.goodFeed w hw (by rw [hwid] at hf'; exact hf') with
        ⟨e', he', hde', hg'⟩
      exact ⟨e', he', by rw [hwid]; exact hde',
        GoodAt_setStr _ _ _ _ _ _ (Or.inr rfl) hg'⟩
    · rcases hc with ⟨_, rfl⟩
      exact hinv.goodFeed w' hw hf'
  · intro w' hw' hf'
    rcases mem_updateById items i _ w' hw' with ⟨w, hw, hc | hc⟩
    · rcases hc with ⟨hwi, rfl⟩
      have hwid : (w.setStr "hidden" "yes").id = w.id :=
        NewsItem.setStr_id_of_ne w _ _ (by decide)
      rw [hwid, hwi] at hf'
      exact absurd hi hf'
    · rcases hc with ⟨_, rfl⟩
      exact hinv.unmatchedBase w' hw hf'
  · intro w' hw' hn'
    rcases mem_updateById items i _ w' hw' with ⟨w, hw, hc | hc⟩
    · rcases hc with ⟨hwi, rfl⟩
      rw [NewsItem.setStr_orderF_of_ne w _ _ (by decide)]
      exact hinv.ordNone w hw (by
        rw [NewsItem.setStr_id_of_ne w _ _ (by decide)] at hn'
        exact hn')
    · rcases hc with ⟨_, rfl⟩
      exact hinv.ordNone w' hw hn'
  · intro w' hw' hn'
    rcases mem_updateById items i _ w' hw' with ⟨w, hw, hc | hc⟩
    · rcases hc with ⟨hwi, rfl⟩
      rw [NewsItem.setStr_orderF_of_ne w _ _ (by decide)]
      exact hinv.ordSome w hw (by
        rw [NewsItem.setStr_id_of_ne w _ _ (by decide)] at hn'
        exact hn')
    · rcases hc with ⟨_, rfl⟩
      exact hinv.ordSome w' hw hn'
  · exact pairwise_ordRel_updateById items i _ hordp hinv.ordPW
  · intro w' hw'
    rcases mem_updateById items i _ w' hw' with ⟨w, hw, hc | hc⟩
    · rcases hc with ⟨_, rfl⟩
      exact Fields.nodup_keys_set _ _ _ (hinv.keysN w hw)
    · rcases hc with ⟨_, rfl⟩
      exact hinv.keysN w' hw

/-- The invariant survives merging an entry whose id is already stored. -/
theorem mergeInv_merge_found (ch C₁ : Channel) (md5hex : String → String)
    (now₁ : Int) (v₀ : Nat) (entries : List Entry)
    (st : MergeState) (e : Entry) (i : String) (he : e ∈ entries)
    (hcln : entryClean C₁.language e = true)
    (hch : ∀ it ∈ ch.items, itemClean now₁ it = true)
    (hd : C₁.deriveId md5hex e = some i)
    (hfresh : i ∉ st.feedItems)
    (hfound : hasId st.items i = true)
    (hinv : MergeInv ch C₁ md5hex now₁ v₀ entries st) :
    MergeInv ch C₁ md5hex now₁ v₀ entries
      ⟨updateById st.items i (NewsItem.update C₁ e), st.newIds,
        st.feedItems ++ [i]⟩ := by
  have hwo : writesTo C₁.language e "order" = false :=
    (entryClean_spec _ _ hcln).1
  have hidp : ∀ it ∈ st.items, it.id = i →
      (NewsItem.update C₁ e it).id = it.id := by
    intro it _ hit
    rw [hit]
    exact update_id_keep C₁ e it i hcln hit (deriveId_id_val md5hex C₁ e i hd)
  have hordp : ∀ it ∈ st.items, it.id = i →
      (NewsItem.update C₁ e it).orderF = it.orderF := by
    intro it _ _
    exact update_orderF C₁ e it hwo
  have hnotnew : i ∉ st.newIds := by
    intro hc
    exact hfresh (hinv.newFeed i hc)
  refine ⟨?_, ?_, ?_, hinv.newNod, ?_, ?_, ?_, ?_, ?_, ?_, ?_⟩
  · show ((updateById st.items i _).map NewsItem.id).Nodup
    rw [updateById_map_proj_cond st.items i _ NewsItem.id hidp]
    exact hinv.idsN
  · intro j hj
    rw [hasId_updateById st.items i _ hidp j]
    rcases List.mem_append.mp hj with h1 | h2
    · exact hinv.feedHas j h1
    · rw [List.mem_singleton.mp h2]
      exact hfound
  · intro j hj
    rw [hasId_updateById st.items i _ hidp j]
    exact hinv.newHas j hj
  · intro j hj
    exact List.mem_append_left _ (hinv.newFeed j hj)
  · intro w' hw' hf'
    rcases mem_updateById st.items i _ w' hw' with ⟨w, hw, hc | hc⟩
    · rcases hc with ⟨hwi, rfl⟩
      have hwid : (NewsItem.update C₁ e w).id = i := by
        rw [hidp w hw hwi, hwi]
      have hbase : w ∈ ch.items := hinv.unmatchedBase w hw (by
        rw [hwi]; exact hfresh)
      rcases itemClean_spec now₁ w (hch w hbase) with ⟨hkn, hkd⟩
      exact ⟨e, he, by rw [hwid, ← hwi]; rw [hwi]; exact hd,
        GoodAt_update C₁ now₁ e w hkn hkd⟩
    · rcases hc with ⟨hne, rfl⟩
      rcases List.mem_append.mp hf' with h1 | h2
      · exact hinv.goodFeed w' hw h1
      · exact absurd (List.mem_singleton.mp h2) hne
  · intro w' hw' hf'
    rcases mem_updateById st.items i _ w' hw' with ⟨w, hw, hc | hc⟩
    · rcases hc with ⟨hwi, rfl⟩
      have hwid : (NewsItem.update C₁ e w).id = i := by
        rw [hidp w hw hwi, hwi]
      rw [hwid] at hf'
      exact absurd (List.mem_append_right _ (List.mem_singleton_self i)) hf'
    · rcases hc with ⟨hne, rfl⟩
      exact hinv.unmatchedBase w' hw (fun hc =>
        hf' (List.mem_append_left _ hc))
  · intro w' hw' hn'
    rcases mem_updateById st.items i _ w' hw' with ⟨w, hw, hc | hc⟩
    · rcases hc with ⟨hwi, rfl⟩
      rw [hidp w hw hwi, hwi] at hn'
      exact absurd hn' hnotnew
    · rcases hc with ⟨hne, rfl⟩
      exact hinv.ordNone w' hw hn'
  · intro w' hw' hn'
    rcases mem_updateById st.items i _ w' hw' with ⟨w, hw, hc | hc⟩
    · rcases hc with ⟨hwi, rfl⟩
      rw [hordp w hw hwi]
      exact hinv.ordSome w hw (by rw [hwi]; exact hnotnew)
    · rcases hc with ⟨hne, rfl⟩
      exact hinv.ordSome w' hw hn'
  · exact pairwise_ordRel_updateById st.items i _ hordp hinv.ordPW
  · intro w' hw'
    rcases mem_updateById st.items i _ w' hw' with ⟨w, hw, hc | hc⟩
    · rcases hc with ⟨_, rfl⟩
      exact update_keys_nodup C₁ e w (hinv.keysN w hw)
    · rcases hc with ⟨_, rfl⟩
      exact hinv.keysN w' hw

/-- The invariant survives merging an entry with a fresh id. -/
theorem mergeInv_merge_new (ch C₁ : Channel) (md5hex : String → String)
    (now₁ : Int) (v₀ : Nat) (entries : List Entry)
    (st : MergeState) (e : Entry) (i : String) (he : e ∈ entries)
    (hcln : entryClean C₁.language e = true)
    (hd : C₁.deriveId md5hex e = some i)
    (hfresh : i ∉ st.feedItems)
    (hfound : hasId st.items i = false)
    (hinv : MergeInv ch C₁ md5hex now₁ v₀ entries st) :
    MergeInv ch C₁ md5hex now₁ v₀ entries
      ⟨st.items ++ [NewsItem.update C₁ e (NewsItem.mk0 md5hex i)],
        st.newIds ++ [i], st.feedItems ++ [i]⟩ := by
  have hwo : writesTo C₁.language e "order" = false :=
    (entryClean_spec _ _ hcln).1
  have hz : (NewsItem.update C₁ e (NewsItem.mk0 md5hex i)).id = i :=
    update_id_keep C₁ e _ i hcln (mk0_id md5hex i)
      (deriveId_id_val md5hex C₁ e i hd)
  have hzord : (NewsItem.update C₁ e (NewsItem.mk0 md5hex i)).orderF = none := by
    rw [update_orderF C₁ e _ hwo, mk0_orderF]
  have hnomem : ∀ it ∈ st.items, it.id ≠ i := (hasId_false_iff _ _).mp hfound
  have hnotnew : i ∉ st.newIds := by
    intro hc
    exact hfresh (hinv.newFeed i hc)
  refine ⟨?_, ?_, ?_, ?_, ?_, ?_, ?_, ?_, ?_, ?_, ?_⟩
  · rw [List.map_append]
    refine List.Nodup.append hinv.idsN (by simp) ?_
    intro x hx hy
    simp only [List.map_cons, List.map_nil, List.mem_singleton, hz] at hy
    rcases List.mem_map.mp hx with ⟨it, hit, hix⟩
    exact hnomem it hit (by rw [hix, hy])
  · intro j hj
    rw [hasId_append]
    rcases List.mem_append.mp hj with h1 | h2
    · rw [hinv.feedHas j h1]
      rfl
    · rw [List.mem_singleton.mp h2]
      have : hasId [NewsItem.update C₁ e (NewsItem.mk0 md5hex i)] i = true := by
        unfold hasId
        simp [hz]
      rw [this]
      simp
  · intro j hj
    rw [hasId_append]
    rcases List.mem_append.mp hj with h1 | h2
    · rw [hinv.newHas j h1]
      rfl
    · rw [List.mem_singleton.mp h2]
      have : hasId [NewsItem.update C₁ e (NewsItem.mk0 md5hex i)] i = true := by
        unfold hasId
        simp [hz]
      rw [this]
      simp
  · refine List.Nodup.append hinv.newNod (by simp) ?_
    intro x hx hy
    rw [List.mem_singleton.mp hy] at hx
    exact hnotnew hx
  · intro j hj
    rcases List.mem_append.mp hj with h1 | h2
    · exact List.mem_append_left _ (hinv.newFeed j h1)
    · exact List.mem_append_right _ h2
  · intro w' hw' hf'
    rcases List.mem_append.mp hw' with h1 | h2
    · rcases List.mem_append.mp hf' with hf1 | hf2
      · exact hinv.goodFeed w' h1 hf1
      · exact absurd (List.mem_singleton.mp hf2) (hnomem w' h1)
    · rw [List.mem_singleton.mp h2]
      refine ⟨e, he, ?_, ?_⟩
      · rw [hz]
        exact hd
      · exact GoodAt_update C₁ now₁ e _ (mk0_keys_nodup md5hex i)
          (fun k d hg => absurd hg (by
            intro hc
            exact mk0_no_dates md5hex i k d hc))
  · intro w' hw' hf'
    rcases List.mem_append.mp hw' with h1 | h2
    · exact hinv.unmatchedBase w' h1 (fun hc =>
        hf' (List.mem_append_left _ hc))
    · exact absurd (show i ∈ st.feedItems ++ [i] from
        List.mem_append_right _ (List.mem_singleton_self i))
        (by rw [List.mem_singleton.mp h2, hz] at hf'; exact hf')
  · intro w' hw' hn'
    rcases List.mem_append.mp hw' with h1 | h2
    · rcases List.mem_append.mp hn' with hn1 | hn2
      · exact hinv.ordNone w' h1 hn1
      · exact absurd (List.mem_singleton.mp hn2) (hnomem w' h1)
    · rw [List.mem_singleton.mp h2]
      exact hzord
  · intro w' hw' hn'
    rcases List.mem_append.mp hw' with h1 | h2
    · exact hinv.ordSome w' h1 (fun hc => hn' (List.mem_append_left _ hc))
    · rw [List.mem_singleton.mp h2, hz] at hn'
      exact absurd (List.mem_append_right _ (List.mem_singleton_self i)) hn'
  · rw [List.pairwise_append]
    refine ⟨hinv.ordPW, List.pairwise_singleton _ _, ?_⟩
    intro x _ y hy
    rw [List.mem_singleton.mp hy]
    exact Or.inr (Or.inl hzord)
  · intro w' hw'
    rcases List.mem_append.mp hw' with h1 | h2
    · exact hinv.keysN w' h1
    · rw [List.mem_singleton.mp h2]
      exact update_keys_nodup C₁ e _ (mk0_keys_nodup md5hex i)

/-- One step of the per-entry loop preserves the invariant. -/
theorem mergeInv_step (cfg : PlanetCfg) (md5hex : String → String)
    (ch C₁ : Channel) (now₁ : Int) (v₀ : Nat) (entries : List Entry)
    (st : MergeState) (e : Entry) (he : e ∈ entries)
    (hcln : entryClean C₁.language e = true)
    (hch : ∀ it ∈ ch.items, itemClean now₁ it = true)
    (hfresh : ∀ i, C₁.deriveId md5hex e = some i → i ∉ st.feedItems)
    (hinv : MergeInv ch C₁ md5hex now₁ v₀ entries st) :
    MergeInv ch C₁ md5hex now₁ v₀ entries
      (Channel.mergeEntry cfg md5hex C₁ st e) := by
  cases hd : C₁.deriveId md5hex e with
  | none => rw [mergeEntry_skip cfg md5hex C₁ st e hd]; exact hinv
  | some i =>
    unfold Channel.mergeEntry
    rw [hd]
    dsimp only
    by_cases hfound : hasId st.items i = true
    · rw [hfound]
      simp only [if_pos]
      have hcore := mergeInv_merge_found ch C₁ md5hex now₁ v₀ entries st e i
        he hcln hch hd (hfresh i hd) hfound hinv
      split
      · exact mergeInv_hide ch C₁ md5hex now₁ v₀ entries _ _ _ i
          (List.mem_append_right _ (List.mem_singleton_self i)) hcore
      · exact hcore
    · rw [Bool.eq_false_iff.mpr hfound]
      simp only [Bool.false_eq_true, if_false]
      have hcore := mergeInv_merge_new ch C₁ md5hex now₁ v₀ entries st e i
        he hcln hd (hfresh i hd) (Bool.eq_false_iff.mpr hfound) hinv
      split
      · exact mergeInv_hide ch C₁ md5hex now₁ v₀ entries _ _ _ i
          (List.mem_append_right _ (List.mem_singleton_self i)) hcore
      · exact hcore

/-- The per-entry loop accumulates exactly the derivable ids, in order. -/
theorem mergeFold_feedItems (cfg : PlanetCfg) (md5hex : String → String)
    (C₁ : Channel) :
    ∀ (E : List Entry) (st : MergeState),
    (E.foldl (Channel.mergeEntry cfg md5hex C₁) st).feedItems =
      st.feedItems ++ E.filterMap (C₁.deriveId md5hex) := by
  intro E
  induction E with
  | nil => intro st; simp
  | cons e rest ih =>
    intro st
    rw [List.foldl_cons, ih, List.filterMap_cons]
    cases hd : C₁.deriveId md5hex e with
    | none => rw [mergeEntry_skip cfg md5hex C₁ st e hd]
    | some i =>
      have hfeed : (Channel.mergeEntry cfg md5hex C₁ st e).feedItems =
          st.feedItems ++ [i] := by
        unfold Channel.mergeEntry
        rw [hd]
      rw [hfeed]
      simp [List.append_assoc]

/-- The whole per-entry loop preserves the invariant, provided the derivable
ids of the remaining entries are fresh and distinct. -/
theorem mergeInv_fold (cfg : PlanetCfg) (md5hex : String → String)
    (ch C₁ : Channel) (now₁ : Int) (v₀ : Nat) (entries : List Entry)
    (hch : ∀ it ∈ ch.items, itemClean now₁ it = true) :
    ∀ (E : List Entry) (st : MergeState),
    (∀ e ∈ E, e ∈ entries) →
    (∀ e ∈ E, entryClean C₁.language e = true) →
    (st.feedItems ++ E.filterMap (C₁.deriveId md5hex)).Nodup →
    MergeInv ch C₁ md5hex now₁ v₀ entries st →
    MergeInv ch C₁ md5hex now₁ v₀ entries
      (E.foldl (Channel.mergeEntry cfg md5hex C₁) st) := by
  intro E
  induction E with
  | nil => intro st _ _ _ hinv; exact hinv
  | cons e rest ih =>
    intro st hmem hcln hnd hinv
    rw [List.foldl_cons]
    have hstep := mergeInv_step cfg md5hex ch C₁ now₁ v₀ entries st e
      (hmem e (List.mem_cons_self _ _)) (hcln e (List.mem_cons_self _ _)) hch
      (fun i hd => by
        rw [List.filterMap_cons, hd] at hnd
        intro hc
        rcases (List.nodup_append.mp hnd) with ⟨_, _, hdisj⟩
        exact hdisj hc (List.mem_cons_self _ _)) hinv
    refine ih _ (fun e' h' => hmem e' (List.mem_cons_of_mem _ h'))
      (fun e' h' => hcln e' (List.mem_cons_of_mem _ h')) ?_ hstep
    have hfeed : (Channel.mergeEntry cfg md5hex C₁ st e).feedItems =
        st.feedItems ++ (C₁.deriveId md5hex e).toList := by
      cases hd : C₁.deriveId md5hex e with
      | none => rw [mergeEntry_skip cfg md5hex C₁ st e hd]; simp
      | some i =>
        unfold Channel.mergeEntry
        rw [hd]
        simp
    rw [hfeed, List.append_assoc]
    rw [List.filterMap_cons] at hnd
    cases hd : C₁.deriveId md5hex e with
    | none =>
      rw [hd] at hnd
      simpa using hnd
    | some i =>
      rw [hd] at hnd
      simpa [List.append_assoc] using hnd

theorem natToStr_inj (a b : Nat) (h : natToStr a = natToStr b) : a = b := by
  have ha := strToNat_natToStr a
  rw [h, strToNat_natToStr] at ha
  omega

/-- Transfer relation of the order-assignment pass: unchanged, or exactly one
`order` write. -/
def ordWrite (x y : NewsItem) : Prop :=
  y = x ∨ ∃ s, y = x.setStr "order" s

theorem ordWrite_trans (x y z : NewsItem) (h1 : ordWrite x y)
    (h2 : ordWrite y z) : ordWrite x z := by
  rcases h1 with rfl | ⟨s, rfl⟩
  · exact h2
  · rcases h2 with rfl | ⟨s', rfl⟩
    · exact Or.inr ⟨s, rfl⟩
    · refine Or.inr ⟨s', ?_⟩
      refine NewsItem.ext' _ _ ?_
      exact Fields.set_set_same x.fields "order" (.str s) (.str s')

theorem forall₂_trans_of {α : Type} {R : α → α → Prop}
    (htr : ∀ a b c, R a b → R b c → R a c) :
    ∀ l m n : List α, List.Forall₂ R l m → List.Forall₂ R m n →
      List.Forall₂ R l n := by
  intro l
  induction l with
  | nil =>
    intro m n h1 h2
    cases h1
    cases h2
    exact List.Forall₂.nil
  | cons a l' ih =>
    intro m n h1 h2
    cases h1 with
    | cons hab h1' =>
      cases h2 with
      | cons hbc h2' =>
        exact List.Forall₂.cons (htr _ _ _ hab hbc) (ih _ _ h1' h2')

theorem forall₂_self_of {α : Type} {R : α → α → Prop} (l : List α)
    (h : ∀ x ∈ l, R x x) : List.Forall₂ R l l := by
  induction l with
  | nil => exact List.Forall₂.nil
  | cons a l' ih =>
    exact List.Forall₂.cons (h a (List.mem_cons_self _ _))
      (ih (fun x hx => h x (List.mem_cons_of_mem _ hx)))

theorem forall₂_updateById (items : List NewsItem) (i : String)
    (f : NewsItem → NewsItem) {R : NewsItem → NewsItem → Prop}
    (h : ∀ it ∈ items, R it (if it.id == i then f it else it)) :
    List.Forall₂ R items (updateById items i f) := by
  unfold updateById
  induction items with
  | nil => exact List.Forall₂.nil
  | cons a l' ih =>
    exact List.Forall₂.cons (h a (List.mem_cons_self _ _))
      (ih (fun x hx => h x (List.mem_cons_of_mem _ hx)))

theorem mem_forall₂_right {α : Type} {R : α → α → Prop}
    {l m : List α} (h : List.Forall₂ R l m) (b : α) (hb : b ∈ m) :
    ∃ a ∈ l, R a b := by
  induction h with
  | nil => exact absurd hb (List.not_mem_nil _)
  | cons hab h' ih =>
    rcases List.mem_cons.mp hb with rfl | hb'
    · exact ⟨_, List.mem_cons_self _ _, hab⟩
    · rcases ih hb' with ⟨a, ha, har⟩
      exact ⟨a, List.mem_cons_of_mem _ ha, har⟩

/-- The order-assignment pass: each listed id receives the next value of the
textual counter; afterwards every item has a canonical numeral order, all
orders are distinct, and nothing but `order` fields changed. -/
theorem foldl_orderStep_spec :
    ∀ (L : List String) (items : List NewsItem) (vc : Nat),
    L.Nodup →
    (items.map NewsItem.id).Nodup →
    (∀ w ∈ items, w.id ∈ L → w.orderF = none) →
    (∀ w ∈ items, w.id ∉ L → ∃ v, v ≤ vc ∧ w.orderF = some (natToStr v)) →
    items.Pairwise ordRel →
    (∀ w ∈ items, w.fields.keys.Nodup) →
    List.Forall₂ ordWrite items (L.foldl orderStep (items, natToStr vc)).1 ∧
      (L.foldl orderStep (items, natToStr vc)).1.map NewsItem.id =
        items.map NewsItem.id ∧
      (∀ w ∈ (L.foldl orderStep (items, natToStr vc)).1,
        ∃ v, v ≤ vc + L.length ∧ w.orderF = some (natToStr v)) ∧
      ((L.foldl orderStep (items, natToStr vc)).1.map NewsItem.orderF).Nodup ∧
      (∀ w ∈ (L.foldl orderStep (items, natToStr vc)).1,
        w.fields.keys.Nodup) := by
  intro L
  induction L with
  | nil =>
    intro items vc _ _ _ hsome hpw hkeys
    refine ⟨forall₂_self_of items (fun x _ => Or.inl rfl), rfl, ?_, ?_, hkeys⟩
    · intro w hw
      rcases hsome w hw (List.not_mem_nil _) with ⟨v, hv, ho⟩
      exact ⟨v, by simpa using hv, ho⟩
    · have hall : ∀ w ∈ items, w.orderF ≠ none := by
        intro w hw hc
        rcases hsome w hw (List.not_mem_nil _) with ⟨v, _, ho⟩
        rw [ho] at hc
        exact absurd hc (by simp)
      refine List.pairwise_map.mpr ?_
      refine hpw.imp_of_mem ?_
      intro x y hx hy hr
      rcases hr with h1 | h2 | h3
      · exact absurd h1 (hall x hx)
      · exact absurd h2 (hall y hy)
      · exact h3
  | cons i L' ih =>
    intro items vc hLnd hids hnone hsome hpw hkeys
    rw [List.foldl_cons]
    have hstep : orderStep (items, natToStr vc) i =
        (updateById items i (fun it => it.setStr "order"
          (natToStr (vc + 1))), natToStr (vc + 1)) := by
      unfold orderStep
      rw [strToNat_natToStr]
    rw [hstep]
    have hLnd' : L'.Nodup := (List.nodup_cons.mp hLnd).2
    have hiL : i ∉ L' := (List.nodup_cons.mp hLnd).1
    have hidpw : items.Pairwise (fun x y => x.id ≠ y.id) :=
      List.pairwise_map.mp hids
    have hidp : ∀ it ∈ items, it.id = i →
        (it.setStr "order" (natToStr (vc + 1))).id = it.id := by
      intro it _ _
      exact NewsItem.setStr_id_of_ne it _ _ (by decide)
    have hmapid : (updateById items i (fun it => it.setStr "order"
        (natToStr (vc + 1)))).map NewsItem.id = items.map NewsItem.id :=
      updateById_map_proj_cond items i _ NewsItem.id hidp
    have hids' : ((updateById items i (fun it => it.setStr "order"
        (natToStr (vc + 1)))).map NewsItem.id).Nodup := by
      rw [hmapid]; exact hids
    have hnone' : ∀ w ∈ updateById items i (fun it => it.setStr "order"
        (natToStr (vc + 1))), w.id ∈ L' → w.orderF = none := by
      intro w' hw' hmem
      rcases mem_updateById _ _ _ _ hw' with ⟨w, hw, hc | hc⟩
      · rcases hc with ⟨hwi, rfl⟩
        rw [NewsItem.setStr_id_of_ne w _ _ (by decide), hwi] at hmem
        exact absurd hmem hiL
      · rcases hc with ⟨hne, rfl⟩
        exact hnone w' hw (List.mem_cons_of_mem _ hmem)
    have hsome' : ∀ w ∈ updateById items i (fun it => it.setStr "order"
        (natToStr (vc + 1))), w.id ∉ L' →
        ∃ v, v ≤ vc + 1 ∧ w.orderF = some (natToStr v) := by
      intro w' hw' hmem
      rcases mem_updateById _ _ _ _ hw' with ⟨w, hw, hc | hc⟩
      · rcases hc with ⟨hwi, rfl⟩
        refine ⟨vc + 1, le_refl _, ?_⟩
        unfold NewsItem.orderF
        rw [NewsItem.get_setStr_self]
      · rcases hc with ⟨hne, rfl⟩
        rcases hsome w' hw (by
          intro hc2
          rcases List.mem_cons.mp hc2 with h1 | h2
          · exact hne h1
          · exact hmem h2) with ⟨v, hv, ho⟩
        exact ⟨v, by omega, ho⟩
    have hpw' : (updateById items i (fun it => it.setStr "order"
        (natToStr (vc + 1)))).Pairwise ordRel := by
      unfold updateById
      refine List.pairwise_map.mpr ?_
      refine (hpw.and hidpw).imp_of_mem ?_
      intro x y hx hy hr
      rcases hr with ⟨hrel, hneid⟩
      by_cases hxi : (x.id == i) = true
      · have hyi : (y.id == i) = false := by
          rcases hb : (y.id == i) with _ | _
          · rfl
          · exact absurd (by
              rw [show x.id = i by simpa using hxi]
              exact (show y.id = i by simpa using hb).symm) hneid
        rw [if_pos hxi, if_neg (by simp [hyi])]
        unfold ordRel
        rw [show (x.setStr "order" (natToStr (vc + 1))).orderF =
          some (natToStr (vc + 1)) from by
            unfold NewsItem.orderF
            rw [NewsItem.get_setStr_self]]
        by_cases hyL : y.id ∈ i :: L'
        · exact Or.inr (Or.inl (hnone y hy hyL))
        · rcases hsome y hy hyL with ⟨v, hv, ho⟩
          refine Or.inr (Or.inr ?_)
          rw [ho]
          intro hcon
          have := natToStr_inj _ _ ((Option.some.injEq _ _).mp hcon)
          omega
      · rw [if_neg (by simp [Bool.eq_false_iff.mpr hxi])]
        by_cases hyi : (y.id == i) = true
        · rw [if_pos hyi]
          unfold ordRel
          rw [show (y.setStr "order" (natToStr (vc + 1))).orderF =
            some (natToStr (vc + 1)) from by
              unfold NewsItem.orderF
              rw [NewsItem.get_setStr_self]]
          by_cases hxL : x.id ∈ i :: L'
          · exact Or.inl (hnone x hx hxL)
          · rcases hsome x hx hxL with ⟨v, hv, ho⟩
            refine Or.inr (Or.inr ?_)
            rw [ho]
            intro hcon
            have := natToStr_inj _ _ ((Option.some.injEq _ _).mp hcon)
            omega
        · rw [if_neg (by simp [Bool.eq_false_iff.mpr hyi])]
          exact hrel
    have hkeys' : ∀ w ∈ updateById items i (fun it => it.setStr "order"
        (natToStr (vc + 1))), w.fields.keys.Nodup := by
      intro w' hw'
      rcases mem_updateById _ _ _ _ hw' with ⟨w, hw, hc | hc⟩
      · rcases hc with ⟨_, rfl⟩
        exact Fields.nodup_keys_set _ _ _ (hkeys w hw)
      · rcases hc with ⟨_, rfl⟩
        exact hkeys w' hw
    rcases ih _ (vc + 1) hLnd' hids' hnone' hsome' hpw' hkeys' with
      ⟨hf2, hmap, hsome2, hnodord, hkeys2⟩
    refine ⟨?_, ?_, ?_, hnodord, hkeys2⟩
    · refine forall₂_trans_of ordWrite_trans _ _ _ ?_ hf2
      refine forall₂_updateById items i _ ?_
      intro it _
      by_cases hc : (it.id == i) = true
      · rw [if_pos hc]
        exact Or.inr ⟨_, rfl⟩
      · rw [if_neg hc]
        exact Or.inl rfl
    · rw [hmap, hmapid]
    · intro w hw
      rcases hsome2 w hw with ⟨v, hv, ho⟩
      exact ⟨v, by simp only [List.length_cons]; omega, ho⟩

theorem cmpCharList_eq_iff : ∀ l m : List Char, cmpCharList l m = .eq ↔ l = m := by
  intro l
  induction l with
  | nil =>
    intro m
    cases m with
    | nil => simp [cmpCharList]
    | cons d ds => simp [cmpCharList]
  | cons c cs ih =>
    intro m
    cases m with
    | nil => simp [cmpCharList]
    | cons d ds =>
      show (cmpNat c.toNat d.toNat).then (cmpCharList cs ds) = .eq ↔ _
      rw [Ordering.then_eq_eq]
      constructor
      · rintro ⟨h1, h2⟩
        have htn : c.toNat = d.toNat := cmpNat_eq_iff.mp h1
        have hcd : c = d := by
          refine Char.ext ?_
          exact UInt32.ext htn
        rw [hcd, (ih ds).mp h2]
      · intro h
        injection h with h1 h2
        exact ⟨by rw [h1]; exact cmpNat_eq_iff.mpr rfl, (ih ds).mpr h2⟩

theorem cmpStr_eq_iff (a b : String) : cmpStr a b = .eq ↔ a = b := by
  unfold cmpStr
  rw [cmpCharList_eq_iff]
  constructor
  · intro h
    cases a
    cases b
    exact congrArg String.mk h
  · intro h
    rw [h]

theorem cmpOptStr_eq_iff (a b : Option String) :
    cmpOpt cmpStr a b = .eq ↔ a = b := by
  cases a <;> cases b <;> simp [cmpOpt]
  exact cmpStr_eq_iff _ _

/-- A full sort-key tie forces equal `order` fields. -/
theorem sortTupleCmp_eq_orderF (a b : NewsItem)
    (h : sortTupleCmp a b = .eq) : a.orderF = b.orderF := by
  unfold sortTupleCmp at h
  rw [Ordering.then_eq_eq] at h
  rcases h with ⟨_, h2⟩
  rw [Ordering.then_eq_eq] at h2
  exact (cmpOptStr_eq_iff _ _).mp h2.1

/-- Strict key comparison of items. -/
def keyGtB (a b : NewsItem) : Bool := sortTupleCmp a b == .gt

theorem keyGtB_eq (q p : NewsItem) (h : keyGtB q p = true) :
    sortTupleCmp q p = .gt := by
  unfold keyGtB at h
  cases hv : sortTupleCmp q p with
  | lt => rw [hv] at h; exact absurd h (by decide)
  | eq => rw [hv] at h; exact absurd h (by decide)
  | gt => rfl

theorem pairGtB_of_keyGtB (q p : Nat × NewsItem) (h : keyGtB q.2 p.2 = true) :
    pairGtB q p = true := by
  unfold pairGtB pairCmp
  rw [keyGtB_eq _ _ h]
  rfl

theorem pairGtB_key_cases (q p : Nat × NewsItem) (h : pairGtB q p = true) :
    sortTupleCmp q.2 p.2 = .gt ∨ sortTupleCmp q.2 p.2 = .eq := by
  unfold pairGtB pairCmp at h
  cases hv : sortTupleCmp q.2 p.2 with
  | lt =>
    rw [hv] at h
    rw [show Ordering.lt.then (cmpNat q.1 p.1) = Ordering.lt from rfl] at h
    exact absurd h (by decide)
  | eq => exact Or.inr rfl
  | gt => exact Or.inl rfl

/-- Pair membership in the sorted view projects to the unsorted view. -/
theorem pair_mem_view {ch : Channel} {h : Bool} {p : Nat × NewsItem}
    (hp : p ∈ ch.sortedPairs h) : p.2 ∈ ch.itemsView h := by
  unfold Channel.sortedPairs at hp
  have hmem : p ∈ (ch.itemsView h).enum := (List.mem_insertionSort pairGe).mp hp
  have h2 : p.2 ∈ (ch.itemsView h).enum.map Prod.snd := List.mem_map_of_mem _ hmem
  rw [List.enum_map_snd] at h2
  exact h2

theorem view_mem_pair {ch : Channel} {h : Bool} {x : NewsItem}
    (hx : x ∈ ch.itemsView h) : ∃ p ∈ ch.sortedPairs h, p.2 = x := by
  have h2 : x ∈ (ch.itemsView h).enum.map Prod.snd := by
    rw [List.enum_map_snd]
    exact hx
  rcases List.mem_map.mp h2 with ⟨p, hp, hpx⟩
  exact ⟨p, (List.mem_insertionSort pairGe).mpr hp, hpx⟩

/-- Counting a second-component predicate over the sorted pairs equals
counting it over the unsorted view. -/
theorem countP_sortedPairs (ch : Channel) (h : Bool) (g : NewsItem → Bool) :
    (ch.sortedPairs h).countP (fun q => g q.2) = (ch.itemsView h).countP g := by
  unfold Channel.sortedPairs
  rw [(List.perm_insertionSort pairGe (ch.itemsView h).enum).countP_eq]
  have : (ch.itemsView h).enum.countP (fun q => g q.2) =
      ((ch.itemsView h).enum.map Prod.snd).countP g := by
    rw [List.countP_map]
    rfl
  rw [this, List.enum_map_snd]

theorem countP_and_split {α : Type} (p q : α → Bool) :
    ∀ l : List α, l.countP (fun a => p a && q a) +
      l.countP (fun a => p a && !q a) = l.countP p := by
  intro l
  induction l with
  | nil => rfl
  | cons a rest ih =>
    rw [List.countP_cons, List.countP_cons, List.countP_cons]
    cases hp : p a <;> cases hq : q a <;> simp [hp, hq] <;> omega

/-- Members of the expiration sweep are unmatched members of the input. -/
theorem sweep_sub {α : Type} (matched : α → Bool) (retain : Bool) :
    ∀ (n : Nat) (l : List α) (x : α), x ∈ sweepExpired matched retain n l →
      x ∈ l ∧ matched x = false := by
  intro n l
  induction l generalizing n with
  | nil =>
    intro x hx
    cases n <;> exact absurd hx (List.not_mem_nil _)
  | cons a rest ih =>
    intro x hx
    cases n with
    | zero => exact absurd hx (List.not_mem_nil _)
    | succ m =>
      unfold sweepExpired at hx
      by_cases hma : matched a = true
      · rw [hma] at hx
        simp only [if_pos] at hx
        rcases ih m x hx with ⟨h1, h2⟩
        exact ⟨List.mem_cons_of_mem _ h1, h2⟩
      · rw [Bool.eq_false_iff.mpr hma] at hx
        simp only [Bool.false_eq_true, if_false] at hx
        cases retain with
        | true =>
          simp only [Bool.not_true, Bool.false_eq_true, if_false] at hx
          rcases ih (m + 1) x hx with ⟨h1, h2⟩
          exact ⟨List.mem_cons_of_mem _ h1, h2⟩
        | false =>
          simp only [Bool.not_false, if_pos] at hx
          rcases List.mem_cons.mp hx with rfl | h2
          · exact ⟨List.mem_cons_self _ _, Bool.eq_false_iff.mpr hma⟩
          · rcases ih (m + 1) x h2 with ⟨h1, h2'⟩
            exact ⟨List.mem_cons_of_mem _ h1, h2'⟩

/-- With the retain sentinel the sweep expires nothing. -/
theorem sweepExpired_retain {α : Type} (matched : α → Bool) :
    ∀ (n : Nat) (l : List α), sweepExpired matched true n l = [] := by
  intro n l
  induction l generalizing n with
  | nil => cases n <;> rfl
  | cons a rest ih =>
    cases n with
    | zero => rfl
    | succ m =>
      unfold sweepExpired
      by_cases hma : matched a = true
      · rw [hma]
        simp only [if_pos]
        exact ih m
      · rw [Bool.eq_false_iff.mpr hma]
        simp only [Bool.false_eq_true, if_false, Bool.not_true]
        exact ih (m + 1)

theorem contains_eq_true_iff (l : List String) (a : String) :
    l.contains a = true ↔ a ∈ l := by
  constructor
  · intro h
    exact List.mem_of_elem_eq_true h
  · intro h
    exact List.elem_eq_true_of_mem h

theorem hasId_true_iff (items : List NewsItem) (i : String) :
    hasId items i = true ↔ ∃ w ∈ items, w.id = i := by
  unfold hasId
  rw [List.any_eq_true]
  constructor
  · rintro ⟨w, hw, hb⟩
    exact ⟨w, hw, by simpa using hb⟩
  · rintro ⟨w, hw, hb⟩
    exact ⟨w, hw, by simpa using hb⟩

/-- Distinct filterMap results identify their sources. -/
theorem filterMap_nodup_inj {α β : Type} [DecidableEq β] (f : α → Option β)
    (l : List α) (hnd : (l.filterMap f).Nodup) (a b : α) (i : β)
    (ha : a ∈ l) (hb : b ∈ l) (hfa : f a = some i) (hfb : f b = some i) :
    a = b := by
  induction l with
  | nil => exact absurd ha (List.not_mem_nil _)
  | cons x rest ih =>
    rw [List.filterMap_cons] at hnd
    rcases List.mem_cons.mp ha with rfl | ha'
    · rcases List.mem_cons.mp hb with rfl | hb'
      · rfl
      · rw [hfa] at hnd
        rcases List.nodup_cons.mp hnd with ⟨hni, _⟩
        exact absurd (List.mem_filterMap.mpr ⟨b, hb', hfb⟩) hni
    · rcases List.mem_cons.mp hb with rfl | hb'
      · rw [hfb] at hnd
        rcases List.nodup_cons.mp hnd with ⟨hni, _⟩
        exact absurd (List.mem_filterMap.mpr ⟨a, ha', hfa⟩) hni
      · refine ih ?_ ha' hb'
        cases hf : f x with
        | none => rw [hf] at hnd; exact hnd
        | some j =>
          rw [hf] at hnd
          exact (List.nodup_cons.mp hnd).2

theorem deriveId_congr_url (md5hex : String → String) (ch ch' : Channel)
    (e : Entry) (h : ch.url = ch'.url) :
    ch.deriveId md5hex e = ch'.deriveId md5hex e := by
  unfold Channel.deriveId
  rw [h]

/-- The non-trivial branch of `update_entries`, as a record update. -/
theorem update_entries_decomp (cfg : PlanetCfg) (md5hex : String → String)
    (now : Int) (ch : Channel) (entries : List Entry) (hne : entries ≠ []) :
    Channel.update_entries cfg md5hex now ch entries =
      { Channel.preSweep cfg md5hex now ch entries with
          items := (Channel.preSweep cfg md5hex now ch entries).items.filter
            (fun it => !((Channel.sweepResult cfg md5hex now ch entries).any
              (fun j => j.id == it.id))),
          expired := (Channel.preSweep cfg md5hex now ch entries).expired ++
            Channel.sweepResult cfg md5hex now ch entries } := by
  have hne' : entries.isEmpty = false := by
    cases entries with
    | nil => exact absurd rfl hne
    | cons a l => rfl
  unfold Channel.update_entries
  rw [hne']
  rfl

theorem ordWrite_id (x y : NewsItem) (h : ordWrite x y) : y.id = x.id := by
  rcases h with rfl | ⟨s, rfl⟩
  · rfl
  · exact NewsItem.setStr_id_of_ne x _ _ (by decide)

theorem GoodAt_ordWrite (C₁ : Channel) (now₁ : Int) (e : Entry)
    (x y : NewsItem) (hw : ordWrite x y) (h : GoodAt C₁ now₁ e x) :
    GoodAt C₁ now₁ e y := by
  rcases hw with rfl | ⟨s, rfl⟩
  · exact h
  · exact GoodAt_setStr C₁ now₁ e x "order" s (Or.inl rfl) h

theorem hasId_congr (l l' : List NewsItem)
    (h : l.map NewsItem.id = l'.map NewsItem.id) (i : String) :
    hasId l i = hasId l' i := by
  have he : ∀ m : List NewsItem,
      hasId m i = (m.map NewsItem.id).any (fun s => s == i) := by
    intro m
    unfold hasId
    induction m with
    | nil => rfl
    | cons a rest ih => simp [ih]
  rw [he l, he l', h]

/-- The pre-sweep state of the first run: the seen ids are exactly the
derivable ids, every seen id is stored, every stored item whose id was seen
is the merge result of its (unique) entry up to bookkeeping writes, and all
order fields are pairwise distinct. -/
theorem preSweep_facts (cfg : PlanetCfg) (md5hex : String → String)
    (now₁ : Int) (ch : Channel) (entries : List Entry) (v₀ : Nat)
    (hclnE : ∀ e ∈ entries, entryClean ch.language e = true)
    (hitems : ∀ it ∈ ch.items, itemClean now₁ it = true)
    (hids : (ch.items.map NewsItem.id).Nodup)
    (hnext : ch.next_order = natToStr v₀)
    (hord : ∀ it ∈ ch.items, ∃ v, v ≤ v₀ ∧ it.orderF = some (natToStr v))
    (hordd : (ch.items.map NewsItem.orderF).Nodup)
    (hF : (entries.filterMap (ch.deriveId md5hex)).Nodup) :
    (((Channel.preSweep cfg md5hex now₁ ch entries).items.map
        NewsItem.orderF).Nodup) ∧
      (∀ i ∈ entries.filterMap (ch.deriveId md5hex),
        hasId (Channel.preSweep cfg md5hex now₁ ch entries).items i = true) ∧
      (∀ w ∈ (Channel.preSweep cfg md5hex now₁ ch entries).items,
        w.id ∈ entries.filterMap (ch.deriveId md5hex) →
        ∃ e' ∈ entries, ch.deriveId md5hex e' = some w.id ∧
          GoodAt (ch.shifted now₁) now₁ e' w) ∧
      ((Channel.mergedState cfg md5hex now₁ ch entries).feedItems =
        entries.filterMap (ch.deriveId md5hex)) := by
  have hbase : MergeInv ch (ch.shifted now₁) md5hex now₁ v₀ entries
      ⟨ch.items, [], []⟩ := by
    refine ⟨hids, ?_, ?_, List.nodup_nil, ?_, ?_, ?_, ?_, ?_, ?_, ?_⟩
    · intro i hi; exact absurd hi (List.not_mem_nil _)
    · intro i hi; exact absurd hi (List.not_mem_nil _)
    · intro i hi; exact absurd hi (List.not_mem_nil _)
    · intro w _ hf; exact absurd hf (List.not_mem_nil _)
    · intro w hw _; exact hw
    · intro w _ hn; exact absurd hn (List.not_mem_nil _)
    · intro w hw _; exact hord w hw
    · refine (List.pairwise_map.mp hordd).imp ?_
      intro x y hxy
      exact Or.inr (Or.inr hxy)
    · intro w hw; exact (itemClean_spec now₁ w (hitems w hw)).1
  have hFD : entries.filterMap ((ch.shifted now₁).deriveId md5hex) =
      entries.filterMap (ch.deriveId md5hex) := rfl
  have hinv1 : MergeInv ch (ch.shifted now₁) md5hex now₁ v₀ entries
      (Channel.mergedState cfg md5hex now₁ ch entries) := by
    refine mergeInv_fold cfg md5hex ch (ch.shifted now₁) now₁ v₀ entries
      hitems entries ⟨ch.items, [], []⟩ (fun e he => he)
      (fun e he => hclnE e he) ?_ hbase
    rw [hFD]
    simpa using hF
  have hfeed1 : (Channel.mergedState cfg md5hex now₁ ch entries).feedItems =
      entries.filterMap (ch.deriveId md5hex) := by
    show (entries.foldl (Channel.mergeEntry cfg md5hex (ch.shifted now₁))
      ⟨ch.items, [], []⟩).feedItems = _
    rw [mergeFold_feedItems, hFD]
    rfl
  have hpre : (Channel.preSweep cfg md5hex now₁ ch entries).items =
      ((Channel.mergedState cfg md5hex now₁ ch
        entries).newIds.reverse.foldl orderStep
        ((Channel.mergedState cfg md5hex now₁ ch entries).items,
          natToStr v₀)).1 := by
    show (assignOrders (Channel.mergedState cfg md5hex now₁ ch entries).items
      ch.next_order (Channel.mergedState cfg md5hex now₁ ch
        entries).newIds).1 = _
    rw [hnext]
    rfl
  have hAO := foldl_orderStep_spec
    (Channel.mergedState cfg md5hex now₁ ch entries).newIds.reverse
    (Channel.mergedState cfg md5hex now₁ ch entries).items v₀
    (List.nodup_reverse.mpr hinv1.newNod) hinv1.idsN
    (fun w hw hm => hinv1.ordNone w hw (List.mem_reverse.mp hm))
    (fun w hw hm => hinv1.ordSome w hw (fun hc =>
      hm (List.mem_reverse.mpr hc)))
    hinv1.ordPW hinv1.keysN
  rcases hAO with ⟨hf2, hmapid, _, hnodord, _⟩
  refine ⟨?_, ?_, ?_, hfeed1⟩
  · rw [hpre]
    exact hnodord
  · intro i hi
    rw [hpre, hasId_congr _ _ hmapid i]
    exact hinv1.feedHas i (by rw [hfeed1]; exact hi)
  · intro w hw hwF
    rw [hpre] at hw
    rcases mem_forall₂_right hf2 w hw with ⟨w₀, hw₀, hww⟩
    have hid : w.id = w₀.id := ordWrite_id w₀ w hww
    rcases hinv1.goodFeed w₀ hw₀ (by rw [← hid, hfeed1]; exact hwF) with
      ⟨e', he', hde', hg'⟩
    refine ⟨e', he', ?_, GoodAt_ordWrite _ _ _ _ _ hww hg'⟩
    rw [hid]
    exact hde'

theorem updateById_fix (items : List NewsItem) (i : String)
    (f : NewsItem → NewsItem) (h : ∀ w ∈ items, w.id = i → f w = w) :
    updateById items i f = items := by
  unfold updateById
  conv_rhs => rw [← List.map_id items]
  apply List.map_congr_left
  intro it hm
  by_cases hc : (it.id == i) = true
  · rw [if_pos hc]
    exact h it hm (by simpa using hc)
  · rw [if_neg hc]
    rfl

/-- The per-entry loop is a no-op when every derivable id is stored and its
item is a fixed point of the merge. -/
theorem mergeFold_fixed (cfg : PlanetCfg) (md5hex : String → String)
    (C₂ : Channel) (items : List NewsItem)
    (hlu : C₂.last_updated.isNone = false) :
    ∀ (E : List Entry) (fs : List String),
    (∀ e ∈ E, ∀ i, C₂.deriveId md5hex e = some i →
      hasId items i = true ∧
      ∀ w ∈ items, w.id = i → NewsItem.update C₂ e w = w) →
    E.foldl (Channel.mergeEntry cfg md5hex C₂) ⟨items, [], fs⟩ =
      ⟨items, [], fs ++ E.filterMap (C₂.deriveId md5hex)⟩ := by
  intro E
  induction E with
  | nil => intro fs _; simp
  | cons e rest ih =>
    intro fs hfix
    rw [List.foldl_cons]
    cases hd : C₂.deriveId md5hex e with
    | none =>
      rw [mergeEntry_skip cfg md5hex C₂ _ e hd,
        ih fs (fun e' he' => hfix e' (List.mem_cons_of_mem _ he')),
        List.filterMap_cons, hd]
    | some i =>
      rcases hfix e (List.mem_cons_self _ _) i hd with ⟨hfound, hfixw⟩
      have hstep : Channel.mergeEntry cfg md5hex C₂ ⟨items, [], fs⟩ e =
          ⟨items, [], fs ++ [i]⟩ := by
        unfold Channel.mergeEntry
        rw [hd]
        dsimp only
        rw [hfound]
        simp only [if_pos]
        rw [updateById_fix items i _ hfixw, hlu]
        simp
      rw [hstep, ih (fs ++ [i])
        (fun e' he' => hfix e' (List.mem_cons_of_mem _ he')),
        List.filterMap_cons, hd, List.append_assoc]
      rfl

/-- The second run's per-entry loop is the identity on the stored items: it
creates nothing and re-merges every entry into its unchanged item. -/
theorem second_run_merged (cfg : PlanetCfg) (md5hex : String → String)
    (now₁ now₂ : Int) (ch ch₁ : Channel) (entries : List Entry) (v₀ : Nat)
    (hne : entries ≠ []) (h12 : now₁ ≤ now₂)
    (hclnE : ∀ e ∈ entries, entryClean ch.language e = true)
    (hdatesE : ∀ e ∈ entries, entryDatesLe now₁ e = true)
    (hitems : ∀ it ∈ ch.items, itemClean now₁ it = true)
    (hids : (ch.items.map NewsItem.id).Nodup)
    (hnext : ch.next_order = natToStr v₀)
    (hord : ∀ it ∈ ch.items, ∃ v, v ≤ v₀ ∧ it.orderF = some (natToStr v))
    (hordd : (ch.items.map NewsItem.orderF).Nodup)
    (hF : (entries.filterMap (ch.deriveId md5hex)).Nodup)
    (hch₁ : ch₁ = Channel.update_entries cfg md5hex now₁ ch entries) :
    Channel.mergedState cfg md5hex now₂ ch₁ entries =
      ⟨ch₁.items, [], entries.filterMap (ch.deriveId md5hex)⟩ := by
  rcases preSweep_facts cfg md5hex now₁ ch entries v₀ hclnE hitems hids hnext
    hord hordd hF with ⟨hordnd, hhas, hgood, hfeed1⟩
  have hdecomp := update_entries_decomp cfg md5hex now₁ ch entries hne
  rw [hdecomp] at hch₁
  have hitems1 : ch₁.items =
      (Channel.preSweep cfg md5hex now₁ ch entries).items.filter
        (fun it => !((Channel.sweepResult cfg md5hex now₁ ch
          entries).any (fun j => j.id == it.id))) := by
    rw [hch₁]
  have hurl : ch₁.url = ch.url := by rw [hch₁]; rfl
  have hlang : ch₁.language = ch.language := by rw [hch₁]; rfl
  have hupd : ch₁.updated = some now₁ := by rw [hch₁]; rfl
  have hlu2 : (ch₁.shifted now₂).last_updated.isNone = false := by
    show (ch₁.updated).isNone = false
    rw [hupd]
    rfl
  have hderiv2 : ∀ e, (ch₁.shifted now₂).deriveId md5hex e =
      ch.deriveId md5hex e := fun e =>
    deriveId_congr_url md5hex _ _ e (show ch₁.url = ch.url from hurl)
  have hkeep : ∀ w ∈ (Channel.preSweep cfg md5hex now₁ ch entries).items,
      w.id ∈ entries.filterMap (ch.deriveId md5hex) →
      (!((Channel.sweepResult cfg md5hex now₁ ch entries).any
        (fun j => j.id == w.id))) = true := by
    intro w hw hwF
    cases hany : (Channel.sweepResult cfg md5hex now₁ ch entries).any
        (fun j => j.id == w.id) with
    | false => rfl
    | true =>
      rcases List.any_eq_true.mp hany with ⟨j, hj, hjb⟩
      have hsub := sweep_sub _ _ _ _ j hj
      rw [hfeed1] at hsub
      have hjid : j.id = w.id := by simpa using hjb
      rw [hjid] at hsub
      exact absurd (contains_eq_true_iff _ _ |>.mpr hwF)
        (by rw [hsub.2]; simp)
  have hcond : ∀ e ∈ entries, ∀ i,
      (ch₁.shifted now₂).deriveId md5hex e = some i →
      hasId ch₁.items i = true ∧
      ∀ w ∈ ch₁.items, w.id = i →
        NewsItem.update (ch₁.shifted now₂) e w = w := by
    intro e he i hd
    rw [hderiv2 e] at hd
    have hiF : i ∈ entries.filterMap (ch.deriveId md5hex) :=
      List.mem_filterMap.mpr ⟨e, he, hd⟩
    constructor
    · rcases (hasId_true_iff _ _).mp (hhas i hiF) with ⟨w, hw, hwid⟩
      refine (hasId_true_iff _ _).mpr ⟨w, ?_, hwid⟩
      rw [hitems1]
      exact List.mem_filter.mpr ⟨hw, hkeep w hw (by rw [hwid]; exact hiF)⟩
    · intro w hwmem hwid
      have hwpre : w ∈ (Channel.preSweep cfg md5hex now₁ ch entries).items := by
        rw [hitems1] at hwmem
        exact List.mem_of_mem_filter hwmem
      rcases hgood w hwpre (by rw [hwid]; exact hiF) with ⟨e', he', hde', hg⟩
      have hee : e' = e := by
        refine filterMap_nodup_inj (ch.deriveId md5hex) entries hF e' e i
          he' he ?_ hd
        rw [hde', hwid]
      subst hee
      rcases hg with ⟨a, hka, had, hww, hwk⟩
      refine update_again_id (ch.shifted now₁) (ch₁.shifted now₂) e' a w
        now₁ now₂ rfl rfl ?_ h12 hka had ?_ ?_ ?_ hww hwk
      · show ch₁.language = ch.language
        exact hlang
      · exact entryWrites_dates_le ch.language e' now₁ (hdatesE e' he')
      · exact (entryClean_spec ch.language e' (hclnE e' he')).1
      · exact (entryClean_spec ch.language e' (hclnE e' he')).2.1
  show entries.foldl (Channel.mergeEntry cfg md5hex (ch₁.shifted now₂))
    ⟨ch₁.items, [], []⟩ = _
  rw [mergeFold_fixed cfg md5hex (ch₁.shifted now₂) ch₁.items hlu2 entries
    [] hcond]
  rw [show Channel.deriveId md5hex (ch₁.shifted now₂) =
    Channel.deriveId md5hex ch from funext hderiv2]
  rw [List.nil_append]

/-- The second run's pre-sweep channel state is the first run's result with
only the two timestamps shifted: no item changes and no counter advance. -/
theorem second_run_preSweep (cfg : PlanetCfg) (md5hex : String → String)
    (now₁ now₂ : Int) (ch ch₁ : Channel) (entries : List Entry) (v₀ : Nat)
    (hne : entries ≠ []) (h12 : now₁ ≤ now₂)
    (hclnE : ∀ e ∈ entries, entryClean ch.language e = true)
    (hdatesE : ∀ e ∈ entries, entryDatesLe now₁ e = true)
    (hitems : ∀ it ∈ ch.items, itemClean now₁ it = true)
    (hids : (ch.items.map NewsItem.id).Nodup)
    (hnext : ch.next_order = natToStr v₀)
    (hord : ∀ it ∈ ch.items, ∃ v, v ≤ v₀ ∧ it.orderF = some (natToStr v))
    (hordd : (ch.items.map NewsItem.orderF).Nodup)
    (hF : (entries.filterMap (ch.deriveId md5hex)).Nodup)
    (hch₁ : ch₁ = Channel.update_entries cfg md5hex now₁ ch entries) :
    Channel.preSweep cfg md5hex now₂ ch₁ entries = ch₁.shifted now₂ := by
  have hms := second_run_merged cfg md5hex now₁ now₂ ch ch₁ entries v₀ hne h12
    hclnE hdatesE hitems hids hnext hord hordd hF hch₁
  unfold Channel.preSweep
  rw [hms]
  rfl

/-- Stored items whose id was seen this cycle survive the expiration
sweep. -/
theorem matched_kept (cfg : PlanetCfg) (md5hex : String → String)
    (now₁ : Int) (ch : Channel) (entries : List Entry)
    (hfeed1 : (Channel.mergedState cfg md5hex now₁ ch entries).feedItems =
      entries.filterMap (ch.deriveId md5hex)) (w : NewsItem)
    (hwF : w.id ∈ entries.filterMap (ch.deriveId md5hex)) :
    (!((Channel.sweepResult cfg md5hex now₁ ch entries).any
      (fun j => j.id == w.id))) = true := by
  cases hany : (Channel.sweepResult cfg md5hex now₁ ch entries).any
      (fun j => j.id == w.id) with
  | false => rfl
  | true =>
    rcases List.any_eq_true.mp hany with ⟨j, hj, hjb⟩
    have hsub := sweep_sub _ _ _ _ j hj
    rw [hfeed1] at hsub
    have hjid : j.id = w.id := by simpa using hjb
    rw [hjid] at hsub
    exact absurd (contains_eq_true_iff _ _ |>.mpr hwF)
      (by rw [hsub.2]; simp)

/-- The sweep in its pair form, with the seen-id list abstracted. -/
theorem sweepResult_pairs (cfg : PlanetCfg) (md5hex : String → String)
    (now : Int) (ch : Channel) (entries : List Entry) (F : List String)
    (hfeed : (Channel.mergedState cfg md5hex now ch entries).feedItems = F) :
    Channel.sweepResult cfg md5hex now ch entries =
      (sweepExpired (fun q : Nat × NewsItem => F.contains q.2.id)
        ((Channel.preSweep cfg md5hex now ch entries).url_status == some "226")
        F.length
        ((Channel.preSweep cfg md5hex now ch entries).sortedPairs
          false)).map (fun q => q.2) := by
  show sweepExpired
      (fun it => (Channel.mergedState cfg md5hex now ch
        entries).feedItems.contains it.id)
      ((Channel.preSweep cfg md5hex now ch entries).url_status == some "226")
      (Channel.mergedState cfg md5hex now ch entries).feedItems.length
      (((Channel.preSweep cfg md5hex now ch entries).sortedPairs false).map
        (fun q => q.2)) = _
  rw [hfeed]
  exact sweepExpired_map (fun q : Nat × NewsItem => q.2) _ _ _ _

/-- The second run's expiration sweep removes nothing: every item kept by the
first run either matches a seen id or already beat the count once, and the
seen ids, counts and sort keys are unchanged. -/
theorem second_run_sweep_nil (cfg : PlanetCfg) (md5hex : String → String)
    (now₁ now₂ : Int) (ch ch₁ : Channel) (entries : List Entry) (v₀ : Nat)
    (hne : entries ≠ []) (h12 : now₁ ≤ now₂)
    (hclnE : ∀ e ∈ entries, entryClean ch.language e = true)
    (hdatesE : ∀ e ∈ entries, entryDatesLe now₁ e = true)
    (hitems : ∀ it ∈ ch.items, itemClean now₁ it = true)
    (hids : (ch.items.map NewsItem.id).Nodup)
    (hnext : ch.next_order = natToStr v₀)
    (hord : ∀ it ∈ ch.items, ∃ v, v ≤ v₀ ∧ it.orderF = some (natToStr v))
    (hordd : (ch.items.map NewsItem.orderF).Nodup)
    (hF : (entries.filterMap (ch.deriveId md5hex)).Nodup)
    (hch₁ : ch₁ = Channel.update_entries cfg md5hex now₁ ch entries) :
    Channel.sweepResult cfg md5hex now₂ ch₁ entries = [] := by
  rcases preSweep_facts cfg md5hex now₁ ch entries v₀ hclnE hitems hids hnext
    hord hordd hF with ⟨hordnd, hhas, hgood, hfeed1⟩
  have hms := second_run_merged cfg md5hex now₁ now₂ ch ch₁ entries v₀ hne h12
    hclnE hdatesE hitems hids hnext hord hordd hF hch₁
  have hps := second_run_preSweep cfg md5hex now₁ now₂ ch ch₁ entries v₀ hne
    h12 hclnE hdatesE hitems hids hnext hord hordd hF hch₁
  have hdecomp := update_entries_decomp cfg md5hex now₁ ch entries hne
  have hust : (ch₁.shifted now₂).url_status = ch.url_status := by
    show ch₁.url_status = ch.url_status
    rw [hch₁, hdecomp]
    rfl
  have hitems1 : ch₁.items =
      (Channel.preSweep cfg md5hex now₁ ch entries).items.filter
        (fun it => !((Channel.sweepResult cfg md5hex now₁ ch
          entries).any (fun j => j.id == it.id))) := by
    rw [hch₁, hdecomp]
  have hmap₁ := sweepResult_pairs cfg md5hex now₁ ch entries
    (entries.filterMap (ch.deriveId md5hex)) hfeed1
  have hus1 : (Channel.preSweep cfg md5hex now₁ ch entries).url_status =
      ch.url_status := rfl
  rw [hus1] at hmap₁
  have hmap₂ := sweepResult_pairs cfg md5hex now₂ ch₁ entries
    (entries.filterMap (ch.deriveId md5hex)) (by rw [hms])
  rw [hps, hust] at hmap₂
  cases hr : (ch.url_status == some "226") with
  | true =>
    rw [hmap₂, hr, sweepExpired_retain]
    rfl
  | false =>
    rw [hr] at hmap₁ hmap₂
    rw [hmap₂]
    have hnil : sweepExpired
        (fun q : Nat × NewsItem =>
          (entries.filterMap (ch.deriveId md5hex)).contains q.2.id) false
        (entries.filterMap (ch.deriveId md5hex)).length
        ((ch₁.shifted now₂).sortedPairs false) = [] := by
      refine List.eq_nil_iff_forall_not_mem.mpr ?_
      intro p hp
      rcases (sweepExpired_char
          (fun q : Nat × NewsItem =>
            (entries.filterMap (ch.deriveId md5hex)).contains q.2.id) false
          pairGtB pairGtB_asym
          (entries.filterMap (ch.deriveId md5hex)).length
          ((ch₁.shifted now₂).sortedPairs false)
          (sortedPairs_pairwise_gt _ false) p).mp hp with
        ⟨hmem, hunm0, _, hcount0⟩
      have hunm : (entries.filterMap (ch.deriveId md5hex)).contains
          p.2.id = false := hunm0
      have hcount : ((ch₁.shifted now₂).sortedPairs false).countP
          (fun j => (entries.filterMap (ch.deriveId md5hex)).contains
            j.2.id && pairGtB j p) <
          (entries.filterMap (ch.deriveId md5hex)).length := hcount0
      have hxv2 : p.2 ∈ ch₁.items.filter (fun it => false || !it.hiddenF) :=
        pair_mem_view hmem
      rcases List.mem_filter.mp hxv2 with ⟨hx1, hxhid⟩
      rw [hitems1] at hx1
      rcases List.mem_filter.mp hx1 with ⟨hxpre, hxkeep⟩
      have hxv1 : p.2 ∈ (Channel.preSweep cfg md5hex now₁ ch
          entries).itemsView false :=
        List.mem_filter.mpr ⟨hxpre, hxhid⟩
      rcases view_mem_pair hxv1 with ⟨p₁, hp₁mem, hp₁x⟩
      have hxnot : p.2 ∉ Channel.sweepResult cfg md5hex now₁ ch entries := by
        intro hc
        have hany : (Channel.sweepResult cfg md5hex now₁ ch entries).any
            (fun j => j.id == p.2.id) = true :=
          List.any_eq_true.mpr ⟨p.2, hc, by simp⟩
        rw [hany] at hxkeep
        exact absurd hxkeep (by decide)
      have hp₁not : p₁ ∉ sweepExpired
          (fun q : Nat × NewsItem =>
            (entries.filterMap (ch.deriveId md5hex)).contains q.2.id) false
          (entries.filterMap (ch.deriveId md5hex)).length
          ((Channel.preSweep cfg md5hex now₁ ch entries).sortedPairs
            false) := by
        intro hc
        refine hxnot ?_
        rw [hmap₁]
        exact List.mem_map.mpr ⟨p₁, hc, hp₁x⟩
      have hunm₁ : (entries.filterMap (ch.deriveId md5hex)).contains
          p₁.2.id = false := by
        rw [hp₁x]
        exact hunm
      have hcount₁ : ¬(((Channel.preSweep cfg md5hex now₁ ch
          entries).sortedPairs false).countP
          (fun j => (entries.filterMap (ch.deriveId md5hex)).contains
            j.2.id && pairGtB j p₁) <
          (entries.filterMap (ch.deriveId md5hex)).length) := by
        intro hlt
        exact hp₁not ((sweepExpired_char _ false pairGtB pairGtB_asym _ _
          (sortedPairs_pairwise_gt _ false) p₁).mpr
          ⟨hp₁mem, hunm₁, rfl, hlt⟩)
      have hstep := Nat.le_of_not_lt hcount₁
      have h5 : ((Channel.preSweep cfg md5hex now₁ ch entries).sortedPairs
            false).countP
          (fun j => (entries.filterMap (ch.deriveId md5hex)).contains
            j.2.id && pairGtB j p₁) ≤
          ((Channel.preSweep cfg md5hex now₁ ch entries).sortedPairs
            false).countP
          (fun j => (entries.filterMap (ch.deriveId md5hex)).contains
            j.2.id && keyGtB j.2 p.2) := by
        refine List.countP_mono_left ?_
        intro j hj hpj
        rw [Bool.and_eq_true] at hpj
        rw [Bool.and_eq_true]
        refine ⟨hpj.1, ?_⟩
        rcases pairGtB_key_cases j p₁ hpj.2 with hgt | heq
        · rw [hp₁x] at hgt
          unfold keyGtB
          rw [hgt]
          rfl
        · exfalso
          have hor : j.2.orderF = p.2.orderF := by
            rw [← hp₁x]
            exact sortTupleCmp_eq_orderF _ _ heq
          have hj2 : j.2 ∈ (Channel.preSweep cfg md5hex now₁ ch
              entries).items :=
            List.mem_of_mem_filter (pair_mem_view hj)
          have hjx : j.2 = p.2 :=
            List.inj_on_of_nodup_map hordnd hj2 hxpre hor
          rw [hjx] at hpj
          rw [hpj.1] at hunm
          exact absurd hunm (by decide)
      have h6 : ((Channel.preSweep cfg md5hex now₁ ch entries).sortedPairs
            false).countP
          (fun j => (entries.filterMap (ch.deriveId md5hex)).contains
            j.2.id && keyGtB j.2 p.2) =
          ((Channel.preSweep cfg md5hex now₁ ch entries).itemsView
            false).countP
          (fun w => (entries.filterMap (ch.deriveId md5hex)).contains
            w.id && keyGtB w p.2) :=
        countP_sortedPairs _ false
          (fun w => (entries.filterMap (ch.deriveId md5hex)).contains
            w.id && keyGtB w p.2)
      have h7 : ((Channel.preSweep cfg md5hex now₁ ch entries).itemsView
            false).countP
          (fun w => (entries.filterMap (ch.deriveId md5hex)).contains
            w.id && keyGtB w p.2) =
          (Channel.preSweep cfg md5hex now₁ ch entries).items.countP
          (fun w => ((entries.filterMap (ch.deriveId md5hex)).contains
            w.id && keyGtB w p.2) && (false || !w.hiddenF)) :=
        List.countP_filter _ _ _
      have h8 : (Channel.preSweep cfg md5hex now₁ ch entries).items.countP
          (fun w => ((entries.filterMap (ch.deriveId md5hex)).contains
            w.id && keyGtB w p.2) && (false || !w.hiddenF)) =
          (Channel.preSweep cfg md5hex now₁ ch entries).items.countP
          (fun w => (((entries.filterMap (ch.deriveId md5hex)).contains
            w.id && keyGtB w p.2) && (false || !w.hiddenF)) &&
            !((Channel.sweepResult cfg md5hex now₁ ch entries).any
              (fun j => j.id == w.id))) := by
        refine List.countP_congr ?_
        intro w hw
        constructor
        · intro hA
          rw [Bool.and_eq_true]
          refine ⟨hA, ?_⟩
          have hc : (entries.filterMap (ch.deriveId md5hex)).contains
              w.id = true := by
            rw [Bool.and_eq_true, Bool.and_eq_true] at hA
            exact hA.1.1
          exact matched_kept cfg md5hex now₁ ch entries hfeed1 w
            ((contains_eq_true_iff _ _).mp hc)
        · intro hB
          rw [Bool.and_eq_true] at hB
          exact hB.1
      have h9 : ((ch₁.shifted now₂).itemsView false).countP
          (fun w => (entries.filterMap (ch.deriveId md5hex)).contains
            w.id && keyGtB w p.2) =
          (Channel.preSweep cfg md5hex now₁ ch entries).items.countP
          (fun w => (((entries.filterMap (ch.deriveId md5hex)).contains
            w.id && keyGtB w p.2) && (false || !w.hiddenF)) &&
            !((Channel.sweepResult cfg md5hex now₁ ch entries).any
              (fun j => j.id == w.id))) := by
        have e1 : ((ch₁.shifted now₂).itemsView false).countP
            (fun w => (entries.filterMap (ch.deriveId md5hex)).contains
              w.id && keyGtB w p.2) =
            ch₁.items.countP
            (fun w => ((entries.filterMap (ch.deriveId md5hex)).contains
              w.id && keyGtB w p.2) && (false || !w.hiddenF)) :=
          List.countP_filter _ _ _
        rw [e1, hitems1, List.countP_filter]
      have h10 : ((ch₁.shifted now₂).sortedPairs false).countP
          (fun j => (entries.filterMap (ch.deriveId md5hex)).contains
            j.2.id && keyGtB j.2 p.2) =
          ((ch₁.shifted now₂).itemsView false).countP
          (fun w => (entries.filterMap (ch.deriveId md5hex)).contains
            w.id && keyGtB w p.2) :=
        countP_sortedPairs _ false
          (fun w => (entries.filterMap (ch.deriveId md5hex)).contains
            w.id && keyGtB w p.2)
      have h11 : ((ch₁.shifted now₂).sortedPairs false).countP
          (fun j => (entries.filterMap (ch.deriveId md5hex)).contains
            j.2.id && keyGtB j.2 p.2) ≤
          ((ch₁.shifted now₂).sortedPairs false).countP
          (fun j => (entries.filterMap (ch.deriveId md5hex)).contains
            j.2.id && pairGtB j p) := by
        refine List.countP_mono_left ?_
        intro j hj hpj
        rw [Bool.and_eq_true] at hpj
        rw [Bool.and_eq_true]
        exact ⟨hpj.1, pairGtB_of_keyGtB j p hpj.2⟩
      omega
    rw [hnil]
    rfl

/-- C2 (amended): running `update_entries` a second time with a
byte-identical entry list is a pure timestamp refresh — it creates no new
item, changes no item field (in particular no `order`), leaves `next_order`
and the expired queue unchanged, and expires or removes nothing — provided
the inputs are well formed: the entries carry none of the bookkeeping keys
the merge itself writes (`order`, `hidden`, `id`-overwrites, `*_parsed`
collisions) and claim no dates after the first fetch time, the stored items
are clean with dates at or before the first fetch, stored ids and order
strings are pairwise distinct with the counter `next_order` past every
stored order, the derivable entry ids are pairwise distinct, the second
fetch is not earlier than the first, and no entry reaches the broken
`md5.new` fallback (`Entry.idCrash = false`, see C5) — on those runs the
faithful `update_entriesE` completes both times with the stated results.
Without those provisos the claim is false
(`update_entries_not_idempotent_order`). -/
theorem update_entries_second_run_refresh (cfg : PlanetCfg)
    (md5hex : String → String) (now₁ now₂ : Int) (ch ch₁ : Channel)
    (entries : List Entry) (v₀ : Nat)
    (hne : entries ≠ []) (h12 : now₁ ≤ now₂)
    (hok : ∀ e ∈ entries, e.idCrash = false)
    (hclnE : ∀ e ∈ entries, entryClean ch.language e = true)
    (hdatesE : ∀ e ∈ entries, entryDatesLe now₁ e = true)
    (hitems : ∀ it ∈ ch.items, itemClean now₁ it = true)
    (hids : (ch.items.map NewsItem.id).Nodup)
    (hnext : ch.next_order = natToStr v₀)
    (hord : ∀ it ∈ ch.items, ∃ v, v ≤ v₀ ∧ it.orderF = some (natToStr v))
    (hordd : (ch.items.map NewsItem.orderF).Nodup)
    (hF : (entries.filterMap (ch.deriveId md5hex)).Nodup)
    (hch₁ : ch₁ = Channel.update_entries cfg md5hex now₁ ch entries) :
    Channel.update_entries cfg md5hex now₂ ch₁ entries =
        { ch₁ with updated := some now₂, last_updated := ch₁.updated } ∧
      (Channel.update_entries cfg md5hex now₂ ch₁ entries).items =
        ch₁.items ∧
      (Channel.update_entries cfg md5hex now₂ ch₁ entries).next_order =
        ch₁.next_order ∧
      (Channel.update_entries cfg md5hex now₂ ch₁ entries).expired =
        ch₁.expired ∧
      ch₁.updated = some now₁ ∧
      (Channel.update_entriesE cfg md5hex now₁ ch entries = .ok ch₁) ∧
      (Channel.update_entriesE cfg md5hex now₂ ch₁ entries =
        .ok { ch₁ with
                updated := some now₂, last_updated := ch₁.updated }) := by
  have hex := second_run_sweep_nil cfg md5hex now₁ now₂ ch ch₁ entries v₀
    hne h12 hclnE hdatesE hitems hids hnext hord hordd hF hch₁
  have hps := second_run_preSweep cfg md5hex now₁ now₂ ch ch₁ entries v₀
    hne h12 hclnE hdatesE hitems hids hnext hord hordd hF hch₁
  have hd2 := update_entries_decomp cfg md5hex now₂ ch₁ entries hne
  have hupd : ch₁.updated = some now₁ := by
    rw [hch₁, update_entries_decomp cfg md5hex now₁ ch entries hne]
    rfl
  have h1 : Channel.update_entries cfg md5hex now₂ ch₁ entries =
      { ch₁ with updated := some now₂, last_updated := ch₁.updated } := by
    rw [hd2, hps, hex]
    simp only [List.any_nil, Bool.not_false, List.filter_true,
      List.append_nil]
    rfl
  refine ⟨h1, ?_, ?_, ?_, hupd, ?_, ?_⟩
  · rw [h1]
  · rw [h1]
  · rw [h1]
  · rw [update_entriesE_ok cfg md5hex now₁ ch entries hok, hch₁]
  · rw [update_entriesE_ok cfg md5hex now₂ ch₁ entries hok, h1]

/-- Witness: a brand-new channel ingests one entry at time 100, and a second
run of the byte-identical list at time 200 only refreshes the two
timestamps. -/
theorem update_entries_second_run_refresh_witness :
    Channel.update_entries cfgFix digestFix 200
        (Channel.update_entries cfgFix digestFix 100 chBrandNewFix
          [entryMatchFix]) [entryMatchFix] =
      { Channel.update_entries cfgFix digestFix 100 chBrandNewFix
          [entryMatchFix] with
          updated := some 200,
          last_updated := (Channel.update_entries cfgFix digestFix 100
            chBrandNewFix [entryMatchFix]).updated } :=
  (update_entries_second_run_refresh cfgFix digestFix 100 200 chBrandNewFix
    _ [entryMatchFix] 0 (List.cons_ne_nil _ _) (by decide) (by decide)
    (by decide)
    (by decide) (fun it hit => absurd hit (List.not_mem_nil _)) (by decide)
    (by decide) (fun it hit => absurd hit (List.not_mem_nil _)) (by decide)
    (by decide) rfl).1
